import Mathlib

/-!
TEventList: a sorted, duplicate-free list of 64-bit entry numbers

A shallow embedding of `tree/tree/src/TEventList.cxx` and proofs about it.

Modelling conventions.

* `Long64_t` entries are mathematical integers (`Int`).  The code only copies and
  compares entries, it never does arithmetic on them, so no wrap-around can occur.
* `Int_t` counters (`fN`, `fSize`, `fDelta`, loop indices) are mathematical integers
  as well; the results below speak about executions in which no counter leaves the
  `Int_t` range (lists of fewer than `2^31` entries).
* The heap array behind `fList` is a `List Int` with one element per allocated slot;
  a null pointer is `none`.  `new Long64_t[n]` returns `n` slots with unspecified
  contents, taken from `Env.junk`.
* Every operation runs in `Exec`: a null dereference, an access outside the allocated
  slots, or an allocation of negative size is reported as a `Fault` instead of being
  given a meaning.  `while` loops whose trip count is not a counter carry a bound on
  the number of iterations and report `Fault.outOfFuel` when it does not suffice.
* `TMath::BinarySearch` and `TMath::Sort` are called by the code but defined elsewhere;
  they are modelled from the specification (`BinarySearch`, `TMathSort`).  The member `Sort`
  is called `SortEntries` here, `Sort` being reserved in Lean.
* Directory registration (`fDirectory`), `fReapply` and the object name play no role
  in the list algorithms and are left out.  The title (selection) is kept in `fTitle`;
  the `TCut` operators that combine two titles live outside this file and are taken
  from `Env`.
-/

namespace TEventList

/-- Ways in which an execution can leave defined behaviour. -/
inductive Fault where
  | nullDeref
  | outOfBounds
  | badAlloc
  | outOfFuel
  deriving DecidableEq, Repr

/-- Result of running a piece of the program. -/
abbrev Exec (α : Type) : Type := Except Fault α

/-- What the surrounding system supplies: the `TCut` operators on selection strings
and the contents of freshly allocated memory. -/
structure Env where
  cutOr : String → String → String
  cutAnd : String → String → String
  cutNot : String → String
  junk : Nat → Int

/-- The data members of a `TEventList` object. -/
structure State where
  fN : Int
  fSize : Int
  fDelta : Int
  fList : Option (List Int)
  fTitle : String

/-- Allocation `new Long64_t[n]`: `n` slots of unspecified contents; a negative size fails. -/
def newArray (env : Env) (n : Int) : Exec (List Int) :=
  if 0 ≤ n then .ok ((List.range n.toNat).map env.junk) else .error Fault.badAlloc

/-- Read of `p[i]`. -/
def load (p : Option (List Int)) (i : Int) : Exec Int :=
  match p with
  | none => .error Fault.nullDeref
  | some l =>
    if 0 ≤ i then
      match l[i.toNat]? with
      | some v => .ok v
      | none => .error Fault.outOfBounds
    else .error Fault.outOfBounds

/-- Write `l[i] = v` into an allocated array. -/
def store (l : List Int) (i : Int) (v : Int) : Exec (List Int) :=
  if 0 ≤ i ∧ i.toNat < l.length then .ok (l.set i.toNat v) else .error Fault.outOfBounds

/-- The copy loop `for (i=0; i<n; i++) dst[i] = src[i];`, standing at index `i` with `k`
iterations left. -/
def copyLoop (src : Option (List Int)) : Nat → Int → List Int → Exec (List Int)
  | 0, _, dst => .ok dst
  | k + 1, i, dst => do
    let v ← load src i
    let dst ← store dst i v
    copyLoop src k (i + 1) dst

/-- Library call `memmove(&l[dst], &l[src], 8*cnt)`: moves `cnt` entries inside one array. -/
def memmove (l : List Int) (dst src cnt : Int) : Exec (List Int) :=
  if 0 ≤ cnt ∧ 0 ≤ src ∧ 0 ≤ dst ∧ src + cnt ≤ l.length ∧ dst + cnt ≤ l.length then
    .ok (l.take dst.toNat ++ (l.drop src.toNat).take cnt.toNat ++ l.drop (dst + cnt).toNat)
  else .error Fault.outOfBounds

/-- Modelled from the spec: `TMath::BinarySearch(n, array, value)` (TMath.h, not part
of the sources at hand) gives the index of the largest element `≤ value` among the first
`n` elements of `array`; `-1` stands for "there is none", the case `Enter` tests with
`pos >= 0`. -/
def BinarySearch (n : Int) (array : List Int) (value : Int) : Int :=
  match ((array.take n.toNat).filter (fun e => decide (e ≤ value))).max? with
  | none => -1
  | some m => ((array.take n.toNat).indexOf m : Nat)

/-- The default constructor `TEventList()`. -/
def ctorDefault : State :=
  { fN := 0, fSize := 100, fDelta := 100, fList := none, fTitle := "" }

/-- The constructor `TEventList(name, title, initsize, delta)`. -/
def ctor (title : String) (initsize delta : Int) : State :=
  { fN := 0
    fSize := if initsize > 100 then initsize else 100
    fDelta := if delta > 100 then delta else 100
    fList := none
    fTitle := title }

/-- The loop of `GetIndex`; `fuel` bounds the number of iterations. -/
def GetIndexLoop (fList : Option (List Int)) (entry : Int) :
    Nat → Int → Int → Exec Int
  | fuel, nabove, nbelow =>
    if nabove - nbelow > 1 then
      match fuel with
      | 0 => .error Fault.outOfFuel
      | k + 1 => do
        let middle := (nabove + nbelow).tdiv 2
        let v ← load fList (middle - 1)
        if entry = v then .ok (middle - 1)
        else if entry < v then GetIndexLoop fList entry k middle nbelow
        else GetIndexLoop fList entry k nabove middle
    else .ok (-1)

/-- Member `TEventList::GetIndex`: binary search for `entry`, `-1` when absent. -/
def GetIndex (s : State) (entry : Int) : Exec Int :=
  GetIndexLoop s.fList entry s.fN.toNat (s.fN + 1) 0

/-- Member `TEventList::Contains`. -/
def Contains (s : State) (entry : Int) : Exec Bool := do
  let idx ← GetIndex s entry
  if idx < 0 then .ok false else .ok true

/-- Member `TEventList::GetEntry`. -/
def GetEntry (s : State) (index : Int) : Exec Int :=
  match s.fList with
  | none => .ok (-1)
  | some l => if index < 0 ∨ index ≥ s.fN then .ok (-1) else load (some l) index

/-- Member `TEventList::Reset`. -/
def Reset (s : State) : State := { s with fN := 0 }

/-- Member `TEventList::Resize`. -/
def Resize (env : Env) (s : State) (delta : Int) : Exec State := do
  let delta := if delta = 0 then s.fDelta else delta
  let fSize := s.fSize + delta
  let newlist ← newArray env fSize
  let newlist ← copyLoop s.fList s.fN.toNat 0 newlist
  .ok { s with fSize := fSize, fList := some newlist }

/-- The tail of `Enter`, from `if(fN==0 || entry>fList[fN-1])` on: append at the end or
insert at the position found by the binary search. -/
def EnterPlace (s : State) (entry : Int) : Exec State := do
  let last ← if s.fN = 0 then .ok 0 else load s.fList (s.fN - 1)
  match s.fList with
  | none => .error Fault.nullDeref
  | some l =>
    if s.fN = 0 ∨ entry > last then do
      let l ← store l s.fN entry
      .ok { s with fList := some l, fN := s.fN + 1 }
    else do
      let pos := BinarySearch s.fN l entry
      let found ← if pos ≥ 0 then load (some l) pos else .ok 0
      if pos ≥ 0 ∧ entry = found then .ok s
      else do
        let pos := pos + 1
        let l ← memmove l (pos + 1) pos (s.fN - pos)
        let l ← store l pos entry
        .ok { s with fList := some l, fN := s.fN + 1 }

/-- Member `TEventList::Enter`. -/
def Enter (env : Env) (s : State) (entry : Int) : Exec State :=
  match s.fList with
  | none => do
    let l ← newArray env s.fSize
    let l ← store l 0 entry
    .ok { s with fList := some l, fN := 1 }
  | some l0 => do
    let last ← if s.fN > 0 then load (some l0) (s.fN - 1) else .ok 0
    if s.fN > 0 ∧ entry = last then .ok s
    else do
      let s ← if s.fN ≥ s.fSize then
          Resize env s (max (2 * s.fSize) (s.fN + s.fDelta) - s.fSize)
        else .ok s
      EnterPlace s entry

/-- The inner loop of `Add`:
`while (alpos < an && x > alst[alpos]) { newlist[newpos] = alst[alpos]; newpos++; alpos++; }`
with `x = fList[i]`; `fuel` bounds the number of iterations. -/
def AddWhile (alst : Option (List Int)) (an x : Int) :
    Nat → List Int → Int → Int → Exec (List Int × Int × Int)
  | fuel, newlist, newpos, alpos =>
    if alpos < an then do
      let a ← load alst alpos
      if x > a then
        match fuel with
        | 0 => .error Fault.outOfFuel
        | k + 1 => do
          let newlist ← store newlist newpos a
          AddWhile alst an x k newlist (newpos + 1) (alpos + 1)
      else .ok (newlist, newpos, alpos)
    else .ok (newlist, newpos, alpos)

/-- The main loop of `Add`, `for (i=0;i<fN;i++) { ... }`, with `k` iterations left. -/
def AddFor (fList alst : Option (List Int)) (an : Int) :
    Nat → Int → List Int → Int → Int → Exec (List Int × Int × Int)
  | 0, _, newlist, newpos, alpos => .ok (newlist, newpos, alpos)
  | k + 1, i, newlist, newpos, alpos => do
    let x ← load fList i
    let (newlist, newpos, alpos) ← AddWhile alst an x (an - alpos).toNat newlist newpos alpos
    let a ← if alpos < an then load alst alpos else .ok 0
    let alpos := if alpos < an ∧ x = a then alpos + 1 else alpos
    let newlist ← store newlist newpos x
    AddFor fList alst an k (i + 1) newlist (newpos + 1) alpos

/-- The closing loop of `Add`,
`while (alpos < an) { newlist[newpos] = alst[alpos]; newpos++; alpos++; }`,
with `k` iterations left. -/
def AddRest (alst : Option (List Int)) : Nat → List Int → Int → Int → Exec (List Int × Int)
  | 0, newlist, newpos, _ => .ok (newlist, newpos)
  | k + 1, newlist, newpos, alpos => do
    let a ← load alst alpos
    let newlist ← store newlist newpos a
    AddRest alst k newlist (newpos + 1) (alpos + 1)

/-- Member `TEventList::Add`.  The argument is a pointer; a null pointer is dereferenced. -/
def Add (env : Env) (s : State) (alist : Option State) : Exec State :=
  match alist with
  | none => .error Fault.nullDeref
  | some al =>
    let an := al.fN
    if an = 0 then .ok s
    else
      let alst := al.fList
      match s.fList with
      | none => do
        let l ← newArray env an
        let l ← copyLoop alst an.toNat 0 l
        .ok { s with fList := some l, fN := an, fSize := an }
      | some fl => do
        let newsize := s.fN + an
        let newlist ← newArray env newsize
        let (newlist, newpos, alpos) ← AddFor (some fl) alst an s.fN.toNat 0 newlist 0 0
        let (newlist, newpos) ← AddRest alst (an - alpos).toNat newlist newpos alpos
        .ok { s with
              fN := newpos, fSize := newsize, fList := some newlist
              fTitle := env.cutOr s.fTitle al.fTitle }

/-- The loop shared by `Subtract` and `Intersect`:
`for (i=0;i<fN;i++) if (keep (alist->GetIndex(fList[i]))) { newlist[newpos] = fList[i]; newpos++; }`
with `k` iterations left. -/
def FilterFor (keep : Int → Bool) (fList : Option (List Int)) (al : State) :
    Nat → Int → List Int → Int → Exec (List Int × Int)
  | 0, _, newlist, newpos => .ok (newlist, newpos)
  | k + 1, i, newlist, newpos => do
    let x ← load fList i
    let idx ← GetIndex al x
    if keep idx then do
      let newlist ← store newlist newpos x
      FilterFor keep fList al k (i + 1) newlist (newpos + 1)
    else FilterFor keep fList al k (i + 1) newlist newpos

/-- Member `TEventList::Intersect`. -/
def Intersect (env : Env) (s : State) (alist : Option State) : Exec State :=
  match alist with
  | none => .ok s
  | some al =>
    match s.fList with
    | none => .ok s
    | some fl => do
      let newlist ← newArray env s.fN
      let (newlist, newpos) ←
        FilterFor (fun idx => decide (idx ≥ 0)) (some fl) al s.fN.toNat 0 newlist 0
      .ok { s with
            fN := newpos, fList := some newlist
            fTitle := env.cutAnd s.fTitle al.fTitle }

/-- Member `TEventList::Subtract`. -/
def Subtract (env : Env) (s : State) (alist : Option State) : Exec State :=
  match alist with
  | none => .ok s
  | some al =>
    match s.fList with
    | none => .ok s
    | some fl => do
      let newlist ← newArray env s.fN
      let (newlist, newpos) ←
        FilterFor (fun idx => decide (idx < 0)) (some fl) al s.fN.toNat 0 newlist 0
      .ok { s with
            fN := newpos, fList := some newlist
            fTitle := env.cutAnd s.fTitle (env.cutNot al.fTitle) }

/-- The copy constructor `TEventList(const TEventList &list)`. -/
def ctorCopy (env : Env) (list : State) : Exec State := do
  let l ← newArray env list.fSize
  let l ← copyLoop list.fList list.fN.toNat 0 l
  .ok { fN := list.fN, fSize := list.fSize, fDelta := list.fDelta, fList := some l,
        fTitle := list.fTitle }

/-- The free function `operator-(list1, list2)`: copy `list1`, then `Subtract`. -/
def operatorMinus (env : Env) (list1 list2 : State) : Exec State := do
  let newlist ← ctorCopy env list1
  Subtract env newlist (some list2)

/-- The free function `operator*(list1, list2)`: copy `list1`, then `Intersect`. -/
def operatorTimes (env : Env) (list1 list2 : State) : Exec State := do
  let newlist ← ctorCopy env list1
  Intersect env newlist (some list2)

/-- The valid entries `fList[0] .. fList[fN-1]`; none at all behind a null pointer. -/
def entries (s : State) : List Int :=
  match s.fList with
  | none => []
  | some l => l.take s.fN.toNat

/-- Memory consistency: the count is not negative, it is zero while nothing is
allocated, and the first `fN` slots exist. -/
def WF (s : State) : Prop :=
  0 ≤ s.fN ∧
  match s.fList with
  | none => s.fN = 0
  | some l => s.fN ≤ l.length

/-- The capacity invariant on top of `WF`: `count ≤ capacity`, the capacity is positive
(every constructor makes it at least 100) and no larger than the allocated array. -/
def Valid (s : State) : Prop :=
  0 ≤ s.fN ∧ s.fN ≤ s.fSize ∧ 0 < s.fSize ∧
  match s.fList with
  | none => s.fN = 0
  | some l => s.fSize ≤ l.length

/-- The sort invariant: `fList[i] < fList[j]` for all valid `i < j`. -/
def StrictlyIncreasing (s : State) : Prop :=
  (entries s).Pairwise (fun a b => a < b)

instance (s : State) : Decidable (WF s) := by
  unfold WF
  cases s.fList <;> exact inferInstance

instance (s : State) : Decidable (Valid s) := by
  unfold Valid
  cases s.fList <;> exact inferInstance

instance (s : State) : Decidable (StrictlyIncreasing s) := by
  unfold StrictlyIncreasing
  exact inferInstance

/-- A sequence of `Enter` calls. -/
def enterAll (env : Env) (s : State) (xs : List Int) : Exec State :=
  xs.foldlM (Enter env) s

/-- Sortedness of the first `n` slots, phrased on the array itself. -/
def SortedUpTo (l : List Int) (n : Nat) : Prop :=
  ∀ i j : Nat, i < j → j < n → ∀ a b : Int, l[i]? = some a → l[j]? = some b → a < b

/-- State of the merge after consuming `i` entries of `a` and `j` entries of `b`: the
output so far is strictly increasing, holds exactly what was consumed, and lies below
everything still to come. -/
def MergeInv (a b out : List Int) (i j : Nat) : Prop :=
  out.Pairwise (fun u v => u < v) ∧
  (∀ y, y ∈ out ↔ y ∈ a.take i ∨ y ∈ b.take j) ∧
  (∀ y ∈ out, ∀ z ∈ a.drop i, y < z) ∧
  (∀ y ∈ out, ∀ z ∈ b.drop j, y < z)

/-- A concrete environment: `TCut`-like text for the combined selections, and fresh memory
whose slot `i` holds `i + 1000`. -/
def sampleEnv : Env :=
  { cutOr := fun a b => "(" ++ a ++ ")||(" ++ b ++ ")"
    cutAnd := fun a b => "(" ++ a ++ ")&&(" ++ b ++ ")"
    cutNot := fun a => "!(" ++ a ++ ")"
    junk := fun i => (i : Int) + 1000 }

/-- The list `[1,3,5,7]` in a buffer of four slots. -/
def list1357 : State :=
  { fN := 4, fSize := 4, fDelta := 100, fList := some [1, 3, 5, 7], fTitle := "" }

/-- The list `[1,5]` in a buffer of three slots: one more entry fills it. -/
def list15 : State :=
  { fN := 2, fSize := 3, fDelta := 100, fList := some [1, 5, 0], fTitle := "" }

/-- The list `[3,4,5]` in a buffer of three slots. -/
def list345 : State :=
  { fN := 3, fSize := 3, fDelta := 100, fList := some [3, 4, 5], fTitle := "" }


/-- Member `TEventList::ContainsRange`. -/
def ContainsRange (s : State) (entrymin entrymax : Int) : Exec Bool := do
  let imax := BinarySearch s.fN (s.fList.getD []) entrymax
  let v ← load s.fList imax
  if v < entrymin then .ok false else .ok true

/-- Modelled from the spec: `TMath::Sort(n, a, index)` (TMath.h, not part of the sources
at hand) fills `index` with the positions `0 .. n-1`, ordered so that the values
`a[index[0]], a[index[1]], ...` descend ("sort in decreasing order" at the call site);
the sort is stable, equal values keep their relative order. -/
def TMathSort (n : Int) (a : List Int) : List Int :=
  ((List.range n.toNat).insertionSort (fun i j => a.getD j 0 ≤ a.getD i 0)).map
    (fun (i : Nat) => (i : Int))

/-- The call `TMath::Sort(fN, fList, index)` in `Sort`, which reads
`fList[0] .. fList[fN-1]` and fills the index array. -/
def SortIndex (s : State) : Exec (List Int) :=
  match s.fList with
  | none => if s.fN ≤ 0 then .ok [] else .error Fault.nullDeref
  | some l => if s.fN ≤ l.length then .ok (TMathSort s.fN l) else .error Fault.outOfBounds

/-- The first loop of `Sort`,
`for (i=0;i<fN;i++) { ind = index[fN-i-1]; newlist[i] = fList[ind]; }`,
with `k` iterations left. -/
def SortFor (fList : Option (List Int)) (index : List Int) (fN : Int) :
    Nat → Int → List Int → Exec (List Int)
  | 0, _, newlist => .ok newlist
  | k + 1, i, newlist => do
    let ind ← load (some index) (fN - i - 1)
    let v ← load fList ind
    let newlist ← store newlist i v
    SortFor fList index fN k (i + 1) newlist

/-- The second loop of `Sort`, `for (i=fN;i<fSize;i++) newlist[i] = 0;`, with `k`
iterations left. -/
def SortPad : Nat → Int → List Int → Exec (List Int)
  | 0, _, newlist => .ok newlist
  | k + 1, i, newlist => do
    let newlist ← store newlist i 0
    SortPad k (i + 1) newlist

/-- Member `TEventList::Sort` (the name `Sort` itself is reserved in Lean). -/
def SortEntries (env : Env) (s : State) : Exec State := do
  let _ ← newArray env s.fN
  let newlist ← newArray env s.fSize
  let index ← SortIndex s
  let newlist ← SortFor s.fList index s.fN s.fN.toNat 0 newlist
  let newlist ← SortPad (s.fSize - s.fN).toNat s.fN newlist
  .ok { s with fList := some newlist }

/-- An element of a `TCollection`: an event list, or an object of another class. -/
inductive TObject where
  | eventList (el : State)
  | other

/-- The loop of `Merge` over the elements still to come; the result is the value that
`Merge` returns together with the state of the receiver. -/
def MergeLoop (env : Env) : List TObject → State → Int → Exec (Int × State)
  | [], s, nevents => .ok (nevents, s)
  | TObject.other :: _, s, _ => .ok (-1, s)
  | TObject.eventList el :: rest, s, nevents => do
    let s ← Add env s (some el)
    MergeLoop env rest s (nevents + el.fN)

/-- Member `TEventList::Merge`; the collection is a pointer and may be null. -/
def Merge (env : Env) (s : State) (list : Option (List TObject)) : Exec (Int × State) :=
  match list with
  | none => .ok (-1, s)
  | some l => MergeLoop env l s 0

/-- A sequence of `Add` calls. -/
def addAll (env : Env) (s : State) (ls : List State) : Exec State :=
  ls.foldlM (fun r el => Add env r (some el)) s

/-- The list `[1,5,9]` filling its three slots, growth increment 100. -/
def list159 : State :=
  { fN := 3, fSize := 3, fDelta := 100, fList := some [1, 5, 9], fTitle := "" }

/-- The unsorted buffer `1, 1` with a repeated value, two entries in two slots. -/
def list11 : State :=
  { fN := 2, fSize := 2, fDelta := 100, fList := some [1, 1], fTitle := "" }

/-- The unsorted buffer `5, 1, 4`, three entries in five slots. -/
def list514 : State :=
  { fN := 3, fSize := 5, fDelta := 100, fList := some [5, 1, 4, 8, 8], fTitle := "" }

/-- The list `[1,3,5,7]` with the selection `x<0` as its title. -/
def selA : State :=
  { fN := 4, fSize := 4, fDelta := 100, fList := some [1, 3, 5, 7], fTitle := "x<0" }

/-- The list `[3,4,5]` with the selection `y>0` as its title. -/
def selB : State :=
  { fN := 3, fSize := 3, fDelta := 100, fList := some [3, 4, 5], fTitle := "y>0" }

/-- A newly constructed, empty list with the selection `y>0` as its title. -/
def selEmpty : State := ctor "y>0" 0 0

/-- One successful call of a mutating operation: `Enter(x)` for any `x`, `Add(B)` for a
consistent, strictly increasing `B`, `Subtract` and `Intersect` with any argument (a null
pointer included), `Reset()`, and `Resize(delta)` with `delta ≥ 0`. -/
inductive Step (env : Env) : State → State → Prop where
  | enter (s s' : State) (x : Int) : Enter env s x = .ok s' → Step env s s'
  | add (s s' B : State) : WF B → StrictlyIncreasing B → Add env s (some B) = .ok s' →
      Step env s s'
  | subtract (s s' : State) (alist : Option State) : Subtract env s alist = .ok s' →
      Step env s s'
  | intersect (s s' : State) (alist : Option State) : Intersect env s alist = .ok s' →
      Step env s s'
  | reset (s : State) : Step env s (Reset s)
  | resize (s s' : State) (delta : Int) : 0 ≤ delta → Resize env s delta = .ok s' →
      Step env s s'

/-- The states reached from a newly constructed list by successful calls. -/
inductive Reachable (env : Env) : State → Prop where
  | new (title : String) (initsize delta : Int) : Reachable env (ctor title initsize delta)
  | step (s s' : State) : Reachable env s → Step env s s' → Reachable env s'

/-- What holds along every such run: memory consistency, the sort invariant,
`count ≤ capacity` for the recorded capacity, and positive capacity and increment. -/
def ReachInv (s : State) : Prop :=
  WF s ∧ StrictlyIncreasing s ∧ s.fN ≤ s.fSize ∧ 0 < s.fSize ∧ 0 < s.fDelta

/-- The copy loop of `operator=`, `for (i=0; i<fN; i++) fList[i] = list.fList[i];`, run
`k` times on the receiver's `fList`, which may be a null pointer. -/
def AssignFor (src : Option (List Int)) (k : Nat) (dst : Option (List Int)) :
    Exec (Option (List Int)) :=
  match dst with
  | some d => do
    let d ← copyLoop src k 0 d
    .ok (some d)
  | none =>
    match k with
    | 0 => .ok none
    | _ + 1 => .error Fault.nullDeref

/-- The assignment `operator=(list)` for a source that is not the receiver itself (the
branch `this != &list`; assigning a list to itself changes nothing). -/
def operatorAssign (env : Env) (s list : State) : Exec State := do
  let fList ← if s.fSize < list.fSize then do
      let l ← newArray env list.fSize
      .ok (some l)
    else .ok s.fList
  let fList ← AssignFor list.fList list.fN.toNat fList
  .ok { fN := list.fN, fSize := list.fSize, fDelta := list.fDelta, fList := fList,
        fTitle := list.fTitle }

/-! ## Running code: elementary steps -/

@[simp] theorem ok_bind {α β : Type} (a : α) (f : α → Exec β) :
    (Except.ok a >>= f) = f a := rfl

@[simp] theorem error_bind {α β : Type} (e : Fault) (f : α → Exec β) :
    ((Except.error e : Exec α) >>= f) = Except.error e := rfl

theorem load_ok {l : List Int} {i : Nat} {v : Int} (h : l[i]? = some v) :
    load (some l) (i : Int) = .ok v := by
  simp [load, h]

theorem load_ok_int {l : List Int} {i : Int} {v : Int} (hi : 0 ≤ i)
    (h : l[i.toNat]? = some v) : load (some l) i = .ok v := by
  simp [load, h, hi]

theorem store_ok {l : List Int} {i : Nat} (v : Int) (h : i < l.length) :
    store l (i : Int) v = .ok (l.set i v) := by
  simp [store, h]

theorem newArray_ok (env : Env) (n : Nat) :
    ∃ l, newArray env (n : Int) = .ok l ∧ l.length = n := by
  refine ⟨(List.range n).map env.junk, ?_, by simp⟩
  simp [newArray]

theorem sortedUpTo_of_pairwise {l : List Int} {n : Nat}
    (h : (l.take n).Pairwise (fun a b => a < b)) : SortedUpTo l n := by
  intro i j hij hjn a b ha hb
  rw [List.pairwise_iff_getElem] at h
  have hb2 : (l.take n)[j]? = some b := by rw [List.getElem?_take]; simp [hjn, hb]
  have ha2 : (l.take n)[i]? = some a := by
    rw [List.getElem?_take]; simp [show i < n by omega, ha]
  obtain ⟨hj, hbj⟩ := List.getElem?_eq_some.mp hb2
  obtain ⟨hi, hai⟩ := List.getElem?_eq_some.mp ha2
  have := h i j hi hj hij
  rw [hai, hbj] at this
  exact this

/-! ## GetIndex -/

theorem GetIndexLoop_spec (l : List Int) (n : Nat) (hn : n ≤ l.length)
    (hs : SortedUpTo l n) (x : Int) :
    ∀ (fuel hi lo : Nat), lo < hi → hi ≤ n + 1 → hi - lo - 1 ≤ fuel →
      (∀ j v, j < lo → l[j]? = some v → v < x) →
      (∀ j v, hi - 1 ≤ j → j < n → l[j]? = some v → x < v) →
      ∃ r : Int, GetIndexLoop (some l) x fuel (hi : Int) (lo : Int) = .ok r ∧
        ((r = -1 ∧ ∀ i : Nat, i < n → l[i]? ≠ some x) ∨
         (∃ i : Nat, i < n ∧ l[i]? = some x ∧ r = (i : Int))) := by
  intro fuel
  induction fuel with
  | zero =>
    intro hi lo hlo hhi hfuel hbelow habove
    have hgap : hi = lo + 1 := by omega
    refine ⟨-1, ?_, Or.inl ⟨rfl, ?_⟩⟩
    · unfold GetIndexLoop
      have : ¬ ((hi : Int) - (lo : Int) > 1) := by omega
      simp [this]
    · intro i hin hix
      rcases Nat.lt_or_ge i lo with h | h
      · exact absurd (hbelow i x h hix) (lt_irrefl x)
      · exact absurd (habove i x (by omega) hin hix) (lt_irrefl x)
  | succ k ih =>
    intro hi lo hlo hhi hfuel hbelow habove
    by_cases hgap : (hi : Int) - (lo : Int) > 1
    · unfold GetIndexLoop
      simp only [hgap, if_true]
      have hmid : ((hi : Int) + (lo : Int)).tdiv 2 = (((hi + lo) / 2 : Nat) : Int) := by
        rw [Int.tdiv_eq_ediv (by omega) (by decide)]
        omega
      obtain ⟨m, hm⟩ : ∃ m : Nat, m = (hi + lo) / 2 := ⟨_, rfl⟩
      rw [hmid, ← hm]
      have hm1 : lo < m := by omega
      have hm2 : m < hi := by omega
      have hcast : ((m : Int) - 1) = ((m - 1 : Nat) : Int) := by omega
      have hlt : m - 1 < l.length := by omega
      obtain ⟨v, hv⟩ : ∃ v, l[m - 1]? = some v := ⟨_, List.getElem?_eq_getElem hlt⟩
      simp only [hcast, load_ok hv, ok_bind]
      by_cases hxv : x = v
      · refine ⟨((m - 1 : Nat) : Int), by simp [hxv], Or.inr ⟨m - 1, by omega, ?_, rfl⟩⟩
        rw [hxv]; exact hv
      · by_cases hlt2 : x < v
        · simp only [hxv, if_false, hlt2, if_true]
          apply ih m lo hm1 (by omega) (by omega) hbelow
          intro j w hj hjn hw
          rcases Nat.eq_or_lt_of_le hj with h | h
          · rw [← h, hv] at hw
            cases hw; exact hlt2
          · exact lt_trans hlt2 (hs (m - 1) j h hjn v w hv hw)
        · simp only [hxv, if_false, hlt2]
          apply ih hi m hm2 hhi (by omega) _ habove
          intro j w hj hw
          have hvx : v < x := lt_of_le_of_ne (not_lt.mp hlt2) (Ne.symm hxv)
          rcases Nat.eq_or_lt_of_le (show j ≤ m - 1 by omega) with h | h
          · rw [h, hv] at hw
            cases hw; exact hvx
          · exact lt_trans (hs j (m - 1) h (by omega) w v hw hv) hvx
    · have hgap2 : hi = lo + 1 := by omega
      refine ⟨-1, ?_, Or.inl ⟨rfl, ?_⟩⟩
      · unfold GetIndexLoop
        simp [hgap]
      · intro i hin hix
        rcases Nat.lt_or_ge i lo with h | h
        · exact absurd (hbelow i x h hix) (lt_irrefl x)
        · exact absurd (habove i x (by omega) hin hix) (lt_irrefl x)

theorem entries_some {s : State} {l : List Int} (h : s.fList = some l) :
    entries s = l.take s.fN.toNat := by
  simp [entries, h]

theorem entries_none {s : State} (h : s.fList = none) : entries s = [] := by
  simp [entries, h]

theorem WF.length_entries {s : State} (h : WF s) : ((entries s).length : Int) = s.fN := by
  obtain ⟨h0, h1⟩ := h
  cases hl : s.fList with
  | none => rw [hl] at h1; simp only at h1; simp [entries, hl, h1]
  | some l =>
    rw [hl] at h1; simp only at h1
    rw [entries_some hl, List.length_take]
    omega

theorem Valid.wf {s : State} (h : Valid s) : WF s := by
  obtain ⟨h0, h1, h2, h3⟩ := h
  refine ⟨h0, ?_⟩
  cases hl : s.fList with
  | none => rw [hl] at h3; exact h3
  | some l => rw [hl] at h3; simp only at h3 ⊢; omega

theorem GetIndex_spec {s : State} (hwf : WF s) (hs : StrictlyIncreasing s) (x : Int) :
    ∃ r : Int, GetIndex s x = .ok r ∧
      ((r = -1 ∧ x ∉ entries s) ∨ (∃ i : Nat, (entries s)[i]? = some x ∧ r = (i : Int))) := by
  obtain ⟨h0, h1⟩ := hwf
  cases hl : s.fList with
  | none =>
    rw [hl] at h1; simp only at h1
    refine ⟨-1, ?_, Or.inl ⟨rfl, by simp [entries_none hl]⟩⟩
    unfold GetIndex GetIndexLoop
    simp [h1]
  | some l =>
    rw [hl] at h1; simp only at h1
    obtain ⟨n, hn⟩ : ∃ n : Nat, s.fN = (n : Int) := ⟨s.fN.toNat, by omega⟩
    have hnl : n ≤ l.length := by omega
    have he : entries s = l.take n := by rw [entries_some hl, hn]; simp
    have hsort : SortedUpTo l n := by
      apply sortedUpTo_of_pairwise
      rw [← he]; exact hs
    obtain ⟨r, hr, hcase⟩ := GetIndexLoop_spec l n hnl hsort x n (n + 1) 0 (by omega)
      (by omega) (by omega) (by intro j v hj; omega) (by intro j v hj hjn; omega)
    refine ⟨r, ?_, ?_⟩
    · unfold GetIndex
      rw [hl, hn]
      simpa using hr
    · rcases hcase with ⟨hr1, hno⟩ | ⟨i, hin, hix, hri⟩
      · refine Or.inl ⟨hr1, ?_⟩
        rw [he, List.mem_iff_getElem?]
        rintro ⟨i, hi⟩
        rw [List.getElem?_take] at hi
        by_cases hin : i < n
        · simp only [hin, if_true] at hi
          exact hno i hin hi
        · simp [hin] at hi
      · refine Or.inr ⟨i, ?_, hri⟩
        rw [he, List.getElem?_take]
        simp [hin, hix]

theorem pairwise_lt_getElem?_inj {e : List Int} (hs : e.Pairwise (fun a b => a < b))
    {i j : Nat} {x : Int} (hi : e[i]? = some x) (hj : e[j]? = some x) : i = j := by
  have h := sortedUpTo_of_pairwise (show (e.take e.length).Pairwise _ by simpa using hs)
  have hjl : j < e.length := (List.getElem?_eq_some.mp hj).1
  have hil : i < e.length := (List.getElem?_eq_some.mp hi).1
  rcases Nat.lt_trichotomy i j with hlt | heq | hgt
  · exact absurd (h i j hlt hjl x x hi hj) (lt_irrefl x)
  · exact heq
  · exact absurd (h j i hgt hil x x hj hi) (lt_irrefl x)

/-- GetIndex on a sorted list answers membership: the result is non-negative exactly
when the value is among the entries. -/
theorem GetIndex_mem {s : State} (hwf : WF s) (hs : StrictlyIncreasing s) (x : Int) :
    ∃ r : Int, GetIndex s x = .ok r ∧ (0 ≤ r ↔ x ∈ entries s) ∧ (r < 0 ↔ x ∉ entries s) := by
  obtain ⟨r, hr, hcase⟩ := GetIndex_spec hwf hs x
  refine ⟨r, hr, ?_⟩
  rcases hcase with ⟨hr1, hno⟩ | ⟨i, hix, hri⟩
  · subst hr1
    simp [hno]
  · have hmem : x ∈ entries s := List.mem_iff_getElem?.mpr ⟨i, hix⟩
    constructor
    · simp [hmem]; omega
    · simp [hmem]; omega

theorem Contains_spec {s : State} (hwf : WF s) (hs : StrictlyIncreasing s) (x : Int) :
    Contains s x = .ok (decide (x ∈ entries s)) := by
  obtain ⟨r, hr, h1, h2⟩ := GetIndex_mem hwf hs x
  unfold Contains
  rw [hr]
  by_cases hx : x ∈ entries s
  · have : ¬ r < 0 := by rw [h2]; simpa using hx
    simp [this, hx]
  · have : r < 0 := h2.mpr hx
    simp [this, hx]

/-! ## Copying and growing -/

theorem copyLoop_spec (src : List Int) :
    ∀ (k i : Nat) (dst : List Int), i + k ≤ src.length → i + k ≤ dst.length →
      ∃ r, copyLoop (some src) k (i : Int) dst = .ok r ∧ r.length = dst.length ∧
        ∀ j : Nat, r[j]? = if i ≤ j ∧ j < i + k then src[j]? else dst[j]? := by
  intro k
  induction k with
  | zero =>
    intro i dst _ _
    refine ⟨dst, by simp [copyLoop], rfl, ?_⟩
    intro j
    have : ¬ (i ≤ j ∧ j < i) := by omega
    simp [this]
  | succ k ih =>
    intro i dst hsrc hdst
    obtain ⟨v, hv⟩ : ∃ v, src[i]? = some v :=
      ⟨_, List.getElem?_eq_getElem (show i < src.length by omega)⟩
    obtain ⟨r, hr, hlen, hget⟩ := ih (i + 1) (dst.set i v) (by omega)
      (by rw [List.length_set]; omega)
    refine ⟨r, ?_, by rw [hlen, List.length_set], ?_⟩
    · unfold copyLoop
      simp only [load_ok hv, ok_bind, store_ok v (show i < dst.length by omega)]
      have hc : ((i : Int) + 1) = ((i + 1 : Nat) : Int) := by omega
      rw [hc]; exact hr
    · intro j
      rw [hget j, List.getElem?_set]
      by_cases h1 : i + 1 ≤ j ∧ j < i + 1 + k
      · have h2 : i ≤ j ∧ j < i + (k + 1) := by omega
        simp [h1, h2]
      · by_cases h3 : i = j
        · subst h3
          have h2 : i ≤ i ∧ i < i + (k + 1) := by omega
          have h4 : i < dst.length := by omega
          simp [h2, h4, hv]
        · have h2 : ¬ (i ≤ j ∧ j < i + (k + 1)) := by omega
          simp [h1, h2, h3]

theorem copyLoop_zero (src : Option (List Int)) (i : Int) (dst : List Int) :
    copyLoop src 0 i dst = .ok dst := by
  simp [copyLoop]

/-- Copying the first `n` slots into a fresh array of `m ≥ n` slots; the source may be a
null pointer when `n = 0`. -/
theorem copy_into_new (env : Env) (src : Option (List Int)) (n m : Nat) (hnm : n ≤ m)
    (hsrc : n ≤ (src.getD []).length) :
    ∃ d r, newArray env (m : Int) = .ok d ∧ copyLoop src n 0 d = .ok r ∧ r.length = m ∧
      r.take n = (src.getD []).take n := by
  obtain ⟨d, hd, hdl⟩ := newArray_ok env m
  refine ⟨d, ?_⟩
  cases src with
  | none =>
    simp only [Option.getD_none, List.length_nil, Nat.le_zero] at hsrc
    subst hsrc
    exact ⟨d, hd, copyLoop_zero _ _ _, hdl, by simp⟩
  | some l =>
    simp only [Option.getD_some] at hsrc ⊢
    obtain ⟨r, hr, hlen, hget⟩ := copyLoop_spec l n 0 d (by omega) (by omega)
    refine ⟨r, hd, by simpa using hr, by omega, ?_⟩
    apply List.ext_getElem?
    intro j
    rw [List.getElem?_take, List.getElem?_take, hget j]
    by_cases hj : j < n
    · simp [hj]
    · simp [hj]

theorem entries_eq_getD (s : State) : entries s = (s.fList.getD []).take s.fN.toNat := by
  cases hl : s.fList with
  | none => simp [entries, hl]
  | some l => simp [entries, hl]

theorem WF.le_getD {s : State} (h : WF s) : s.fN ≤ ((s.fList.getD []).length : Int) := by
  obtain ⟨h0, h1⟩ := h
  cases hl : s.fList with
  | none => rw [hl] at h1; simp only at h1; simp [h1]
  | some l => rw [hl] at h1; simp only at h1; simpa using h1

theorem Resize_spec (env : Env) (s : State) (delta : Int) (hwf : WF s)
    (hsize : s.fN ≤ s.fSize + (if delta = 0 then s.fDelta else delta)) :
    ∃ l, Resize env s delta = .ok { s with
        fSize := s.fSize + (if delta = 0 then s.fDelta else delta), fList := some l } ∧
      (l.length : Int) = s.fSize + (if delta = 0 then s.fDelta else delta) ∧
      l.take s.fN.toNat = entries s := by
  have h0 := hwf.1
  have h1 := hwf.le_getD
  obtain ⟨n, hn⟩ : ∃ n : Nat, s.fN = (n : Int) := ⟨s.fN.toNat, by omega⟩
  obtain ⟨m, hm⟩ : ∃ m : Nat, s.fSize + (if delta = 0 then s.fDelta else delta) = (m : Int) :=
    ⟨(s.fSize + (if delta = 0 then s.fDelta else delta)).toNat, by omega⟩
  obtain ⟨d, r, hd, hr, hlen, htake⟩ := copy_into_new env s.fList n m (by omega) (by omega)
  refine ⟨r, ?_, by omega, ?_⟩
  · unfold Resize
    simp only [hm, hn, Int.toNat_ofNat]
    rw [hd, ok_bind, hr, ok_bind]
  · rw [entries_eq_getD, hn, Int.toNat_ofNat, htake]

/-! ## The binary search used by Enter -/

theorem BinarySearch_spec (l : List Int) (n : Nat)
    (hs : (l.take n).Pairwise (fun a b => a < b)) (x : Int) :
    -1 ≤ BinarySearch n l x ∧ BinarySearch n l x < (l.take n).length ∧
    (∀ j : Nat, (j : Int) ≤ BinarySearch n l x → ∀ v, (l.take n)[j]? = some v → v ≤ x) ∧
    (∀ j : Nat, BinarySearch n l x < j → ∀ v, (l.take n)[j]? = some v → x < v) := by
  haveI : Std.Antisymm (fun x1 x2 : Int => x1 ≤ x2) := ⟨fun h1 h2 => le_antisymm h1 h2⟩
  unfold BinarySearch
  simp only [Int.toNat_ofNat]
  generalize l.take n = e at hs
  cases hmax : (e.filter (fun e => decide (e ≤ x))).max? with
  | none =>
    rw [List.max?_eq_none_iff, List.filter_eq_nil_iff] at hmax
    refine ⟨le_refl _, by simp only; omega, ?_, ?_⟩
    · intro j hj; simp only at hj; omega
    · intro j _ v hv
      have := hmax v (List.mem_iff_getElem?.mpr ⟨j, hv⟩)
      simpa using this
  | some m =>
    rw [List.max?_eq_some_iff (fun a => le_refl a) (fun a b => max_choice a b)
      (fun a b c => max_le_iff)] at hmax
    obtain ⟨hmem, hmaxi⟩ := hmax
    rw [List.mem_filter] at hmem
    obtain ⟨hme, hmx⟩ := hmem
    have hmx2 : m ≤ x := by simpa using hmx
    have hp : e.indexOf m < e.length := List.indexOf_lt_length.mpr hme
    have hpm : e[e.indexOf m]? = some m := by
      rw [List.getElem?_eq_getElem hp, List.getElem_indexOf hp]
    have hsort := sortedUpTo_of_pairwise (show (e.take e.length).Pairwise _ by simpa using hs)
    simp only
    refine ⟨by omega, by omega, ?_, ?_⟩
    · intro j hj v hv
      rcases Nat.eq_or_lt_of_le (show j ≤ e.indexOf m by omega) with h | h
      · rw [h, hpm] at hv; cases hv; exact hmx2
      · exact le_trans (le_of_lt (hsort j _ h hp v m hv hpm)) hmx2
    · intro j hj v hv
      have hjl : j < e.length := (List.getElem?_eq_some.mp hv).1
      have hmv : m < v := hsort _ j (by omega) hjl m v hpm hv
      by_contra hcon
      have hvx : v ≤ x := not_lt.mp hcon
      have := hmaxi v (List.mem_filter.mpr ⟨List.mem_iff_getElem?.mpr ⟨j, hv⟩, by simpa using hvx⟩)
      omega

/-! ## Enter -/

theorem take_set_succ (l : List Int) (n : Nat) (x : Int) (hn : n < l.length) :
    (l.set n x).take (n + 1) = l.take n ++ [x] := by
  apply List.ext_getElem?
  intro j
  rw [List.getElem?_take, List.getElem?_set, List.getElem?_append, List.getElem?_take]
  have hlen : (l.take n).length = n := by rw [List.length_take]; omega
  rw [hlen]
  rcases Nat.lt_trichotomy j n with h | h | h
  · have h1 : j < n + 1 := by omega
    have h2 : ¬ n = j := by omega
    simp [h, h1, h2]
  · subst h
    simp [hn]
  · have h1 : ¬ j < n + 1 := by omega
    have h2 : ¬ j < n := by omega
    have h3 : j - n ≠ 0 := by omega
    simp [h1, h2, List.getElem?_cons, h3]

theorem insert_shape (l : List Int) (n k : Nat) (x : Int) (hk : k ≤ n) (hn : n < l.length) :
    ((l.take (k + 1) ++ (l.drop k).take (n - k) ++ l.drop (n + 1)).set k x).take (n + 1)
      = (l.take n).take k ++ x :: (l.take n).drop k := by
  apply List.ext_getElem?
  intro j
  rw [List.getElem?_take, List.getElem?_set]
  simp only [List.length_append, List.length_take, List.length_drop]
  rcases Nat.lt_trichotomy j k with h | h | h
  · have h1 : j < n + 1 := by omega
    have h2 : ¬ k = j := by omega
    have h3 : j < k + 1 := by omega
    have h4 : j < n := by omega
    simp only [h1, h2, if_true, if_false]
    rw [List.append_assoc, List.getElem?_append_left (by simp; omega),
      List.getElem?_append_left (by simp; omega)]
    simp [List.getElem?_take, h, h3, h4]
  · subst h
    have h1 : j < n + 1 := by omega
    simp only [h1, if_true]
    rw [List.getElem?_append_right (by simp)]
    have e2 : min j (min n l.length) = j := by omega
    have e3 : j < min (j + 1) l.length + min (n - j) (l.length - j) + (l.length - (n + 1)) := by
      omega
    simp [e2, e3]
  · have h2 : ¬ k = j := by omega
    simp only [h2, if_false]
    by_cases h1 : j < n + 1
    · simp only [h1, if_true]
      rw [List.getElem?_append_left (by simp; omega),
        List.getElem?_append_right (by simp; omega),
        List.getElem?_append_right (by simp; omega)]
      simp only [List.length_take, List.getElem?_take, List.getElem?_drop, List.getElem?_cons]
      have e1 : min (k + 1) l.length = k + 1 := by omega
      have e2 : min k (min n l.length) = k := by omega
      rw [e1, e2]
      obtain ⟨d, hd⟩ : ∃ d, j = k + 1 + d := ⟨j - (k + 1), by omega⟩
      subst hd
      have e3 : k + 1 + d - (k + 1) = d := by omega
      have e4 : k + 1 + d - k = d + 1 := by omega
      rw [e3, e4]
      have e5 : d < n - k := by omega
      have e6 : k + d < n := by omega
      simp [e5, e6]
    · simp only [h1, if_false]
      symm
      rw [List.getElem?_eq_none_iff]
      simp
      omega

/-- Placing `x` between the entries below it and the entries above it keeps a strictly
increasing list strictly increasing. -/
theorem pairwise_insert {e : List Int} (hs : e.Pairwise (fun a b => a < b)) (k : Nat)
    (x : Int) (hlo : ∀ y ∈ e.take k, y < x) (hhi : ∀ y ∈ e.drop k, x < y) :
    (e.take k ++ x :: e.drop k).Pairwise (fun a b => a < b) := by
  have hsplit : (e.take k ++ e.drop k).Pairwise (fun a b => a < b) := by
    rw [List.take_append_drop]; exact hs
  rw [List.pairwise_append] at hsplit ⊢
  obtain ⟨h1, h2, h3⟩ := hsplit
  refine ⟨h1, List.pairwise_cons.mpr ⟨hhi, h2⟩, ?_⟩
  intro a ha b hb
  rcases List.mem_cons.mp hb with hbx | hbd
  · rw [hbx]; exact hlo a ha
  · exact h3 a ha b hbd

theorem mem_insert_iff (e : List Int) (k : Nat) (x y : Int) :
    y ∈ e.take k ++ x :: e.drop k ↔ y = x ∨ y ∈ e := by
  conv_rhs => rw [← List.take_append_drop k e]
  simp only [List.mem_append, List.mem_cons]
  tauto

/-- What the second half of `Enter` does with a buffer that has room for one more entry. -/
theorem EnterPlace_spec (s : State) (l : List Int) (n : Nat) (x : Int)
    (hl : s.fList = some l) (hn : s.fN = (n : Int)) (hroom : n < l.length)
    (hs : (l.take n).Pairwise (fun a b => a < b)) :
    ∃ s', EnterPlace s x = .ok s' ∧ s'.fSize = s.fSize ∧ s'.fDelta = s.fDelta ∧
      s'.fTitle = s.fTitle ∧ (∃ l', s'.fList = some l' ∧ l'.length = l.length) ∧
      ((x ∈ l.take n ∧ s' = s) ∨
       (x ∉ l.take n ∧ s'.fN = (n : Int) + 1 ∧ ∃ k, k ≤ n ∧
          entries s' = (l.take n).take k ++ x :: (l.take n).drop k ∧
          (∀ y ∈ (l.take n).take k, y < x) ∧ (∀ y ∈ (l.take n).drop k, x < y))) := by
  have hsort := sortedUpTo_of_pairwise hs
  have htoNat : ((n : Int) + 1).toNat = n + 1 := by omega
  -- the append branch, shared by `fN == 0` and `entry > fList[fN-1]`
  have happend : (∀ y ∈ l.take n, y < x) →
      ∃ s', (store l (n : Int) x >>= fun l1 =>
          (Except.ok { s with fList := some l1, fN := (n : Int) + 1 } : Exec State)) = .ok s' ∧
        s'.fSize = s.fSize ∧ s'.fDelta = s.fDelta ∧
        s'.fTitle = s.fTitle ∧ (∃ l', s'.fList = some l' ∧ l'.length = l.length) ∧
        ((x ∈ l.take n ∧ s' = s) ∨
         (x ∉ l.take n ∧ s'.fN = (n : Int) + 1 ∧ ∃ k, k ≤ n ∧
            entries s' = (l.take n).take k ++ x :: (l.take n).drop k ∧
            (∀ y ∈ (l.take n).take k, y < x) ∧ (∀ y ∈ (l.take n).drop k, x < y))) := by
    intro hall
    refine ⟨{ s with fList := some (l.set n x), fN := (n : Int) + 1 }, ?_, rfl, rfl, rfl,
      ⟨_, rfl, by simp⟩, Or.inr ⟨?_, rfl, n, le_refl n, ?_, ?_, ?_⟩⟩
    · rw [store_ok x hroom, ok_bind]
    · intro hx; exact lt_irrefl x (hall x hx)
    · have hlen : (l.take n).length = n := by rw [List.length_take]; omega
      simp only [entries, htoNat]
      rw [take_set_succ l n x hroom,
        List.take_of_length_le (show (l.take n).length ≤ n by omega),
        List.drop_of_length_le (show (l.take n).length ≤ n by omega)]
    · intro y hy
      exact hall y (List.mem_of_mem_take hy)
    · intro y hy
      have hlen : (l.take n).length = n := by rw [List.length_take]; omega
      rw [List.drop_of_length_le (by omega)] at hy
      simp at hy
  unfold EnterPlace
  rw [hl, hn]
  by_cases h0 : n = 0
  · subst h0
    simp only [Nat.cast_zero, if_true, ok_bind, true_or]
    simpa using happend (by simp)
  · have hn0 : ¬ ((n : Int) = 0) := by omega
    have hcast : ((n : Int) - 1) = ((n - 1 : Nat) : Int) := by omega
    obtain ⟨v, hv⟩ : ∃ v, l[n - 1]? = some v :=
      ⟨_, List.getElem?_eq_getElem (show n - 1 < l.length by omega)⟩
    simp only [hn0, if_false, hcast, load_ok hv, ok_bind, false_or]
    by_cases hgt : x > v
    · simp only [hgt, if_true]
      apply happend
      intro y hy
      obtain ⟨j, hj⟩ := List.mem_iff_getElem?.mp hy
      rw [List.getElem?_take] at hj
      by_cases hjn : j < n
      · simp only [hjn, if_true] at hj
        rcases Nat.eq_or_lt_of_le (show j ≤ n - 1 by omega) with h | h
        · rw [h, hv] at hj; cases hj; exact hgt
        · exact lt_trans (hsort j (n - 1) h (by omega) y v hj hv) hgt
      · simp [hjn] at hj
    · simp only [hgt, if_false]
      obtain ⟨hb1, hb2, hb3, hb4⟩ := BinarySearch_spec l n hs x
      have hlen : (l.take n).length = n := by rw [List.length_take]; omega
      rw [hlen] at hb2
      generalize BinarySearch (n : Int) l x = pos at hb1 hb2 hb3 hb4
      have hfound : ∀ p : Nat, pos = (p : Int) → ∃ w, l[p]? = some w ∧ (l.take n)[p]? = some w := by
        intro p hp
        have hpl : p < l.length := by omega
        refine ⟨l[p], List.getElem?_eq_getElem hpl, ?_⟩
        rw [List.getElem?_take, List.getElem?_eq_getElem hpl]
        simp; omega
      -- the insertion branch
      have hins : (∀ p : Nat, pos = (p : Int) → l[p]? ≠ some x) →
          ∃ s', (memmove l (pos + 1 + 1) (pos + 1) ((n : Int) - (pos + 1)) >>= fun l1 =>
              store l1 (pos + 1) x >>= fun l2 =>
              (Except.ok { s with fList := some l2, fN := (n : Int) + 1 } : Exec State))
              = .ok s' ∧
            s'.fSize = s.fSize ∧ s'.fDelta = s.fDelta ∧
            s'.fTitle = s.fTitle ∧ (∃ l', s'.fList = some l' ∧ l'.length = l.length) ∧
            ((x ∈ l.take n ∧ s' = s) ∨
             (x ∉ l.take n ∧ s'.fN = (n : Int) + 1 ∧ ∃ k, k ≤ n ∧
                entries s' = (l.take n).take k ++ x :: (l.take n).drop k ∧
                (∀ y ∈ (l.take n).take k, y < x) ∧ (∀ y ∈ (l.take n).drop k, x < y))) := by
        intro hne
        obtain ⟨k, hk⟩ : ∃ k : Nat, pos + 1 = (k : Int) := ⟨(pos + 1).toNat, by omega⟩
        have hkn : k ≤ n := by omega
        have hlo : ∀ y ∈ (l.take n).take k, y < x := by
          intro y hy
          obtain ⟨j, hj⟩ := List.mem_iff_getElem?.mp hy
          rw [List.getElem?_take] at hj
          by_cases hjk : j < k
          · simp only [hjk, if_true] at hj
            have hle := hb3 j (by omega) y hj
            rcases lt_or_eq_of_le hle with h | h
            · exact h
            · exfalso
              rw [List.getElem?_take] at hj
              have hjn : j < n := by omega
              simp only [hjn, if_true] at hj
              rcases Nat.eq_or_lt_of_le (show j ≤ k - 1 by omega) with h2 | h2
              · exact hne j (by omega) (by rw [hj, h])
              · have hk1 : k - 1 < l.length := by omega
                have hw : (l.take n)[k - 1]? = some l[k - 1] := by
                  rw [List.getElem?_take, List.getElem?_eq_getElem hk1]
                  simp; omega
                have h3 := hb3 (k - 1) (by omega) _ hw
                have h4 := hsort j (k - 1) h2 (by omega) y _ hj (List.getElem?_eq_getElem hk1)
                omega
          · simp [hjk] at hj
        have hhi : ∀ y ∈ (l.take n).drop k, x < y := by
          intro y hy
          obtain ⟨j, hj⟩ := List.mem_iff_getElem?.mp hy
          rw [List.getElem?_drop] at hj
          exact hb4 (k + j) (by omega) y hj
        have hmm : memmove l ((k : Int) + 1) (k : Int) ((n : Int) - (k : Int)) =
            .ok (l.take (k + 1) ++ (l.drop k).take (n - k) ++ l.drop (n + 1)) := by
          unfold memmove
          have hc : 0 ≤ (n : Int) - (k : Int) ∧ 0 ≤ (k : Int) ∧ 0 ≤ (k : Int) + 1 ∧
              (k : Int) + ((n : Int) - (k : Int)) ≤ (l.length : Int) ∧
              (k : Int) + 1 + ((n : Int) - (k : Int)) ≤ (l.length : Int) := by omega
          rw [if_pos hc]
          have t1 : ((k : Int) + 1).toNat = k + 1 := by omega
          have t2 : ((n : Int) - (k : Int)).toNat = n - k := by omega
          have t3 : ((k : Int) + 1 + ((n : Int) - (k : Int))).toNat = n + 1 := by omega
          rw [t1, t2, t3, Int.toNat_ofNat]
        have hklen : k < (l.take (k + 1) ++ (l.drop k).take (n - k) ++ l.drop (n + 1)).length := by
          simp only [List.length_append, List.length_take, List.length_drop]
          omega
        have hlen2 : (l.take (k + 1) ++ (l.drop k).take (n - k) ++ l.drop (n + 1)).length
            = l.length := by
          simp only [List.length_append, List.length_take, List.length_drop]
          omega
        refine ⟨{ s with
            fList := some ((l.take (k + 1) ++ (l.drop k).take (n - k) ++ l.drop (n + 1)).set k x),
            fN := (n : Int) + 1 }, ?_, rfl, rfl, rfl,
          ⟨_, rfl, by rw [List.length_set, hlen2]⟩, Or.inr ⟨?_, rfl, k, hkn, ?_, hlo, hhi⟩⟩
        · rw [hk, hmm, ok_bind, store_ok x hklen, ok_bind]
        · intro hx
          rw [← List.take_append_drop k (l.take n), List.mem_append] at hx
          rcases hx with h | h
          · exact lt_irrefl x (hlo x h)
          · exact lt_irrefl x (hhi x h)
        · simp only [entries, htoNat]
          exact insert_shape l n k x hkn hroom
      by_cases hpos : pos ≥ 0
      · obtain ⟨p, hp⟩ : ∃ p : Nat, pos = (p : Int) := ⟨pos.toNat, by omega⟩
        obtain ⟨w, hw, hw2⟩ := hfound p hp
        simp only [hpos, if_true, true_and]
        rw [hp, load_ok hw, ok_bind]
        by_cases hxw : x = w
        · simp only [hxw, if_true]
          refine ⟨s, rfl, rfl, rfl, rfl, ⟨l, hl, rfl⟩, Or.inl ⟨?_, rfl⟩⟩
          exact List.mem_iff_getElem?.mpr ⟨p, hw2⟩
        · simp only [hxw, if_false]
          rw [← hp]
          apply hins
          intro q hq hq2
          have : q = p := by omega
          subst this
          rw [hw] at hq2
          cases hq2
          exact hxw rfl
      · have hneg : ¬ (pos ≥ 0 ∧ x = 0) := by omega
        simp only [hpos, if_false, ok_bind, false_and]
        apply hins
        intro q hq; omega

theorem valid_of_some {s : State} {l : List Int} (hl : s.fList = some l) (h0 : 0 ≤ s.fN)
    (h1 : s.fN ≤ s.fSize) (h2 : 0 < s.fSize) (h3 : s.fSize ≤ (l.length : Int)) : Valid s := by
  refine ⟨h0, h1, h2, ?_⟩
  rw [hl]; exact h3

theorem Valid.some_le {s : State} {l : List Int} (h : Valid s) (hl : s.fList = some l) :
    s.fSize ≤ (l.length : Int) := by
  obtain ⟨_, _, _, h3⟩ := h
  rw [hl] at h3; exact h3

/-- The effect of one `Enter` on a valid, strictly increasing list. -/
theorem Enter_spec (env : Env) (s : State) (x : Int) (hv : Valid s)
    (hs : StrictlyIncreasing s) :
    ∃ s', Enter env s x = .ok s' ∧ Valid s' ∧ StrictlyIncreasing s' ∧
      (∀ y, y ∈ entries s' ↔ y = x ∨ y ∈ entries s) ∧
      (x ∈ entries s → entries s' = entries s ∧ s'.fN = s.fN) ∧
      s'.fDelta = s.fDelta ∧ s'.fTitle = s.fTitle := by
  have hwf := hv.wf
  obtain ⟨hv0, hv1, hv2, hv3⟩ := id hv
  cases hl : s.fList with
  | none =>
    rw [hl] at hv3; simp only at hv3
    obtain ⟨m, hm⟩ : ∃ m : Nat, s.fSize = (m : Int) := ⟨s.fSize.toNat, by omega⟩
    obtain ⟨d, hd, hdl⟩ := newArray_ok env m
    have hst : store d 0 x = .ok (d.set 0 x) := by
      simpa using store_ok x (show 0 < d.length by omega)
    have he0 : entries s = [] := entries_none hl
    have he1 : entries { s with fList := some (d.set 0 x), fN := 1 } = [x] := by
      have hd0 : 0 < d.length := by omega
      simp only [entries]
      rw [show (1 : Int).toNat = 0 + 1 by decide, take_set_succ d 0 x hd0]
      simp
    refine ⟨{ s with fList := some (d.set 0 x), fN := 1 }, ?_, ?_, ?_, ?_, ?_, rfl, rfl⟩
    · unfold Enter
      simp only [hl]
      rw [hm, hd, ok_bind, hst, ok_bind]
    · apply valid_of_some (l := d.set 0 x) rfl
      · simp
      · simp only; omega
      · exact hv2
      · simp only [List.length_set]; omega
    · unfold StrictlyIncreasing
      rw [he1]; simp
    · intro y; rw [he1, he0]; simp
    · intro hx; rw [he0] at hx; simp at hx
  | some l0 =>
    rw [hl] at hv3; simp only at hv3
    obtain ⟨n, hn⟩ : ∃ n : Nat, s.fN = (n : Int) := ⟨s.fN.toNat, by omega⟩
    have he : entries s = l0.take n := by rw [entries_some hl, hn]; simp
    have hs0 : (l0.take n).Pairwise (fun a b => a < b) := by rw [← he]; exact hs
    -- the optional growth step
    have hgrow : ∃ s1 l1, (if s.fN ≥ s.fSize then
          Resize env s (max (2 * s.fSize) (s.fN + s.fDelta) - s.fSize)
        else (Except.ok s : Exec State)) = .ok s1 ∧ s1.fList = some l1 ∧ s1.fN = s.fN ∧
        s.fN < s1.fSize ∧ s1.fSize ≤ (l1.length : Int) ∧ l1.take n = entries s ∧
        s1.fDelta = s.fDelta ∧ s1.fTitle = s.fTitle := by
      by_cases hfull : s.fN ≥ s.fSize
      · have hd : ¬ (max (2 * s.fSize) (s.fN + s.fDelta) - s.fSize = 0) := by
          have := le_max_left (2 * s.fSize) (s.fN + s.fDelta)
          omega
        have hsz : s.fN ≤ s.fSize + (if max (2 * s.fSize) (s.fN + s.fDelta) - s.fSize = 0
            then s.fDelta else max (2 * s.fSize) (s.fN + s.fDelta) - s.fSize) := by
          have := le_max_left (2 * s.fSize) (s.fN + s.fDelta)
          rw [if_neg hd]; omega
        obtain ⟨l1, hr, hlen, htake⟩ := Resize_spec env s _ hwf hsz
        rw [if_neg hd] at hr hlen
        refine ⟨{ s with
            fSize := s.fSize + (max (2 * s.fSize) (s.fN + s.fDelta) - s.fSize),
            fList := some l1 }, l1, by rw [if_pos hfull]; exact hr, rfl, rfl, ?_, ?_, ?_,
          rfl, rfl⟩
        · have := le_max_left (2 * s.fSize) (s.fN + s.fDelta)
          simp only; omega
        · simp only; omega
        · rw [← htake, hn]; simp
      · exact ⟨s, l0, by rw [if_neg hfull], hl, rfl, by omega, hv3, he.symm, rfl, rfl⟩
    -- growth followed by placement
    have hrest : ∃ s', (if s.fN ≥ s.fSize then
          (Resize env s (max (2 * s.fSize) (s.fN + s.fDelta) - s.fSize) >>= fun s1 =>
            EnterPlace s1 x)
        else ((Except.ok s : Exec State) >>= fun s1 => EnterPlace s1 x)) = .ok s' ∧ Valid s' ∧
        StrictlyIncreasing s' ∧ (∀ y, y ∈ entries s' ↔ y = x ∨ y ∈ entries s) ∧
        (x ∈ entries s → entries s' = entries s ∧ s'.fN = s.fN) ∧
        s'.fDelta = s.fDelta ∧ s'.fTitle = s.fTitle := by
      obtain ⟨s1, l1, hg, hl1, hn1, hroom, hcap, htake, hdel, htit⟩ := hgrow
      have hs1 : (l1.take n).Pairwise (fun a b => a < b) := by rw [htake]; exact hs
      obtain ⟨s', hr, hsz, hde, hti, ⟨l', hl', hlen'⟩, hcase⟩ :=
        EnterPlace_spec s1 l1 n x hl1 (by rw [hn1, hn]) (by omega) hs1
      have he1 : entries s1 = entries s := by
        rw [entries_some hl1, hn1, hn]; simpa using htake
      have hdist : (if s.fN ≥ s.fSize then
            (Resize env s (max (2 * s.fSize) (s.fN + s.fDelta) - s.fSize) >>= fun s1 =>
              EnterPlace s1 x)
          else ((Except.ok s : Exec State) >>= fun s1 => EnterPlace s1 x)) =
          ((if s.fN ≥ s.fSize then
            Resize env s (max (2 * s.fSize) (s.fN + s.fDelta) - s.fSize)
          else (Except.ok s : Exec State)) >>= fun s1 => EnterPlace s1 x) := by
        split <;> rfl
      refine ⟨s', by rw [hdist, hg, ok_bind]; exact hr, ?_, ?_, ?_, ?_, by rw [hde, hdel],
        by rw [hti, htit]⟩
      · rcases hcase with ⟨_, hsame⟩ | ⟨_, hfn, _⟩
        · subst hsame
          exact valid_of_some hl1 (by omega) (by omega) (by omega) hcap
        · exact valid_of_some hl' (by omega) (by omega) (by omega) (by omega)
      · unfold StrictlyIncreasing
        rcases hcase with ⟨_, hsame⟩ | ⟨_, _, k, _, hent, hlo, hhi⟩
        · subst hsame; rw [he1]; exact hs
        · rw [hent]; exact pairwise_insert hs1 k x hlo hhi
      · intro y
        rcases hcase with ⟨hmem, hsame⟩ | ⟨_, _, k, _, hent, _, _⟩
        · subst hsame
          rw [he1]
          rw [htake] at hmem
          constructor
          · exact Or.inr
          · rintro (h | h)
            · rw [h]; exact hmem
            · exact h
        · rw [hent, mem_insert_iff, htake]
      · intro hx
        rcases hcase with ⟨_, hsame⟩ | ⟨hnot, _⟩
        · subst hsame; exact ⟨he1, by omega⟩
        · rw [htake] at hnot; exact absurd hx hnot
    unfold Enter
    simp only [hl]
    by_cases hpos : s.fN > 0
    · have hcast : (s.fN - 1) = ((n - 1 : Nat) : Int) := by omega
      obtain ⟨v, hlast⟩ : ∃ v, l0[n - 1]? = some v :=
        ⟨_, List.getElem?_eq_getElem (show n - 1 < l0.length by omega)⟩
      rw [if_pos hpos, hcast, load_ok hlast, ok_bind]
      by_cases hxv : x = v
      · rw [if_pos ⟨hpos, hxv⟩]
        have hmem : x ∈ entries s := by
          rw [he, hxv]
          apply List.mem_iff_getElem?.mpr
          refine ⟨n - 1, ?_⟩
          rw [List.getElem?_take, hlast]
          simp; omega
        refine ⟨s, rfl, hv, hs, ?_, fun _ => ⟨rfl, rfl⟩, rfl, rfl⟩
        intro y
        constructor
        · exact Or.inr
        · rintro (h | h)
          · rw [h]; exact hmem
          · exact h
      · rw [if_neg (by intro h; exact hxv h.2)]
        exact hrest
    · rw [if_neg hpos, ok_bind, if_neg (by intro h; exact hpos h.1)]
      exact hrest

/-- The effect of a sequence of `Enter` calls. -/
theorem enterAll_spec (env : Env) (xs : List Int) :
    ∀ s : State, Valid s → StrictlyIncreasing s →
      ∃ s', enterAll env s xs = .ok s' ∧ Valid s' ∧ StrictlyIncreasing s' ∧
        (∀ y, y ∈ entries s' ↔ y ∈ entries s ∨ y ∈ xs) := by
  induction xs with
  | nil =>
    intro s hv hs
    exact ⟨s, rfl, hv, hs, by simp⟩
  | cons x xs ih =>
    intro s hv hs
    obtain ⟨s1, h1, hv1, hs1, hm1, _⟩ := Enter_spec env s x hv hs
    obtain ⟨s2, h2, hv2, hs2, hm2⟩ := ih s1 hv1 hs1
    refine ⟨s2, ?_, hv2, hs2, ?_⟩
    · unfold enterAll at h2 ⊢
      rw [List.foldlM_cons, h1, ok_bind]
      exact h2
    · intro y
      rw [hm2 y, hm1 y, List.mem_cons]
      tauto

theorem ctor_valid (title : String) (initsize delta : Int) :
    Valid (ctor title initsize delta) ∧ StrictlyIncreasing (ctor title initsize delta) ∧
    entries (ctor title initsize delta) = [] := by
  refine ⟨⟨le_refl _, ?_, ?_, rfl⟩, ?_, rfl⟩
  · simp only [ctor]; split <;> omega
  · simp only [ctor]; split <;> omega
  · simp [StrictlyIncreasing, entries, ctor]

theorem ctorDefault_eq : ctorDefault = ctor "" 0 0 := by
  simp [ctorDefault, ctor]

/-- A strictly increasing list is determined by its set of members. -/
theorem eq_sort_of_pairwise_lt {e : List Int} {xs : List Int}
    (hs : e.Pairwise (fun a b => a < b)) (hm : ∀ y, y ∈ e ↔ y ∈ xs) :
    e = xs.toFinset.sort (fun a b => a ≤ b) ∧ e.length = xs.toFinset.card := by
  have hnd : e.Nodup := hs.imp (fun h => ne_of_lt h)
  have hfin : e.toFinset = xs.toFinset := by
    ext y; simp [hm y]
  have hperm : e.Perm (xs.toFinset.sort (fun a b => a ≤ b)) := by
    apply List.perm_of_nodup_nodup_toFinset_eq hnd (Finset.sort_nodup _ _)
    rw [Finset.sort_toFinset, hfin]
  refine ⟨List.eq_of_perm_of_sorted hperm (hs.imp (fun h => le_of_lt h))
    (Finset.sort_sorted _ _), ?_⟩
  rw [← hfin, List.toFinset_card_of_nodup hnd]

/-! ## Add: the merge of two sorted lists -/

theorem drop_eq_cons_of_getElem? {l : List Int} {i : Nat} {w : Int} (h : l[i]? = some w) :
    l.drop i = w :: l.drop (i + 1) := by
  obtain ⟨hi, hw⟩ := List.getElem?_eq_some.mp h
  rw [← hw]
  exact List.drop_eq_getElem_cons hi

theorem take_succ_of_getElem? {l : List Int} {i : Nat} {w : Int} (h : l[i]? = some w) :
    l.take (i + 1) = l.take i ++ [w] := by
  rw [List.take_succ, h]; rfl

theorem lt_of_mem_drop_succ {l : List Int} (hs : l.Pairwise (fun u v => u < v)) {i : Nat}
    {w : Int} (h : l[i]? = some w) : ∀ z ∈ l.drop (i + 1), w < z := by
  have h1 : (l.drop i).Pairwise (fun u v => u < v) := hs.sublist (List.drop_sublist i l)
  rw [drop_eq_cons_of_getElem? h, List.pairwise_cons] at h1
  exact h1.1

theorem mem_drop_of_mem_drop_succ {l : List Int} {i : Nat} {z : Int}
    (h : z ∈ l.drop (i + 1)) : z ∈ l.drop i := by
  have : l.drop (i + 1) = (l.drop i).drop 1 := by rw [List.drop_drop]
  rw [this] at h
  exact List.mem_of_mem_drop h

theorem MergeInv.symm {a b out : List Int} {i j : Nat} (h : MergeInv a b out i j) :
    MergeInv b a out j i := by
  obtain ⟨h1, h2, h3, h4⟩ := h
  exact ⟨h1, fun y => by rw [h2 y]; exact Or.comm, h4, h3⟩

/-- The merge emits the next entry of `b`, which lies below the rest of `a`. -/
theorem MergeInv.step_right {a b out : List Int} {i j : Nat} {w : Int}
    (hb : b.Pairwise (fun u v => u < v)) (h : MergeInv a b out i j)
    (hw : b[j]? = some w) (hlt : ∀ z ∈ a.drop i, w < z) :
    MergeInv a b (out ++ [w]) i (j + 1) := by
  obtain ⟨h1, h2, h3, h4⟩ := h
  have hwd : w ∈ b.drop j := by rw [drop_eq_cons_of_getElem? hw]; simp
  refine ⟨?_, ?_, ?_, ?_⟩
  · rw [List.pairwise_append]
    refine ⟨h1, by simp, ?_⟩
    intro y hy z hz
    rw [List.mem_singleton] at hz
    rw [hz]; exact h4 y hy w hwd
  · intro y
    rw [take_succ_of_getElem? hw]
    simp only [List.mem_append, List.mem_singleton, h2 y]
    tauto
  · intro y hy z hz
    rcases List.mem_append.mp hy with hy | hy
    · exact h3 y hy z hz
    · rw [List.mem_singleton] at hy
      rw [hy]; exact hlt z hz
  · intro y hy z hz
    rcases List.mem_append.mp hy with hy | hy
    · exact h4 y hy z (mem_drop_of_mem_drop_succ hz)
    · rw [List.mem_singleton] at hy
      rw [hy]; exact lt_of_mem_drop_succ hb hw z hz

/-- The merge emits the next entry of `a`, which lies below the rest of `b`. -/
theorem MergeInv.step_left {a b out : List Int} {i j : Nat} {x : Int}
    (ha : a.Pairwise (fun u v => u < v)) (h : MergeInv a b out i j)
    (hx : a[i]? = some x) (hlt : ∀ z ∈ b.drop j, x < z) :
    MergeInv a b (out ++ [x]) (i + 1) j :=
  (MergeInv.step_right ha h.symm hx hlt).symm

/-- The merge emits an entry present in both lists once. -/
theorem MergeInv.step_both {a b out : List Int} {i j : Nat} {x : Int}
    (ha : a.Pairwise (fun u v => u < v)) (hb : b.Pairwise (fun u v => u < v))
    (h : MergeInv a b out i j) (hx : a[i]? = some x) (hw : b[j]? = some x) :
    MergeInv a b (out ++ [x]) (i + 1) (j + 1) := by
  obtain ⟨h1, h2, h3, h4⟩ := h
  have hxa : x ∈ a.drop i := by rw [drop_eq_cons_of_getElem? hx]; simp
  refine ⟨?_, ?_, ?_, ?_⟩
  · rw [List.pairwise_append]
    refine ⟨h1, by simp, ?_⟩
    intro y hy z hz
    rw [List.mem_singleton] at hz
    rw [hz]; exact h3 y hy x hxa
  · intro y
    rw [take_succ_of_getElem? hx, take_succ_of_getElem? hw]
    simp only [List.mem_append, List.mem_singleton, h2 y]
    tauto
  · intro y hy z hz
    rcases List.mem_append.mp hy with hy | hy
    · exact h3 y hy z (mem_drop_of_mem_drop_succ hz)
    · rw [List.mem_singleton] at hy
      rw [hy]; exact lt_of_mem_drop_succ ha hx z hz
  · intro y hy z hz
    rcases List.mem_append.mp hy with hy | hy
    · exact h4 y hy z (mem_drop_of_mem_drop_succ hz)
    · rw [List.mem_singleton] at hy
      rw [hy]; exact lt_of_mem_drop_succ hb hw z hz

theorem getElem?_take_of_lt {l : List Int} {n i : Nat} (hi : i < n) (hn : n ≤ l.length) :
    ∃ x, l[i]? = some x ∧ (l.take n)[i]? = some x := by
  have hil : i < l.length := by omega
  refine ⟨l[i], List.getElem?_eq_getElem hil, ?_⟩
  rw [List.getElem?_take, List.getElem?_eq_getElem hil]
  simp [hi]

theorem store_append {nl : List Int} {np : Nat} (v : Int) (h : np < nl.length) :
    ∃ nl', store nl (np : Int) v = .ok nl' ∧ nl'.length = nl.length ∧
      nl'.take (np + 1) = nl.take np ++ [v] :=
  ⟨nl.set np v, store_ok v h, List.length_set _ _ _, take_set_succ nl np v h⟩

theorem AddWhile_spec (fl al : List Int) (n an : Nat) (han : an ≤ al.length)
    (ha : (fl.take n).Pairwise (fun u v => u < v))
    (hb : (al.take an).Pairwise (fun u v => u < v)) (i : Nat) (x : Int) (hi : i < n)
    (hx : (fl.take n)[i]? = some x) :
    ∀ (fuel : Nat) (nl : List Int) (np j : Nat), an - j ≤ fuel → j ≤ an →
      nl.length = n + an → np ≤ i + j →
      MergeInv (fl.take n) (al.take an) (nl.take np) i j →
      ∃ nl' np' j', AddWhile (some al) (an : Int) x fuel nl (np : Int) (j : Int)
          = .ok (nl', ((np' : Nat) : Int), ((j' : Nat) : Int)) ∧
        nl'.length = n + an ∧ np' ≤ i + j' ∧ j' ≤ an ∧
        MergeInv (fl.take n) (al.take an) (nl'.take np') i j' ∧
        (∀ w, (al.take an)[j']? = some w → x ≤ w) := by
  intro fuel
  induction fuel with
  | zero =>
    intro nl np j hfuel hj hlen hnp hinv
    have hjan : j = an := by omega
    refine ⟨nl, np, j, ?_, hlen, hnp, hj, hinv, ?_⟩
    · unfold AddWhile
      have : ¬ ((j : Int) < (an : Int)) := by omega
      rw [if_neg this]
    · intro w hw
      have := (List.getElem?_eq_some.mp hw).1
      rw [List.length_take] at this
      omega
  | succ k ih =>
    intro nl np j hfuel hj hlen hnp hinv
    by_cases hjan : j < an
    · obtain ⟨w, hw, hwb⟩ := getElem?_take_of_lt hjan han
      have hcond : (j : Int) < (an : Int) := by omega
      unfold AddWhile
      rw [if_pos hcond, load_ok hw, ok_bind]
      by_cases hxw : x > w
      · rw [if_pos hxw]
        obtain ⟨nl1, hst, hlen1, htake1⟩ := store_append w (show np < nl.length by omega)
        simp only [hst, ok_bind]
        have hc1 : ((np : Int) + 1) = ((np + 1 : Nat) : Int) := by omega
        have hc2 : ((j : Int) + 1) = ((j + 1 : Nat) : Int) := by omega
        rw [hc1, hc2]
        have hinv1 : MergeInv (fl.take n) (al.take an) (nl1.take (np + 1)) i (j + 1) := by
          rw [htake1]
          apply MergeInv.step_right hb hinv hwb
          intro z hz
          rw [drop_eq_cons_of_getElem? hx] at hz
          rcases List.mem_cons.mp hz with h | h
          · rw [h]; exact hxw
          · exact lt_trans hxw (lt_of_mem_drop_succ ha hx z h)
        exact ih nl1 (np + 1) (j + 1) (by omega) (by omega) (by omega) (by omega) hinv1
      · rw [if_neg hxw]
        refine ⟨nl, np, j, rfl, hlen, hnp, hj, hinv, ?_⟩
        intro w2 hw2
        rw [hwb] at hw2
        cases hw2
        exact not_lt.mp hxw
    · refine ⟨nl, np, j, ?_, hlen, hnp, hj, hinv, ?_⟩
      · unfold AddWhile
        have : ¬ ((j : Int) < (an : Int)) := by omega
        rw [if_neg this]
      · intro w hw
        have := (List.getElem?_eq_some.mp hw).1
        rw [List.length_take] at this
        omega

theorem AddFor_spec (fl al : List Int) (n an : Nat) (hn : n ≤ fl.length)
    (han : an ≤ al.length) (ha : (fl.take n).Pairwise (fun u v => u < v))
    (hb : (al.take an).Pairwise (fun u v => u < v)) :
    ∀ (k i : Nat) (nl : List Int) (np j : Nat), i + k = n → j ≤ an →
      nl.length = n + an → np ≤ i + j →
      MergeInv (fl.take n) (al.take an) (nl.take np) i j →
      ∃ nl' np' j', AddFor (some fl) (some al) (an : Int) k (i : Int) nl (np : Int) (j : Int)
          = .ok (nl', ((np' : Nat) : Int), ((j' : Nat) : Int)) ∧
        nl'.length = n + an ∧ np' ≤ n + j' ∧ j' ≤ an ∧
        MergeInv (fl.take n) (al.take an) (nl'.take np') n j' := by
  intro k
  induction k with
  | zero =>
    intro i nl np j hik hj hlen hnp hinv
    have : i = n := by omega
    subst this
    exact ⟨nl, np, j, rfl, hlen, hnp, hj, hinv⟩
  | succ k ih =>
    intro i nl np j hik hj hlen hnp hinv
    have hi : i < n := by omega
    obtain ⟨x, hx, hxa⟩ := getElem?_take_of_lt hi hn
    obtain ⟨nl1, np1, j1, hw, hlen1, hnp1, hj1, hinv1, hexit⟩ :=
      AddWhile_spec fl al n an han ha hb i x hi hxa (an - j) nl np j (le_refl _) hj hlen hnp
        hinv
    have hfuel : ((an : Int) - (j : Int)).toNat = an - j := by omega
    obtain ⟨nl2, hst, hlen2, htake2⟩ := store_append x (show np1 < nl1.length by omega)
    have hc1 : ((np1 : Int) + 1) = ((np1 + 1 : Nat) : Int) := by omega
    have hc2 : ((j1 : Int) + 1) = ((j1 + 1 : Nat) : Int) := by omega
    have hc3 : ((i : Int) + 1) = ((i + 1 : Nat) : Int) := by omega
    unfold AddFor
    rw [load_ok hx, ok_bind, hfuel, hw, ok_bind]
    by_cases hjan : j1 < an
    · obtain ⟨w, hwl, hwb⟩ := getElem?_take_of_lt hjan han
      have hcond : (j1 : Int) < (an : Int) := by omega
      have hxw := hexit w hwb
      simp only [hcond, if_true, load_ok hwl, ok_bind, true_and, hst]
      by_cases heq : x = w
      · rw [if_pos heq, hc1, hc2, hc3]
        apply ih (i + 1) nl2 (np1 + 1) (j1 + 1) (by omega) (by omega) (by omega) (by omega)
        rw [htake2]
        exact MergeInv.step_both ha hb hinv1 hxa (by rw [hwb, heq])
      · rw [if_neg heq, hc1, hc3]
        apply ih (i + 1) nl2 (np1 + 1) j1 (by omega) (by omega) (by omega) (by omega)
        rw [htake2]
        apply MergeInv.step_left ha hinv1 hxa
        intro z hz
        have hlt : x < w := lt_of_le_of_ne hxw heq
        rw [drop_eq_cons_of_getElem? hwb] at hz
        rcases List.mem_cons.mp hz with h | h
        · rw [h]; exact hlt
        · exact lt_trans hlt (lt_of_mem_drop_succ hb hwb z h)
    · have hcond : ¬ ((j1 : Int) < (an : Int)) := by omega
      simp only [hcond, if_false, ok_bind, false_and, hst]
      rw [hc1, hc3]
      apply ih (i + 1) nl2 (np1 + 1) j1 (by omega) (by omega) (by omega) (by omega)
      rw [htake2]
      apply MergeInv.step_left ha hinv1 hxa
      intro z hz
      have hlen : (al.take an).length = an := by rw [List.length_take]; omega
      rw [List.drop_of_length_le (by omega)] at hz
      simp at hz

theorem AddRest_spec (fl al : List Int) (n an : Nat) (han : an ≤ al.length)
    (hb : (al.take an).Pairwise (fun u v => u < v)) :
    ∀ (k : Nat) (nl : List Int) (np j : Nat), j + k = an →
      nl.length = n + an → np ≤ n + j →
      MergeInv (fl.take n) (al.take an) (nl.take np) n j →
      ∃ nl' np', AddRest (some al) k nl (np : Int) (j : Int) = .ok (nl', ((np' : Nat) : Int)) ∧
        nl'.length = n + an ∧ np' ≤ n + an ∧
        MergeInv (fl.take n) (al.take an) (nl'.take np') n an := by
  intro k
  induction k with
  | zero =>
    intro nl np j hjk hlen hnp hinv
    have : j = an := by omega
    subst this
    exact ⟨nl, np, rfl, hlen, hnp, hinv⟩
  | succ k ih =>
    intro nl np j hjk hlen hnp hinv
    have hjan : j < an := by omega
    obtain ⟨w, hwl, hwb⟩ := getElem?_take_of_lt hjan han
    obtain ⟨nl1, hst, hlen1, htake1⟩ := store_append w (show np < nl.length by omega)
    have hc1 : ((np : Int) + 1) = ((np + 1 : Nat) : Int) := by omega
    have hc2 : ((j : Int) + 1) = ((j + 1 : Nat) : Int) := by omega
    unfold AddRest
    rw [load_ok hwl, ok_bind, hst, ok_bind, hc1, hc2]
    apply ih nl1 (np + 1) (j + 1) (by omega) (by omega) (by omega)
    rw [htake1]
    apply MergeInv.step_right hb hinv hwb
    intro z hz
    have hlen : ((fl.take n).drop n).length = 0 := by
      rw [List.length_drop, List.length_take]; omega
    rw [List.length_eq_zero] at hlen
    rw [hlen] at hz
    simp at hz

theorem MergeInv.init (a b : List Int) : MergeInv a b [] 0 0 := by
  refine ⟨List.Pairwise.nil, ?_, ?_, ?_⟩
  · intro y; simp
  · intro y hy; simp at hy
  · intro y hy; simp at hy

theorem wf_of_some {s : State} {l : List Int} (hl : s.fList = some l) (h0 : 0 ≤ s.fN)
    (h1 : s.fN ≤ (l.length : Int)) : WF s := by
  refine ⟨h0, ?_⟩
  rw [hl]; exact h1

/-- The effect of `Add` on two consistent, strictly increasing lists. -/
theorem Add_spec (env : Env) (A B : State) (hA : WF A) (hB : WF B)
    (hsA : StrictlyIncreasing A) (hsB : StrictlyIncreasing B) :
    ∃ A', Add env A (some B) = .ok A' ∧ WF A' ∧ StrictlyIncreasing A' ∧
      (∀ y, y ∈ entries A' ↔ y ∈ entries A ∨ y ∈ entries B) ∧
      A'.fN ≤ A.fN + B.fN ∧ (Valid A → Valid A') := by
  have hB0 := hB.1
  have hA0 := hA.1
  by_cases han0 : B.fN = 0
  · refine ⟨A, ?_, hA, hsA, ?_, by omega, id⟩
    · simp [Add, han0]
    · intro y
      have : entries B = [] := by rw [entries_eq_getD, han0]; simp
      rw [this]; simp
  · obtain ⟨an, han⟩ : ∃ an : Nat, B.fN = (an : Int) := ⟨B.fN.toNat, by omega⟩
    have hanpos : 0 < an := by omega
    obtain ⟨al, hal⟩ : ∃ al, B.fList = some al := by
      cases h : B.fList with
      | none =>
        have := hB.2
        rw [h] at this
        exact absurd this han0
      | some al => exact ⟨al, rfl⟩
    have hanl : an ≤ al.length := by
      have := hB.2
      rw [hal] at this
      simp only at this
      omega
    have heB : entries B = al.take an := by rw [entries_some hal, han]; simp
    have hb : (al.take an).Pairwise (fun u v => u < v) := by rw [← heB]; exact hsB
    cases hfl : A.fList with
    | none =>
      have hAn : A.fN = 0 := by
        have := hA.2
        rw [hfl] at this
        exact this
      obtain ⟨d, r, hd, hr, hlen, htake⟩ :=
        copy_into_new env (some al) an an (le_refl _) (by simpa using hanl)
      simp only [Option.getD_some] at htake
      have he : entries { A with fList := some r, fN := (an : Int), fSize := (an : Int) }
          = al.take an := by
        simp [entries, htake]
      refine ⟨{ A with fList := some r, fN := (an : Int), fSize := (an : Int) }, ?_, ?_, ?_,
        ?_, ?_, ?_⟩
      · simp only [Add, han, hfl, hal]
        rw [if_neg (by omega), hd, ok_bind, Int.toNat_ofNat, hr, ok_bind]
      · exact wf_of_some (l := r) rfl (by simp) (by simp only; omega)
      · unfold StrictlyIncreasing
        rw [he]; exact hb
      · intro y
        rw [he, heB, entries_none hfl]; simp
      · simp only; omega
      · intro _
        exact valid_of_some (l := r) rfl (by simp) (by simp) (by simp only; omega)
          (by simp only; omega)
    | some fl =>
      obtain ⟨n, hn⟩ : ∃ n : Nat, A.fN = (n : Int) := ⟨A.fN.toNat, by omega⟩
      have hnl : n ≤ fl.length := by
        have := hA.2
        rw [hfl] at this
        simp only at this
        omega
      have heA : entries A = fl.take n := by rw [entries_some hfl, hn]; simp
      have ha : (fl.take n).Pairwise (fun u v => u < v) := by rw [← heA]; exact hsA
      obtain ⟨d, hd, hdl⟩ := newArray_ok env (n + an)
      obtain ⟨nl1, np1, j1, hfor, hlen1, hnp1, hj1, hinv1⟩ :=
        AddFor_spec fl al n an hnl hanl ha hb n 0 d 0 0 (by omega) (by omega) hdl (by omega)
          (by simpa using MergeInv.init _ _)
      obtain ⟨nl2, np2, hrest, hlen2, hnp2, hinv2⟩ :=
        AddRest_spec fl al n an hanl hb (an - j1) nl1 np1 j1 (by omega) hlen1 hnp1 hinv1
      have hfuel : ((an : Int) - (j1 : Int)).toNat = an - j1 := by omega
      have hta : (fl.take n).take n = fl.take n := by
        rw [List.take_take]; simp
      have htb : (al.take an).take an = al.take an := by
        rw [List.take_take]; simp
      obtain ⟨hp, hm, _, _⟩ := hinv2
      have he : entries { A with
          fN := (np2 : Int), fSize := (n : Int) + (an : Int), fList := some nl2,
          fTitle := env.cutOr A.fTitle B.fTitle } = nl2.take np2 := by
        simp [entries]
      refine ⟨{ A with
          fN := (np2 : Int), fSize := (n : Int) + (an : Int), fList := some nl2,
          fTitle := env.cutOr A.fTitle B.fTitle }, ?_, ?_, ?_, ?_, ?_, ?_⟩
      · simp only [Add, han, hfl, hal, hn]
        rw [if_neg (by omega)]
        have hcast : ((n : Int) + (an : Int)) = ((n + an : Nat) : Int) := by omega
        rw [hcast, hd, ok_bind, Int.toNat_ofNat]
        have hfor2 : AddFor (some fl) (some al) (an : Int) n 0 d 0 0
            = .ok (nl1, (np1 : Int), (j1 : Int)) := by simpa using hfor
        rw [hfor2, ok_bind]
        simp only [hfuel, hrest, ok_bind]
      · exact wf_of_some (l := nl2) rfl (by simp) (by simp only; omega)
      · unfold StrictlyIncreasing
        rw [he]; exact hp
      · intro y
        rw [he, hm y, hta, htb, heA, heB]
      · simp only; omega
      · intro _
        exact valid_of_some (l := nl2) rfl (by simp) (by simp only; omega)
          (by simp only; omega) (by simp only; omega)

theorem eq_of_pairwise_lt_of_mem_iff {e1 e2 : List Int}
    (h1 : e1.Pairwise (fun a b => a < b)) (h2 : e2.Pairwise (fun a b => a < b))
    (hm : ∀ y, y ∈ e1 ↔ y ∈ e2) : e1 = e2 := by
  exact (eq_sort_of_pairwise_lt h1 hm).1.trans
    (eq_sort_of_pairwise_lt h2 (fun _ => Iff.rfl)).1.symm

theorem length_le_of_nodup_of_subset {e1 e2 : List Int} (hnd : e1.Nodup)
    (hsub : ∀ y ∈ e1, y ∈ e2) : e1.length ≤ e2.length :=
  (List.subperm_of_subset hnd hsub).length_le

theorem Reset_wf (s : State) : WF (Reset s) ∧ StrictlyIncreasing (Reset s) ∧
    entries (Reset s) = [] := by
  have he : entries (Reset s) = [] := by
    rw [entries_eq_getD]; simp [Reset]
  refine ⟨⟨le_refl _, ?_⟩, ?_, he⟩
  · simp only [Reset]
    cases s.fList with
    | none => simp
    | some l => simp
  · unfold StrictlyIncreasing
    rw [he]; exact List.Pairwise.nil

/-! ## Subtract and Intersect -/

theorem FilterFor_spec (keep : Int → Bool) (q : Int → Bool) (fl : List Int) (al : State)
    (hk : ∀ y, ∃ r, GetIndex al y = .ok r ∧ keep r = q y) :
    ∀ (k i : Nat) (nl : List Int) (np : Nat), i + k ≤ fl.length → np + k ≤ nl.length →
      ∃ nl' np', FilterFor keep (some fl) al k (i : Int) nl (np : Int)
          = .ok (nl', ((np' : Nat) : Int)) ∧
        nl'.length = nl.length ∧ np' ≤ np + k ∧
        nl'.take np' = nl.take np ++ ((fl.drop i).take k).filter q := by
  intro k
  induction k with
  | zero =>
    intro i nl np _ _
    exact ⟨nl, np, rfl, rfl, le_refl _, by simp⟩
  | succ k ih =>
    intro i nl np hi hnp
    obtain ⟨x, hx⟩ : ∃ x, fl[i]? = some x :=
      ⟨_, List.getElem?_eq_getElem (show i < fl.length by omega)⟩
    obtain ⟨r, hr, hkeep⟩ := hk x
    have hsplit : (fl.drop i).take (k + 1) = x :: (fl.drop (i + 1)).take k := by
      rw [drop_eq_cons_of_getElem? hx, List.take_succ_cons]
    have hc1 : ((np : Int) + 1) = ((np + 1 : Nat) : Int) := by omega
    have hc3 : ((i : Int) + 1) = ((i + 1 : Nat) : Int) := by omega
    unfold FilterFor
    rw [load_ok hx, ok_bind, hr, ok_bind, hkeep, hsplit]
    by_cases hq : q x = true
    · obtain ⟨nl1, hst, hlen1, htake1⟩ := store_append x (show np < nl.length by omega)
      obtain ⟨nl', np', hres, hlen', hnp', htake'⟩ :=
        ih (i + 1) nl1 (np + 1) (by omega) (by omega)
      refine ⟨nl', np', ?_, by omega, by omega, ?_⟩
      · simp only [hq, if_true, hst, ok_bind]
        rw [hc1, hc3]; exact hres
      · rw [htake', htake1, List.filter_cons_of_pos hq]
        simp
    · obtain ⟨nl', np', hres, hlen', hnp', htake'⟩ := ih (i + 1) nl np (by omega) (by omega)
      refine ⟨nl', np', ?_, hlen', by omega, ?_⟩
      · simp only [hq]
        rw [hc3]; exact hres
      · rw [htake', List.filter_cons_of_neg hq]

/-- The common shape of `Subtract` and `Intersect` on an allocated list: a fresh array of
`fN` slots receives the entries that pass the test. -/
theorem filter_into_new (env : Env) (keep : Int → Bool) (q : Int → Bool) (fl : List Int)
    (al : State) (n : Nat) (hn : n ≤ fl.length)
    (hk : ∀ y, ∃ r, GetIndex al y = .ok r ∧ keep r = q y) :
    ∃ d nl np, newArray env (n : Int) = .ok d ∧
      FilterFor keep (some fl) al n 0 d 0 = .ok (nl, ((np : Nat) : Int)) ∧
      np ≤ nl.length ∧ nl.take np = (fl.take n).filter q := by
  obtain ⟨d, hd, hdl⟩ := newArray_ok env n
  obtain ⟨nl, np, hres, hlen, hnp, htake⟩ :=
    FilterFor_spec keep q fl al hk n 0 d 0 (by omega) (by omega)
  refine ⟨d, nl, np, hd, by simpa using hres, by omega, ?_⟩
  rw [htake]; simp

theorem Subtract_spec (env : Env) (A B : State) (hA : WF A) (hB : WF B)
    (hsB : StrictlyIncreasing B) :
    ∃ A', Subtract env A (some B) = .ok A' ∧ WF A' ∧
      entries A' = (entries A).filter (fun y => decide (y ∉ entries B)) := by
  cases hfl : A.fList with
  | none =>
    refine ⟨A, by simp [Subtract, hfl], hA, ?_⟩
    rw [entries_none hfl]; rfl
  | some fl =>
    obtain ⟨n, hn⟩ : ∃ n : Nat, A.fN = (n : Int) := ⟨A.fN.toNat, by have := hA.1; omega⟩
    have hnl : n ≤ fl.length := by
      have := hA.2
      rw [hfl] at this
      simp only at this
      omega
    have heA : entries A = fl.take n := by rw [entries_some hfl, hn]; simp
    obtain ⟨d, nl, np, hd, hres, hnp, htake⟩ := filter_into_new env
      (fun idx => decide (idx < 0)) (fun y => decide (y ∉ entries B)) fl B n hnl (by
        intro y
        obtain ⟨r, hr, _, h2⟩ := GetIndex_mem hB hsB y
        exact ⟨r, hr, by simp only [h2]⟩)
    refine ⟨{ A with
        fN := (np : Int), fList := some nl
        fTitle := env.cutAnd A.fTitle (env.cutNot B.fTitle) }, ?_, ?_, ?_⟩
    · simp only [Subtract, hfl, hn]
      rw [hd, ok_bind, Int.toNat_ofNat, hres, ok_bind]
    · exact wf_of_some (l := nl) rfl (by simp) (by simp only; omega)
    · rw [heA, ← htake]
      simp [entries]

theorem Intersect_spec (env : Env) (A B : State) (hA : WF A) (hB : WF B)
    (hsB : StrictlyIncreasing B) :
    ∃ A', Intersect env A (some B) = .ok A' ∧ WF A' ∧
      entries A' = (entries A).filter (fun y => decide (y ∈ entries B)) := by
  cases hfl : A.fList with
  | none =>
    refine ⟨A, by simp [Intersect, hfl], hA, ?_⟩
    rw [entries_none hfl]; rfl
  | some fl =>
    obtain ⟨n, hn⟩ : ∃ n : Nat, A.fN = (n : Int) := ⟨A.fN.toNat, by have := hA.1; omega⟩
    have hnl : n ≤ fl.length := by
      have := hA.2
      rw [hfl] at this
      simp only at this
      omega
    have heA : entries A = fl.take n := by rw [entries_some hfl, hn]; simp
    obtain ⟨d, nl, np, hd, hres, hnp, htake⟩ := filter_into_new env
      (fun idx => decide (idx ≥ 0)) (fun y => decide (y ∈ entries B)) fl B n hnl (by
        intro y
        obtain ⟨r, hr, h1, _⟩ := GetIndex_mem hB hsB y
        exact ⟨r, hr, by simp only [ge_iff_le, h1]⟩)
    refine ⟨{ A with
        fN := (np : Int), fList := some nl
        fTitle := env.cutAnd A.fTitle B.fTitle }, ?_, ?_, ?_⟩
    · simp only [Intersect, hfl, hn]
      rw [hd, ok_bind, Int.toNat_ofNat, hres, ok_bind]
    · exact wf_of_some (l := nl) rfl (by simp) (by simp only; omega)
    · rw [heA, ← htake]
      simp [entries]

theorem ctorCopy_spec (env : Env) (A : State) (hA : WF A) (hcap : A.fN ≤ A.fSize) :
    ∃ C, ctorCopy env A = .ok C ∧ WF C ∧ entries C = entries A ∧ C.fN = A.fN := by
  have h0 := hA.1
  have h1 := hA.le_getD
  obtain ⟨n, hn⟩ : ∃ n : Nat, A.fN = (n : Int) := ⟨A.fN.toNat, by omega⟩
  obtain ⟨m, hm⟩ : ∃ m : Nat, A.fSize = (m : Int) := ⟨A.fSize.toNat, by omega⟩
  obtain ⟨d, r, hd, hr, hlen, htake⟩ := copy_into_new env A.fList n m (by omega) (by omega)
  refine ⟨⟨A.fN, A.fSize, A.fDelta, some r, A.fTitle⟩, ?_, ?_, ?_, rfl⟩
  · unfold ctorCopy
    rw [hm, hd, ok_bind, hn, Int.toNat_ofNat, hr, ok_bind]
  · exact wf_of_some (l := r) rfl h0 (by simp only; omega)
  · rw [entries_eq_getD A, hn, Int.toNat_ofNat, ← htake]
    simp [entries, hn]

/-! ## Claims -/

/-- C3. On a list whose entries are strictly increasing (the empty one included),
`GetIndex(x)` returns `i` whenever `x` is the entry at position `i` (`0 ≤ i < count`),
and `-1` when `x` is not among the entries. -/
theorem C3_GetIndex_correct (s : State) (x : Int) (hwf : WF s)
    (hs : StrictlyIncreasing s) :
    (∀ i : Nat, (entries s)[i]? = some x → GetIndex s x = .ok (i : Int)) ∧
    (x ∉ entries s → GetIndex s x = .ok (-1)) := by
  obtain ⟨r, hr, hcase⟩ := GetIndex_spec hwf hs x
  constructor
  · intro i hi
    rcases hcase with ⟨_, hno⟩ | ⟨j, hj, hrj⟩
    · exact absurd (List.mem_iff_getElem?.mpr ⟨i, hi⟩) hno
    · rw [hr, hrj, pairwise_lt_getElem?_inj hs hi hj]
  · intro hx
    rcases hcase with ⟨hr1, _⟩ | ⟨j, hj, _⟩
    · rw [hr, hr1]
    · exact absurd (List.mem_iff_getElem?.mpr ⟨j, hj⟩) hx

/-- C3 at `[1,3,5,7]`: `GetIndex(5) = 2` and `GetIndex(4) = -1`. -/
theorem C3_GetIndex_correct_witness :
    WF list1357 ∧ StrictlyIncreasing list1357 ∧
    GetIndex list1357 5 = .ok 2 ∧ GetIndex list1357 4 = .ok (-1) :=
  have hwf : WF list1357 := by decide
  have hs : StrictlyIncreasing list1357 := by decide
  ⟨hwf, hs, (C3_GetIndex_correct list1357 5 hwf hs).1 2 (by decide),
    (C3_GetIndex_correct list1357 4 hwf hs).2 (by decide)⟩

/-- C1. Entering the elements of any finite sequence `xs`, in order, into a newly
constructed list (default constructor or the constructor with size hints) succeeds and
leaves the entries equal to the distinct values of `xs` in strictly ascending order, with
`fN` the number of distinct values. -/
theorem C1_enter_sequence_sorted_distinct (env : Env) (xs : List Int) :
    (∃ s, enterAll env ctorDefault xs = .ok s ∧ StrictlyIncreasing s ∧
      entries s = xs.toFinset.sort (fun a b => a ≤ b) ∧ s.fN = (xs.toFinset.card : Int)) ∧
    (∀ (title : String) (initsize delta : Int),
      ∃ s, enterAll env (ctor title initsize delta) xs = .ok s ∧ StrictlyIncreasing s ∧
        entries s = xs.toFinset.sort (fun a b => a ≤ b) ∧ s.fN = (xs.toFinset.card : Int)) := by
  have key : ∀ (title : String) (initsize delta : Int),
      ∃ s, enterAll env (ctor title initsize delta) xs = .ok s ∧ StrictlyIncreasing s ∧
        entries s = xs.toFinset.sort (fun a b => a ≤ b) ∧
        s.fN = (xs.toFinset.card : Int) := by
    intro title initsize delta
    obtain ⟨hv, hs, he⟩ := ctor_valid title initsize delta
    obtain ⟨s, hr, hv1, hs1, hm⟩ := enterAll_spec env xs _ hv hs
    have hm2 : ∀ y, y ∈ entries s ↔ y ∈ xs := by
      intro y; rw [hm y, he]; simp
    obtain ⟨h1, h2⟩ := eq_sort_of_pairwise_lt hs1 hm2
    refine ⟨s, hr, hs1, h1, ?_⟩
    rw [← hv1.wf.length_entries, h2]
  exact ⟨by rw [ctorDefault_eq]; exact key "" 0 0, key⟩

/-- C2. After any sequence `xs` of `Enter` calls on a newly constructed list,
`Contains(x)` returns true exactly when `x` occurs in `xs`. -/
theorem C2_membership_round_trip (env : Env) (xs : List Int) (x : Int) :
    (∃ s, enterAll env ctorDefault xs = .ok s ∧ Contains s x = .ok (decide (x ∈ xs))) ∧
    (∀ (title : String) (initsize delta : Int),
      ∃ s, enterAll env (ctor title initsize delta) xs = .ok s ∧
        Contains s x = .ok (decide (x ∈ xs))) := by
  have key : ∀ (title : String) (initsize delta : Int),
      ∃ s, enterAll env (ctor title initsize delta) xs = .ok s ∧
        Contains s x = .ok (decide (x ∈ xs)) := by
    intro title initsize delta
    obtain ⟨hv, hs, he⟩ := ctor_valid title initsize delta
    obtain ⟨s, hr, hv1, hs1, hm⟩ := enterAll_spec env xs _ hv hs
    refine ⟨s, hr, ?_⟩
    rw [Contains_spec hv1.wf hs1 x]
    have : x ∈ entries s ↔ x ∈ xs := by rw [hm x, he]; simp
    simp [this]
  exact ⟨by rw [ctorDefault_eq]; exact key "" 0 0, key⟩

/-- C8. On a valid (`count ≤ capacity`), strictly increasing list, `Enter(x)` followed at
once by a second `Enter(x)` succeeds, and the second call leaves `fN` and the entries at
positions `0 .. fN-1` as the first call left them. -/
theorem C8_enter_twice_idempotent (env : Env) (s : State) (x : Int) (hv : Valid s)
    (hs : StrictlyIncreasing s) :
    ∃ s1 s2, Enter env s x = .ok s1 ∧ Enter env s1 x = .ok s2 ∧
      s2.fN = s1.fN ∧ entries s2 = entries s1 := by
  obtain ⟨s1, h1, hv1, hs1, hm1, _⟩ := Enter_spec env s x hv hs
  obtain ⟨s2, h2, _, _, _, hsame, _⟩ := Enter_spec env s1 x hv1 hs1
  have hx : x ∈ entries s1 := (hm1 x).mpr (Or.inl rfl)
  exact ⟨s1, s2, h1, h2, (hsame hx).2, (hsame hx).1⟩

/-- C8 at `[1,5]` with capacity 3 and `x = 3`: the first call inserts in the middle and
fills the buffer, the second finds `3` by binary search after growing. -/
theorem C8_enter_twice_idempotent_witness :
    Valid list15 ∧ StrictlyIncreasing list15 ∧
    ∃ s1 s2, Enter sampleEnv list15 3 = .ok s1 ∧ Enter sampleEnv s1 3 = .ok s2 ∧
      s2.fN = s1.fN ∧ entries s2 = entries s1 :=
  ⟨by decide, by decide, C8_enter_twice_idempotent sampleEnv list15 3 (by decide) (by decide)⟩

/-- C4. For consistent, strictly increasing `A` and `B`, `A.Add(B)` succeeds, leaves `A`
strictly increasing, and a value is among the resulting entries (equivalently, `Contains`
returns true for it) exactly when it was in `A` or is in `B`.  The hypotheses cover an
unallocated `A`, an `A` with `fN = 0` and an empty `B`; for a list emptied by `Reset` the
result is spelled out: it holds the entries of `B`. -/
theorem C4_add_is_union (env : Env) (A B : State) (hA : WF A) (hB : WF B)
    (hsA : StrictlyIncreasing A) (hsB : StrictlyIncreasing B) :
    (∃ A', Add env A (some B) = .ok A' ∧ StrictlyIncreasing A' ∧
      (∀ x, x ∈ entries A' ↔ x ∈ entries A ∨ x ∈ entries B) ∧
      (∀ x, Contains A' x = .ok (decide (x ∈ entries A ∨ x ∈ entries B)))) ∧
    (∃ A', Add env (Reset A) (some B) = .ok A' ∧ entries A' = entries B) := by
  constructor
  · obtain ⟨A', hr, hwf, hs, hm, _⟩ := Add_spec env A B hA hB hsA hsB
    refine ⟨A', hr, hs, hm, ?_⟩
    intro x
    rw [Contains_spec hwf hs x]
    simp [hm x]
  · obtain ⟨hw, hs, he⟩ := Reset_wf A
    obtain ⟨A', hr, _, hs', hm, _⟩ := Add_spec env (Reset A) B hw hB hs hsB
    refine ⟨A', hr, eq_of_pairwise_lt_of_mem_iff hs' hsB ?_⟩
    intro y
    rw [hm y, he]; simp

/-- C4 at `A = [1,3,5,7]`, `B = [3,4,5]`. -/
theorem C4_add_is_union_witness :
    WF list1357 ∧ WF list345 ∧ StrictlyIncreasing list1357 ∧ StrictlyIncreasing list345 ∧
    (∃ A', Add sampleEnv list1357 (some list345) = .ok A' ∧ StrictlyIncreasing A' ∧
      (∀ x, x ∈ entries A' ↔ x ∈ entries list1357 ∨ x ∈ entries list345) ∧
      (∀ x, Contains A' x = .ok (decide (x ∈ entries list1357 ∨ x ∈ entries list345)))) ∧
    (∃ A', Add sampleEnv (Reset list1357) (some list345) = .ok A' ∧
      entries A' = entries list345) :=
  ⟨by decide, by decide, by decide, by decide,
    C4_add_is_union sampleEnv list1357 list345 (by decide) (by decide) (by decide)
      (by decide)⟩

/-- C9. For consistent, strictly increasing `A` and `B`, the count after `A.Add(B)` is at
most `|A| + |B|` and at least `max(|A|, |B|)`. -/
theorem C9_add_size_bounds (env : Env) (A B : State) (hA : WF A) (hB : WF B)
    (hsA : StrictlyIncreasing A) (hsB : StrictlyIncreasing B) :
    ∃ A', Add env A (some B) = .ok A' ∧ A'.fN ≤ A.fN + B.fN ∧ max A.fN B.fN ≤ A'.fN := by
  obtain ⟨A', hr, hwf, hs, hm, hle, _⟩ := Add_spec env A B hA hB hsA hsB
  refine ⟨A', hr, hle, ?_⟩
  have h1 : (entries A).length ≤ (entries A').length :=
    length_le_of_nodup_of_subset (hsA.imp (fun h => ne_of_lt h))
      (fun y hy => (hm y).mpr (Or.inl hy))
  have h2 : (entries B).length ≤ (entries A').length :=
    length_le_of_nodup_of_subset (hsB.imp (fun h => ne_of_lt h))
      (fun y hy => (hm y).mpr (Or.inr hy))
  have e1 := hA.length_entries
  have e2 := hB.length_entries
  have e3 := hwf.length_entries
  rw [max_le_iff]
  constructor <;> omega

/-- C9 at `A = [1,3,5,7]`, `B = [3,4,5]`. -/
theorem C9_add_size_bounds_witness :
    WF list1357 ∧ WF list345 ∧ StrictlyIncreasing list1357 ∧ StrictlyIncreasing list345 ∧
    ∃ A', Add sampleEnv list1357 (some list345) = .ok A' ∧
      A'.fN ≤ list1357.fN + list345.fN ∧ max list1357.fN list345.fN ≤ A'.fN :=
  ⟨by decide, by decide, by decide, by decide,
    C9_add_size_bounds sampleEnv list1357 list345 (by decide) (by decide) (by decide)
      (by decide)⟩

/-- Scenario 1 of the specification, run on the code. -/
theorem scenario1_enter :
    (enterAll sampleEnv ctorDefault [5, 3, 5]).map (fun s => (entries s, s.fN))
      = .ok ([3, 5], 2) := by
  rfl

/-- Scenario 2 of the specification for `Add`, run on the code. -/
theorem scenario2_add :
    (Add sampleEnv list1357 (some list345)).map entries = .ok [1, 3, 4, 5, 7] := by
  rfl

/-- C5. For a consistent `A` (sorted or not) and a consistent, strictly increasing `B`,
`A.Subtract(B)` succeeds and leaves in `A` exactly its previous entries that are not in
`B`, in their previous order; `fN` is the number of entries kept. -/
theorem C5_subtract_keeps_non_members (env : Env) (A B : State) (hA : WF A) (hB : WF B)
    (hsB : StrictlyIncreasing B) :
    ∃ A', Subtract env A (some B) = .ok A' ∧
      entries A' = (entries A).filter (fun y => decide (y ∉ entries B)) ∧
      A'.fN = (((entries A).filter (fun y => decide (y ∉ entries B))).length : Int) := by
  obtain ⟨A', hr, hwf, he⟩ := Subtract_spec env A B hA hB hsB
  exact ⟨A', hr, he, by rw [← he, hwf.length_entries]⟩

/-- C5 at `A = [1,3,5,7]`, `B = [3,4,5]`: the result is `[1,7]`. -/
theorem C5_subtract_keeps_non_members_witness :
    WF list1357 ∧ WF list345 ∧ StrictlyIncreasing list345 ∧
    ∃ A', Subtract sampleEnv list1357 (some list345) = .ok A' ∧
      entries A' = [1, 7] ∧ A'.fN = 2 :=
  ⟨by decide, by decide, by decide,
    C5_subtract_keeps_non_members sampleEnv list1357 list345 (by decide) (by decide)
      (by decide)⟩

/-- C6. For a consistent `A` (sorted or not) and a consistent, strictly increasing `B`,
`A.Intersect(B)` succeeds and leaves in `A` exactly its previous entries that are in `B`,
in their previous order; `fN` is the number of entries kept. -/
theorem C6_intersect_keeps_members (env : Env) (A B : State) (hA : WF A) (hB : WF B)
    (hsB : StrictlyIncreasing B) :
    ∃ A', Intersect env A (some B) = .ok A' ∧
      entries A' = (entries A).filter (fun y => decide (y ∈ entries B)) ∧
      A'.fN = (((entries A).filter (fun y => decide (y ∈ entries B))).length : Int) := by
  obtain ⟨A', hr, hwf, he⟩ := Intersect_spec env A B hA hB hsB
  exact ⟨A', hr, he, by rw [← he, hwf.length_entries]⟩

/-- C6 at `A = [1,3,5,7]`, `B = [3,4,5]`: the result is `[3,5]`. -/
theorem C6_intersect_keeps_members_witness :
    WF list1357 ∧ WF list345 ∧ StrictlyIncreasing list345 ∧
    ∃ A', Intersect sampleEnv list1357 (some list345) = .ok A' ∧
      entries A' = [3, 5] ∧ A'.fN = 2 :=
  ⟨by decide, by decide, by decide,
    C6_intersect_keeps_members sampleEnv list1357 list345 (by decide) (by decide)
      (by decide)⟩

/-- C7. For consistent, strictly increasing `A` (with `count ≤ capacity`, so that it can
be copied) and `B`: the difference and the intersection, each computed on a copy of `A`
as `operator-` and `operator*` do, split `A`.  For every `x` with `A.Contains(x)` true,
exactly one of the two results contains `x`; for `x` with `A.Contains(x)` false, neither
does. -/
theorem C7_subtract_intersect_partition (env : Env) (A B : State) (hA : WF A)
    (hcap : A.fN ≤ A.fSize) (hB : WF B) (hsA : StrictlyIncreasing A)
    (hsB : StrictlyIncreasing B) :
    ∃ S I, operatorMinus env A B = .ok S ∧ operatorTimes env A B = .ok I ∧
      ∀ x, ∃ a s i : Bool, Contains A x = .ok a ∧ Contains S x = .ok s ∧
        Contains I x = .ok i ∧
        (a = true → (s = true ∧ i = false) ∨ (s = false ∧ i = true)) ∧
        (a = false → s = false ∧ i = false) := by
  obtain ⟨C, hC, hCwf, hCe, _⟩ := ctorCopy_spec env A hA hcap
  obtain ⟨S, hS, hSwf, hSe⟩ := Subtract_spec env C B hCwf hB hsB
  obtain ⟨I, hI, hIwf, hIe⟩ := Intersect_spec env C B hCwf hB hsB
  rw [hCe] at hSe hIe
  have hSs : StrictlyIncreasing S := by
    unfold StrictlyIncreasing; rw [hSe]; exact List.Pairwise.filter _ hsA
  have hIs : StrictlyIncreasing I := by
    unfold StrictlyIncreasing; rw [hIe]; exact List.Pairwise.filter _ hsA
  refine ⟨S, I, by unfold operatorMinus; rw [hC, ok_bind]; exact hS,
    by unfold operatorTimes; rw [hC, ok_bind]; exact hI, ?_⟩
  intro x
  refine ⟨_, _, _, Contains_spec hA hsA x, Contains_spec hSwf hSs x,
    Contains_spec hIwf hIs x, ?_, ?_⟩
  · intro ha
    rw [hSe, hIe]
    simp only [decide_eq_true_eq] at ha
    by_cases hb : x ∈ entries B
    · right; simp [List.mem_filter, ha, hb]
    · left; simp [List.mem_filter, ha, hb]
  · intro ha
    rw [hSe, hIe]
    simp only [decide_eq_false_iff_not] at ha
    simp [List.mem_filter, ha]

/-- C7 at `A = [1,3,5,7]`, `B = [3,4,5]`. -/
theorem C7_subtract_intersect_partition_witness :
    WF list1357 ∧ list1357.fN ≤ list1357.fSize ∧ WF list345 ∧
    StrictlyIncreasing list1357 ∧ StrictlyIncreasing list345 ∧
    ∃ S I, operatorMinus sampleEnv list1357 list345 = .ok S ∧
      operatorTimes sampleEnv list1357 list345 = .ok I ∧
      ∀ x, ∃ a s i : Bool, Contains list1357 x = .ok a ∧ Contains S x = .ok s ∧
        Contains I x = .ok i ∧
        (a = true → (s = true ∧ i = false) ∨ (s = false ∧ i = true)) ∧
        (a = false → s = false ∧ i = false) :=
  ⟨by decide, by decide, by decide, by decide, by decide,
    C7_subtract_intersect_partition sampleEnv list1357 list345 (by decide) (by decide)
      (by decide) (by decide) (by decide)⟩

/-- Scenario 2 of the specification for `Subtract` and `Intersect`, run on the code. -/
theorem scenario2_subtract_intersect :
    (Subtract sampleEnv list1357 (some list345)).map entries = .ok [1, 7] ∧
    (Intersect sampleEnv list1357 (some list345)).map entries = .ok [3, 5] :=
  ⟨rfl, rfl⟩

/-- C10 as stated fails.  Enter `-1` into a new list: index `0` is in range
(`0 ≤ 0 < fN = 1`), yet `GetEntry(0)` returns the stored entry `-1`, the very value
`GetEntry(1)` returns for an index out of range; so "returns the signal iff the index is out
of range" is false at index `0`. -/
theorem C10_sentinel_collides_with_entry :
    ∃ s, Enter sampleEnv ctorDefault (-1) = .ok s ∧ s.fN = 1 ∧ entries s = [-1] ∧
      GetEntry s 0 = .ok (-1) ∧ GetEntry s 1 = .ok (-1) ∧
      ¬ (GetEntry s 0 = .ok (-1) ↔ ((0 : Int) < 0 ∨ (0 : Int) ≥ s.fN)) :=
  ⟨_, rfl, rfl, rfl, rfl, rfl, fun h => absurd (h.mp rfl) (by decide)⟩

/-- C10, amended.  On a consistent list, `GetEntry(index)` returns `-1` when `index < 0` or
`index ≥ fN`, and for `0 ≤ index < fN` it returns the entry stored at that position.  That
entry may itself be `-1`; when no stored entry is `-1` (as with entry numbers, which are
not negative), `GetEntry` returns `-1` if and only if the index is out of range. -/
theorem C10_GetEntry_amended (s : State) (index : Int) (hwf : WF s) :
    (index < 0 ∨ index ≥ s.fN → GetEntry s index = .ok (-1)) ∧
    (0 ≤ index → index < s.fN →
      ∃ v, (entries s)[index.toNat]? = some v ∧ GetEntry s index = .ok v) ∧
    ((∀ v ∈ entries s, v ≠ -1) →
      (GetEntry s index = .ok (-1) ↔ (index < 0 ∨ index ≥ s.fN))) := by
  have hout : index < 0 ∨ index ≥ s.fN → GetEntry s index = .ok (-1) := by
    intro h
    unfold GetEntry
    cases s.fList with
    | none => rfl
    | some l => simp only; rw [if_pos h]
  have hin : 0 ≤ index → index < s.fN →
      ∃ v, (entries s)[index.toNat]? = some v ∧ GetEntry s index = .ok v := by
    intro h0 h1
    cases hl : s.fList with
    | none =>
      have := hwf.2
      rw [hl] at this
      simp only at this
      omega
    | some l =>
      have hlen := hwf.2
      rw [hl] at hlen
      simp only at hlen
      have hi : index.toNat < l.length := by omega
      refine ⟨l[index.toNat], ?_, ?_⟩
      · rw [entries_some hl, List.getElem?_take, List.getElem?_eq_getElem hi]
        simp; omega
      · unfold GetEntry
        simp only [hl]
        rw [if_neg (by omega)]
        exact load_ok_int h0 (List.getElem?_eq_getElem hi)
  refine ⟨hout, hin, ?_⟩
  intro hne
  constructor
  · intro hg
    by_contra hcon
    obtain ⟨v, hv, hgv⟩ := hin (by omega) (by omega)
    rw [hgv] at hg
    have hv1 : v = -1 := by injection hg
    exact hne v (List.mem_iff_getElem?.mpr ⟨_, hv⟩) hv1
  · exact hout

/-- C10 (amended) at `[1,3,5,7]`: index `9` is out of range, index `2` is in range. -/
theorem C10_GetEntry_amended_witness :
    WF list1357 ∧ GetEntry list1357 9 = .ok (-1) ∧
    (∃ v, (entries list1357)[(2 : Int).toNat]? = some v ∧ GetEntry list1357 2 = .ok v) ∧
    (GetEntry list1357 2 = .ok (-1) ↔ ((2 : Int) < 0 ∨ (2 : Int) ≥ list1357.fN)) :=
  ⟨by decide, (C10_GetEntry_amended list1357 9 (by decide)).1 (by decide),
    (C10_GetEntry_amended list1357 2 (by decide)).2.1 (by decide) (by decide),
    (C10_GetEntry_amended list1357 2 (by decide)).2.2 (by decide)⟩

/-! ## ContainsRange -/

/-- C11. On a consistent, strictly increasing list with at least one entry `≤ high`,
`ContainsRange(low, high)` succeeds and returns true exactly when the largest entry that is
`≤ high` is `≥ low`, which is the case exactly when some entry `e` has `low ≤ e ≤ high`. -/
theorem C11_ContainsRange_correct (s : State) (low high : Int) (hwf : WF s)
    (hs : StrictlyIncreasing s) (hex : ∃ e ∈ entries s, e ≤ high) :
    ∃ m, m ∈ entries s ∧ m ≤ high ∧ (∀ e ∈ entries s, e ≤ high → e ≤ m) ∧
      ContainsRange s low high = .ok (decide (low ≤ m)) ∧
      (low ≤ m ↔ ∃ e ∈ entries s, low ≤ e ∧ e ≤ high) := by
  obtain ⟨e0, he0, he0h⟩ := hex
  cases hl : s.fList with
  | none => rw [entries_none hl] at he0; simp at he0
  | some l =>
    obtain ⟨n, hn⟩ : ∃ n : Nat, s.fN = (n : Int) := ⟨s.fN.toNat, by have := hwf.1; omega⟩
    have hnl : n ≤ l.length := by
      have := hwf.2
      rw [hl] at this
      simp only at this
      omega
    have he : entries s = l.take n := by rw [entries_some hl, hn]; simp
    have hs0 : (l.take n).Pairwise (fun a b => a < b) := by rw [← he]; exact hs
    have hsort : SortedUpTo (l.take n) n :=
      sortedUpTo_of_pairwise (by rw [List.take_take, Nat.min_self]; exact hs0)
    obtain ⟨hb1, hb2, hb3, hb4⟩ := BinarySearch_spec l n hs0 high
    have hlen : (l.take n).length = n := by rw [List.length_take]; omega
    rw [hlen] at hb2
    rw [he] at he0
    obtain ⟨j0, hj0⟩ := List.mem_iff_getElem?.mp he0
    have hj0n : j0 < n := by
      have := (List.getElem?_eq_some.mp hj0).1
      omega
    have hpos : (j0 : Int) ≤ BinarySearch n l high := by
      by_contra hcon
      have := hb4 j0 (by omega) e0 hj0
      omega
    obtain ⟨p, hp⟩ : ∃ p : Nat, BinarySearch n l high = (p : Int) :=
      ⟨(BinarySearch n l high).toNat, by omega⟩
    rw [hp] at hb2 hb3 hb4 hpos
    obtain ⟨m, hml, hme⟩ := getElem?_take_of_lt (show p < n by omega) hnl
    have hmh : m ≤ high := hb3 p (le_refl _) m hme
    have hmax : ∀ e ∈ l.take n, e ≤ high → e ≤ m := by
      intro e hemem heh
      obtain ⟨j, hj⟩ := List.mem_iff_getElem?.mp hemem
      have hjl : j < (l.take n).length := (List.getElem?_eq_some.mp hj).1
      have hjp : j ≤ p := by
        by_contra hcon
        have := hb4 j (by omega) e hj
        omega
      rcases Nat.eq_or_lt_of_le hjp with h | h
      · rw [h, hme] at hj
        cases hj
        exact le_refl _
      · exact le_of_lt (hsort j p h (by omega) e m hj hme)
    have hmem : m ∈ l.take n := List.mem_iff_getElem?.mpr ⟨p, hme⟩
    refine ⟨m, by rw [he]; exact hmem, hmh, by rw [he]; exact hmax, ?_, ?_⟩
    · unfold ContainsRange
      simp only [hl, hn, Option.getD_some]
      rw [hp, load_ok hml, ok_bind]
      by_cases hlow : low ≤ m
      · have : ¬ m < low := by omega
        simp [this, hlow]
      · have : m < low := by omega
        simp [this, hlow]
    · rw [he]
      constructor
      · intro hlow
        exact ⟨m, hmem, hlow, hmh⟩
      · rintro ⟨e, hemem, hle, heh⟩
        exact le_trans hle (hmax e hemem heh)

/-- C11 at `[1,3,5,7]`: the range `[2,4]` holds the entry `3`. -/
theorem C11_ContainsRange_correct_witness :
    WF list1357 ∧ StrictlyIncreasing list1357 ∧ (∃ e ∈ entries list1357, e ≤ 4) ∧
    ∃ m, m ∈ entries list1357 ∧ m ≤ 4 ∧ (∀ e ∈ entries list1357, e ≤ 4 → e ≤ m) ∧
      ContainsRange list1357 2 4 = .ok (decide (2 ≤ m)) ∧
      (2 ≤ m ↔ ∃ e ∈ entries list1357, 2 ≤ e ∧ e ≤ 4) :=
  ⟨by decide, by decide, ⟨1, by decide, by decide⟩,
    C11_ContainsRange_correct list1357 2 4 (by decide) (by decide)
      ⟨1, by decide, by decide⟩⟩

/-! ## Inverting a successful run -/

theorem bind_eq_ok {α β : Type} {x : Exec α} {f : α → Exec β} {b : β}
    (h : (x >>= f) = .ok b) : ∃ a, x = .ok a ∧ f a = .ok b := by
  cases x with
  | error e => cases h
  | ok a => exact ⟨a, rfl, h⟩

theorem ok_inj {α : Type} {a b : α} (h : (Except.ok a : Exec α) = .ok b) : a = b := by
  injection h

theorem sublist_of_pairwise_lt_of_subset {e1 e2 : List Int}
    (h1 : e1.Pairwise (fun a b => a < b)) (h2 : e2.Pairwise (fun a b => a < b))
    (hsub : ∀ y ∈ e1, y ∈ e2) : e1.Sublist e2 :=
  List.sublist_of_subperm_of_sorted
    (List.subperm_of_subset (h1.imp (fun h => ne_of_lt h)) hsub)
    (show List.Sorted (fun a b : Int => a ≤ b) e1 from h1.imp (fun h => le_of_lt h))
    (show List.Sorted (fun a b : Int => a ≤ b) e2 from h2.imp (fun h => le_of_lt h))

/-! ## The growth step of Enter -/

/-- On a full, allocated buffer and an entry different from the last one, `Enter` is
`Resize` followed by the placement. -/
theorem Enter_full_eq (env : Env) (s : State) (x : Int) (hwf : WF s)
    (hfull : s.fN = s.fSize) (hl : s.fList ≠ none)
    (hlast : (entries s).getLast? ≠ some x) :
    Enter env s x =
      (Resize env s (max (2 * s.fSize) (s.fN + s.fDelta) - s.fSize) >>= fun s1 =>
        EnterPlace s1 x) := by
  cases hl0 : s.fList with
  | none => exact absurd hl0 hl
  | some l0 =>
    obtain ⟨n, hn⟩ : ∃ n : Nat, s.fN = (n : Int) := ⟨s.fN.toNat, by have := hwf.1; omega⟩
    have hnl : n ≤ l0.length := by
      have := hwf.2
      rw [hl0] at this
      simp only at this
      omega
    have he : entries s = l0.take n := by rw [entries_some hl0, hn]; simp
    have hge : s.fN ≥ s.fSize := by omega
    unfold Enter
    simp only [hl0]
    by_cases hpos : s.fN > 0
    · have hcast : (s.fN - 1) = ((n - 1 : Nat) : Int) := by omega
      obtain ⟨v, hv, hve⟩ := getElem?_take_of_lt (show n - 1 < n by omega) hnl
      rw [if_pos hpos, hcast, load_ok hv, ok_bind]
      have hxv : ¬ (x = v) := by
        intro hxv
        apply hlast
        rw [he, List.getLast?_eq_getElem?, List.length_take, hxv, ← hve]
        congr 1
        omega
      rw [if_neg (by intro h; exact hxv h.2), if_pos hge]
    · rw [if_neg hpos, ok_bind, if_neg (by intro h; exact hpos h.1), if_pos hge]

/-- C12. On a consistent, strictly increasing list with an allocated buffer, positive
capacity and `count == capacity`, `Enter(entry)` with an entry different from the last
element succeeds, sets the capacity to `max(2 * capacity, count + growth_increment)`, and
the previous entries are all still there in their previous order (they form a
subsequence of the new entries). -/
theorem C12_enter_growth_step (env : Env) (s : State) (x : Int) (hwf : WF s)
    (hs : StrictlyIncreasing s) (hcap : 0 < s.fSize) (hfull : s.fN = s.fSize)
    (hl : s.fList ≠ none) (hlast : (entries s).getLast? ≠ some x) :
    ∃ s', Enter env s x = .ok s' ∧ s'.fSize = max (2 * s.fSize) (s.fN + s.fDelta) ∧
      (entries s).Sublist (entries s') := by
  have hv : Valid s := by
    cases hl0 : s.fList with
    | none => exact absurd hl0 hl
    | some l0 =>
      have := hwf.2
      rw [hl0] at this
      simp only at this
      exact valid_of_some hl0 hwf.1 (by omega) hcap (by omega)
  obtain ⟨s', hr, _, hs', hm, _⟩ := Enter_spec env s x hv hs
  refine ⟨s', hr, ?_, sublist_of_pairwise_lt_of_subset hs hs' (fun y hy => (hm y).mpr (Or.inr hy))⟩
  have hd : ¬ (max (2 * s.fSize) (s.fN + s.fDelta) - s.fSize = 0) := by
    have := le_max_left (2 * s.fSize) (s.fN + s.fDelta)
    omega
  have hsz : s.fN ≤ s.fSize + (if max (2 * s.fSize) (s.fN + s.fDelta) - s.fSize = 0
      then s.fDelta else max (2 * s.fSize) (s.fN + s.fDelta) - s.fSize) := by
    have := le_max_left (2 * s.fSize) (s.fN + s.fDelta)
    rw [if_neg hd]; omega
  obtain ⟨l1, hres, hlen, htake⟩ := Resize_spec env s _ hwf hsz
  rw [if_neg hd] at hres hlen
  rw [Enter_full_eq env s x hwf hfull hl hlast, hres, ok_bind] at hr
  obtain ⟨n, hn⟩ : ∃ n : Nat, s.fN = (n : Int) := ⟨s.fN.toNat, by have := hwf.1; omega⟩
  have hs1 : (l1.take n).Pairwise (fun a b => a < b) := by
    have : l1.take n = entries s := by rw [← htake, hn]; simp
    rw [this]; exact hs
  have hroom : n < l1.length := by
    have := le_max_left (2 * s.fSize) (s.fN + s.fDelta)
    omega
  obtain ⟨s2, hr2, hsz2, _⟩ := EnterPlace_spec
    { s with fSize := s.fSize + (max (2 * s.fSize) (s.fN + s.fDelta) - s.fSize),
             fList := some l1 } l1 n x rfl hn hroom hs1
  rw [hr2] at hr
  rw [← ok_inj hr, hsz2]
  simp only
  omega

/-- C12 at the full list `[1,5,9]` (three entries in three slots) and the entry `3`. -/
theorem C12_enter_growth_step_witness :
    WF list159 ∧ StrictlyIncreasing list159 ∧ 0 < list159.fSize ∧
    list159.fN = list159.fSize ∧ list159.fList ≠ none ∧
    (entries list159).getLast? ≠ some 3 ∧
    ∃ s', Enter sampleEnv list159 3 = .ok s' ∧
      s'.fSize = max (2 * list159.fSize) (list159.fN + list159.fDelta) ∧
      (entries list159).Sublist (entries s') :=
  ⟨by decide, by decide, by decide, by decide, by decide, by decide,
    C12_enter_growth_step sampleEnv list159 3 (by decide) (by decide) (by decide)
      (by decide) (by decide) (by decide)⟩

/-! ## Reset and Resize -/

/-- C19. `Reset()` sets `fN` to 0 and leaves capacity, growth increment and buffer as
they were; afterwards `Contains(x)` is false for every `x`.  When the recorded capacity
is positive and an allocated buffer has at least one slot, a following `Enter(x)` succeeds
and gives the list `[x]` with `fN = 1` and unchanged capacity, written into the retained
buffer when there is one. -/
theorem C19_reset_then_enter (env : Env) (s : State) (x : Int) (hcap : 0 < s.fSize)
    (hbuf : ∀ l, s.fList = some l → 0 < l.length) :
    (Reset s).fN = 0 ∧ (Reset s).fSize = s.fSize ∧ (Reset s).fDelta = s.fDelta ∧
    (Reset s).fList = s.fList ∧ (∀ y, Contains (Reset s) y = .ok false) ∧
    ∃ s', Enter env (Reset s) x = .ok s' ∧ entries s' = [x] ∧ s'.fN = 1 ∧
      s'.fSize = s.fSize ∧ (∀ l, s.fList = some l → s'.fList = some (l.set 0 x)) := by
  refine ⟨rfl, rfl, rfl, rfl, ?_, ?_⟩
  · intro y
    simp [Contains, GetIndex, GetIndexLoop, Reset]
  · cases hl : s.fList with
    | none =>
      obtain ⟨m, hm⟩ : ∃ m : Nat, s.fSize = (m : Int) := ⟨s.fSize.toNat, by omega⟩
      obtain ⟨d, hd, hdl⟩ := newArray_ok env m
      have hd0 : 0 < d.length := by omega
      have hst : store d 0 x = .ok (d.set 0 x) := by
        simpa using store_ok x hd0
      refine ⟨{ s with fList := some (d.set 0 x), fN := 1 }, ?_, ?_, rfl, rfl, ?_⟩
      · have hl2 : (Reset s).fList = none := hl
        have hs2 : (Reset s).fSize = (m : Int) := hm
        unfold Enter
        simp only [hl2]
        rw [hs2, hd, ok_bind, hst, ok_bind, ← hm]
        rfl
      · simp only [entries]
        rw [show (1 : Int).toNat = 0 + 1 by decide, take_set_succ d 0 x hd0]
        simp
      · intro l hl3
        cases hl3
    | some l =>
      have hl0 := hbuf l hl
      have hst : store l 0 x = .ok (l.set 0 x) := by
        simpa using store_ok x hl0
      have hnot : ¬ (0 ≥ s.fSize) := by omega
      refine ⟨{ s with fList := some (l.set 0 x), fN := 0 + 1 }, ?_, ?_, rfl, rfl, ?_⟩
      · simp [Enter, EnterPlace, Reset, hl, hst, hnot]
      · simp only [entries]
        rw [show ((0 : Int) + 1).toNat = 0 + 1 by decide, take_set_succ l 0 x hl0]
        simp
      · intro l2 hl2
        cases hl2
        rfl

/-- C19 at `[1,3,5,7]`: after `Reset`, `Enter(9)` gives `[9]` in the same four slots. -/
theorem C19_reset_then_enter_witness :
    0 < list1357.fSize ∧ (∀ l, list1357.fList = some l → 0 < l.length) ∧
    (Reset list1357).fN = 0 ∧ (Reset list1357).fSize = list1357.fSize ∧
    (Reset list1357).fDelta = list1357.fDelta ∧
    (Reset list1357).fList = list1357.fList ∧
    (∀ y, Contains (Reset list1357) y = .ok false) ∧
    ∃ s', Enter sampleEnv (Reset list1357) 9 = .ok s' ∧ entries s' = [9] ∧ s'.fN = 1 ∧
      s'.fSize = list1357.fSize ∧
      (∀ l, list1357.fList = some l → s'.fList = some (l.set 0 9)) :=
  ⟨by decide, fun l hl => by cases hl; decide,
    C19_reset_then_enter sampleEnv list1357 9 (by decide)
      (fun l hl => by cases hl; decide)⟩

/-- C20. On a consistent list with `count ≤ capacity` (allocated or not) and a growth
increment that is not negative, `Resize(delta)` with `delta ≥ 0` succeeds; the capacity
becomes the old capacity plus `delta`, or plus the growth increment when `delta` is zero,
it is not smaller than before, and `fN` and the entries at positions `0 .. fN-1` are
unchanged. -/
theorem C20_resize_frame (env : Env) (s : State) (delta : Int) (hwf : WF s)
    (hcap : s.fN ≤ s.fSize) (hinc : 0 ≤ s.fDelta) (hd : 0 ≤ delta) :
    ∃ s', Resize env s delta = .ok s' ∧
      s'.fSize = s.fSize + (if delta = 0 then s.fDelta else delta) ∧
      s.fSize ≤ s'.fSize ∧ s'.fN = s.fN ∧ entries s' = entries s := by
  have hsz : s.fN ≤ s.fSize + (if delta = 0 then s.fDelta else delta) := by
    split <;> omega
  obtain ⟨l, hr, hlen, htake⟩ := Resize_spec env s delta hwf hsz
  refine ⟨_, hr, rfl, ?_, rfl, ?_⟩
  · simp only
    split <;> omega
  · rw [← htake]
    simp [entries]

/-- C20 at `[1,5]` with capacity 3: `Resize(0)` adds the growth increment 100,
`Resize(5)` adds 5. -/
theorem C20_resize_frame_witness :
    WF list15 ∧ list15.fN ≤ list15.fSize ∧ 0 ≤ list15.fDelta ∧
    (∃ s', Resize sampleEnv list15 0 = .ok s' ∧
      s'.fSize = list15.fSize + (if (0 : Int) = 0 then list15.fDelta else 0) ∧
      list15.fSize ≤ s'.fSize ∧ s'.fN = list15.fN ∧ entries s' = entries list15) ∧
    (∃ s', Resize sampleEnv list15 5 = .ok s' ∧
      s'.fSize = list15.fSize + (if (5 : Int) = 0 then list15.fDelta else 5) ∧
      list15.fSize ≤ s'.fSize ∧ s'.fN = list15.fN ∧ entries s' = entries list15) :=
  ⟨by decide, by decide, by decide,
    C20_resize_frame sampleEnv list15 0 (by decide) (by decide) (by decide) (by decide),
    C20_resize_frame sampleEnv list15 5 (by decide) (by decide) (by decide) (by decide)⟩

/-! ## Sort -/

/-- The values `TMath::Sort` orders by, read off its index list back to front: the
entries in ascending order. -/
theorem TMathSort_values (l : List Int) (n : Nat) (hn : n ≤ l.length) :
    ∃ idx : List Nat, TMathSort (n : Int) l = idx.map (fun (i : Nat) => (i : Int)) ∧
      idx.length = n ∧ (∀ p ∈ idx, p < n) ∧
      ((idx.reverse.map (fun k => l.getD k 0)).Perm (l.take n)) ∧
      (idx.reverse.map (fun k => l.getD k 0)).Pairwise (fun a b => a ≤ b) := by
  haveI : IsTotal Nat (fun i j => l.getD j 0 ≤ l.getD i 0) := ⟨fun _ _ => le_total _ _⟩
  haveI : IsTrans Nat (fun i j => l.getD j 0 ≤ l.getD i 0) :=
    ⟨fun _ _ _ h1 h2 => le_trans h2 h1⟩
  have hperm := List.perm_insertionSort (fun i j => l.getD j 0 ≤ l.getD i 0) (List.range n)
  have hsorted := List.sorted_insertionSort (fun i j => l.getD j 0 ≤ l.getD i 0)
    (List.range n)
  refine ⟨(List.range n).insertionSort (fun i j => l.getD j 0 ≤ l.getD i 0), ?_, ?_, ?_, ?_,
    ?_⟩
  · simp [TMathSort]
  · rw [hperm.length_eq, List.length_range]
  · intro p hp
    exact List.mem_range.mp (hperm.subset hp)
  · have h1 : (List.range n).map (fun k => l.getD k 0) = l.take n := by
      apply List.ext_getElem?
      intro j
      rw [List.getElem?_map, List.getElem?_take]
      by_cases hj : j < n
      · rw [List.getElem?_range hj]
        have hjl : j < l.length := by omega
        simp [hj, List.getD, List.getElem?_eq_getElem hjl]
      · rw [List.getElem?_eq_none (by simpa using hj)]
        simp [hj]
    rw [← h1]
    exact ((List.reverse_perm _).trans hperm).map _
  · rw [List.pairwise_map, List.pairwise_reverse]
    exact hsorted

theorem SortFor_spec (l : List Int) (idx : List Nat) (n : Nat) (hidx : idx.length = n)
    (hp : ∀ p ∈ idx, p < l.length) :
    ∀ (k i : Nat) (nl : List Int), i + k = n → n ≤ nl.length →
      ∃ r, SortFor (some l) (idx.map (fun (i : Nat) => (i : Int))) (n : Int) k (i : Int) nl = .ok r ∧
        r.length = nl.length ∧
        ∀ j : Nat, r[j]? = if i ≤ j ∧ j < n
          then (idx.reverse.map (fun k => l.getD k 0))[j]? else nl[j]? := by
  intro k
  induction k with
  | zero =>
    intro i nl hik _
    refine ⟨nl, rfl, rfl, ?_⟩
    intro j
    have : ¬ (i ≤ j ∧ j < n) := by omega
    simp [this]
  | succ k ih =>
    intro i nl hik hnl
    have hq : n - 1 - i < idx.length := by omega
    have hpl : idx[n - 1 - i] < l.length := hp _ (List.getElem_mem _)
    have hload1 : load (some (idx.map (fun (i : Nat) => (i : Int)))) ((n : Int) - (i : Int) - 1)
        = .ok ((idx[n - 1 - i] : Nat) : Int) := by
      have hc : ((n : Int) - (i : Int) - 1) = ((n - 1 - i : Nat) : Int) := by omega
      rw [hc]
      apply load_ok
      rw [List.getElem?_map, List.getElem?_eq_getElem hq]
      rfl
    have hload2 : load (some l) ((idx[n - 1 - i] : Nat) : Int) = .ok l[idx[n - 1 - i]] :=
      load_ok (List.getElem?_eq_getElem hpl)
    obtain ⟨r, hr, hlen, hget⟩ := ih (i + 1) (nl.set i l[idx[n - 1 - i]]) (by omega)
      (by rw [List.length_set]; exact hnl)
    refine ⟨r, ?_, by rw [hlen, List.length_set], ?_⟩
    · unfold SortFor
      rw [hload1, ok_bind, hload2, ok_bind,
        store_ok _ (show i < nl.length by omega), ok_bind]
      have hc : ((i : Int) + 1) = ((i + 1 : Nat) : Int) := by omega
      rw [hc]; exact hr
    · intro j
      rw [hget j, List.getElem?_set]
      by_cases h1 : i + 1 ≤ j ∧ j < n
      · have h2 : i ≤ j ∧ j < n := by omega
        simp only [h1, h2, and_self, if_true]
      · by_cases h3 : i = j
        · subst h3
          have h2 : i ≤ i ∧ i < n := by omega
          have h4 : i < nl.length := by omega
          rw [if_neg h1, if_pos h2, if_pos rfl, if_pos h4, List.getElem?_map,
            List.getElem?_reverse (by omega), hidx, List.getElem?_eq_getElem hq]
          simp [List.getD, List.getElem?_eq_getElem hpl]
        · have h2 : ¬ (i ≤ j ∧ j < n) := by omega
          rw [if_neg h1, if_neg h2, if_neg h3]

theorem SortPad_spec :
    ∀ (k i : Nat) (nl : List Int), i + k ≤ nl.length →
      ∃ r, SortPad k (i : Int) nl = .ok r ∧ r.length = nl.length ∧
        ∀ j : Nat, r[j]? = if i ≤ j ∧ j < i + k then some 0 else nl[j]? := by
  intro k
  induction k with
  | zero =>
    intro i nl _
    refine ⟨nl, rfl, rfl, ?_⟩
    intro j
    have : ¬ (i ≤ j ∧ j < i) := by omega
    simp [this]
  | succ k ih =>
    intro i nl hlen
    obtain ⟨r, hr, hlen2, hget⟩ := ih (i + 1) (nl.set i 0) (by rw [List.length_set]; omega)
    refine ⟨r, ?_, by rw [hlen2, List.length_set], ?_⟩
    · unfold SortPad
      rw [store_ok _ (show i < nl.length by omega), ok_bind]
      have hc : ((i : Int) + 1) = ((i + 1 : Nat) : Int) := by omega
      rw [hc]; exact hr
    · intro j
      rw [hget j, List.getElem?_set]
      by_cases h1 : i + 1 ≤ j ∧ j < i + 1 + k
      · have h2 : i ≤ j ∧ j < i + (k + 1) := by omega
        simp only [h1, h2, and_self, if_true]
      · by_cases h3 : i = j
        · subst h3
          have h2 : i ≤ i ∧ i < i + (k + 1) := by omega
          have h4 : i < nl.length := by omega
          rw [if_neg h1, if_pos h2, if_pos rfl, if_pos h4]
        · have h2 : ¬ (i ≤ j ∧ j < i + (k + 1)) := by omega
          rw [if_neg h1, if_neg h2, if_neg h3]

/-- The effect of `Sort` on a consistent list with `count ≤ capacity`: the first `fN`
slots of the new array hold the previous entries in ascending order, the slots from `fN`
to `fSize - 1` hold 0. -/
theorem SortEntries_spec (env : Env) (s : State) (hwf : WF s) (hcap : s.fN ≤ s.fSize) :
    ∃ l', SortEntries env s = .ok { s with fList := some l' } ∧
      (l'.length : Int) = s.fSize ∧
      (l'.take s.fN.toNat).Perm (entries s) ∧
      (l'.take s.fN.toNat).Pairwise (fun a b => a ≤ b) ∧
      (∀ j : Nat, s.fN ≤ j → (j : Int) < s.fSize → l'[j]? = some 0) := by
  have h0 := hwf.1
  have h1 := hwf.le_getD
  obtain ⟨n, hn⟩ : ∃ n : Nat, s.fN = (n : Int) := ⟨s.fN.toNat, by omega⟩
  obtain ⟨m, hm⟩ : ∃ m : Nat, s.fSize = (m : Int) := ⟨s.fSize.toNat, by omega⟩
  obtain ⟨d, hd, hdl⟩ := newArray_ok env m
  -- the index array and the loop that reads through it
  have hloop : ∃ idx : List Nat, ∃ r, SortIndex s = .ok (idx.map (fun (i : Nat) => (i : Int))) ∧
      SortFor s.fList (idx.map (fun (i : Nat) => (i : Int))) (n : Int) n 0 d = .ok r ∧
      r.length = m ∧ (r.take n).Perm (entries s) ∧
      (r.take n).Pairwise (fun a b => a ≤ b) := by
    cases hl : s.fList with
    | none =>
      have hn0 : n = 0 := by
        rw [hl] at h1
        simp at h1
        omega
      subst hn0
      refine ⟨[], d, ?_, rfl, hdl, by simp [entries_none hl], by simp⟩
      simp [SortIndex, hl, hn]
    | some l =>
      have hnl : n ≤ l.length := by
        rw [hl] at h1
        simp only [Option.getD_some] at h1
        omega
      obtain ⟨idx, hidx, hlen, hlt, hperm, hsorted⟩ := TMathSort_values l n hnl
      obtain ⟨r, hr, hrl, hget⟩ := SortFor_spec l idx n hlen
        (fun p hp => lt_of_lt_of_le (hlt p hp) hnl) n 0 d (by omega) (by omega)
      have htake : r.take n = idx.reverse.map (fun k => l.getD k 0) := by
        apply List.ext_getElem?
        intro j
        rw [List.getElem?_take, hget j]
        by_cases hj : j < n
        · simp [hj]
        · simp only [hj, if_false, and_false]
          symm
          rw [List.getElem?_eq_none_iff]
          simp only [List.length_map, List.length_reverse]
          omega
      refine ⟨idx, r, ?_, by simpa using hr, by omega, ?_, ?_⟩
      · simp only [SortIndex, hl, hn]
        rw [if_pos (by omega), hidx]
      · rw [htake, entries_some hl, hn, Int.toNat_ofNat]
        exact hperm
      · rw [htake]; exact hsorted
  obtain ⟨idx, r, hindex, hfor, hrl, hperm, hsorted⟩ := hloop
  obtain ⟨r2, hpad, hlen2, hget2⟩ := SortPad_spec (m - n) n r (by omega)
  have htake2 : r2.take n = r.take n := by
    apply List.ext_getElem?
    intro j
    rw [List.getElem?_take, List.getElem?_take, hget2 j]
    by_cases hj : j < n
    · have : ¬ (n ≤ j ∧ j < n + (m - n)) := by omega
      simp [hj, this]
    · simp [hj]
  refine ⟨r2, ?_, by omega, ?_, ?_, ?_⟩
  · obtain ⟨d0, hd0, _⟩ := newArray_ok env n
    unfold SortEntries
    rw [hn, hd0, ok_bind, hm, hd, ok_bind, ← hn, hindex, ok_bind, hn, Int.toNat_ofNat, hfor,
      ok_bind]
    have hc : ((m : Int) - (n : Int)).toNat = m - n := by omega
    rw [hc, hpad, ok_bind]
  · rw [hn, Int.toNat_ofNat, htake2]; exact hperm
  · rw [hn, Int.toNat_ofNat, htake2]; exact hsorted
  · intro j hj1 hj2
    rw [hget2 j]
    have : n ≤ j ∧ j < n + (m - n) := by omega
    rw [if_pos this]

/-- C13 as stated fails.  The list holding `1, 1` is sorted by `Sort` into `1, 1`:
`entries[0] < entries[1]` does not hold, repeated values stay repeated. -/
theorem C13_sort_keeps_repeated_values :
    WF list11 ∧ list11.fN ≤ list11.fSize ∧
    ∃ s', SortEntries sampleEnv list11 = .ok s' ∧ entries s' = [1, 1] ∧
      ¬ StrictlyIncreasing s' :=
  ⟨by decide, by decide, _, rfl, rfl, by decide⟩

/-- C13, amended.  On a consistent list with `count ≤ capacity` whose first `fN` entries
are arbitrary, `Sort()` succeeds and leaves a rearrangement of those entries with
`entries[i] ≤ entries[j]` for all valid `i < j`; the strict order
`entries[i] < entries[j]` holds when the entries held no repeated value. -/
theorem C13_sort_orders_entries (env : Env) (s : State) (hwf : WF s)
    (hcap : s.fN ≤ s.fSize) :
    ∃ s', SortEntries env s = .ok s' ∧
      (entries s').Pairwise (fun a b => a ≤ b) ∧ (entries s').Perm (entries s) ∧
      ((entries s).Nodup → StrictlyIncreasing s') := by
  obtain ⟨l', hr, _, hperm, hsorted, _⟩ := SortEntries_spec env s hwf hcap
  have he : entries { s with fList := some l' } = l'.take s.fN.toNat := rfl
  refine ⟨_, hr, by rw [he]; exact hsorted, by rw [he]; exact hperm, ?_⟩
  intro hnd
  unfold StrictlyIncreasing
  rw [he]
  have hnd2 : (l'.take s.fN.toNat).Nodup := hperm.nodup_iff.mpr hnd
  exact (hsorted.and hnd2).imp (fun h => lt_of_le_of_ne h.1 h.2)

/-- C13 (amended) at the unsorted list `5, 1, 4`. -/
theorem C13_sort_orders_entries_witness :
    WF list514 ∧ list514.fN ≤ list514.fSize ∧
    ∃ s', SortEntries sampleEnv list514 = .ok s' ∧
      (entries s').Pairwise (fun a b => a ≤ b) ∧ (entries s').Perm (entries list514) ∧
      ((entries list514).Nodup → StrictlyIncreasing s') :=
  ⟨by decide, by decide, C13_sort_orders_entries sampleEnv list514 (by decide) (by decide)⟩

/-! ## Merge -/

theorem MergeLoop_spec (env : Env) :
    ∀ (ls : List State) (R : State) (nevents : Int), WF R → StrictlyIncreasing R →
      (∀ S ∈ ls, WF S ∧ StrictlyIncreasing S) →
      ∃ R', MergeLoop env (ls.map TObject.eventList) R nevents
          = .ok (nevents + (ls.map (fun S => S.fN)).sum, R') ∧
        addAll env R ls = .ok R' ∧ WF R' ∧ StrictlyIncreasing R' ∧
        (∀ x, x ∈ entries R' ↔ x ∈ entries R ∨ ∃ S ∈ ls, x ∈ entries S) ∧
        R'.fN ≤ R.fN + (ls.map (fun S => S.fN)).sum := by
  intro ls
  induction ls with
  | nil =>
    intro R nevents hwf hs _
    exact ⟨R, by simp [MergeLoop], rfl, hwf, hs, by simp, by simp⟩
  | cons S ls ih =>
    intro R nevents hwf hs hall
    obtain ⟨hSw, hSs⟩ := hall S (List.mem_cons_self _ _)
    obtain ⟨R1, hadd, hwf1, hs1, hm1, hle1, _⟩ := Add_spec env R S hwf hSw hs hSs
    obtain ⟨R', hloop, hall2, hwf2, hs2, hm2, hle2⟩ := ih R1 (nevents + S.fN) hwf1 hs1
      (fun T hT => hall T (List.mem_cons_of_mem _ hT))
    refine ⟨R', ?_, ?_, hwf2, hs2, ?_, ?_⟩
    · simp only [List.map_cons, MergeLoop, List.sum_cons]
      rw [hadd, ok_bind, hloop, add_assoc]
    · unfold addAll at hall2 ⊢
      rw [List.foldlM_cons, hadd, ok_bind]
      exact hall2
    · intro x
      rw [hm2 x, hm1 x]
      simp only [List.mem_cons, exists_eq_or_imp]
      tauto
    · simp only [List.map_cons, List.sum_cons]
      omega

/-- C14 as stated fails.  Merging the collection holding the single list `[3,4,5]` into
the receiver `[1,3,5,7]` returns 3, the count of the list added, while the receiver then
holds the 5 entries `[1,3,4,5,7]`. -/
theorem C14_merge_returns_sum_of_inputs :
    ∃ r, Merge sampleEnv list1357 (some [TObject.eventList list345]) = .ok r ∧
      r.1 = 3 ∧ entries r.2 = [1, 3, 4, 5, 7] ∧ r.2.fN = 5 ∧ r.1 ≠ r.2.fN :=
  ⟨_, rfl, rfl, rfl, rfl, by decide⟩

/-- C14, amended.  For a consistent, strictly increasing receiver and a collection of
consistent, strictly increasing lists, `Merge(collection)` succeeds and returns the sum of
the counts of the lists in the collection; the count the receiver holds afterwards is at
most its previous count plus that sum. -/
theorem C14_merge_return_value (env : Env) (R : State) (ls : List State) (hwf : WF R)
    (hs : StrictlyIncreasing R) (hall : ∀ S ∈ ls, WF S ∧ StrictlyIncreasing S) :
    ∃ R', Merge env R (some (ls.map TObject.eventList))
        = .ok ((ls.map (fun S => S.fN)).sum, R') ∧
      R'.fN ≤ R.fN + (ls.map (fun S => S.fN)).sum := by
  obtain ⟨R', hloop, _, _, _, _, hle⟩ := MergeLoop_spec env ls R 0 hwf hs hall
  refine ⟨R', ?_, hle⟩
  simp only [Merge]
  rw [hloop, zero_add]

/-- C14 (amended) at the receiver `[1,3,5,7]` and the collection `[3,4,5]`, `[1,5]`. -/
theorem C14_merge_return_value_witness :
    WF list1357 ∧ StrictlyIncreasing list1357 ∧
    (∀ S ∈ [list345, list15], WF S ∧ StrictlyIncreasing S) ∧
    ∃ R', Merge sampleEnv list1357 (some ([list345, list15].map TObject.eventList))
        = .ok (([list345, list15].map (fun S => S.fN)).sum, R') ∧
      R'.fN ≤ list1357.fN + ([list345, list15].map (fun S => S.fN)).sum :=
  ⟨by decide, by decide, by decide,
    C14_merge_return_value sampleEnv list1357 [list345, list15] (by decide) (by decide)
      (by decide)⟩

/-- C15. For a consistent, strictly increasing receiver `R` and a collection of
consistent, strictly increasing lists `S1 .. Sn`, `R.Merge` succeeds and leaves the receiver
in the state that `R.Add(S1)`, ..., `R.Add(Sn)` in sequence leave it in; its entries are
strictly increasing and are exactly the values that were in `R` or are in some `Si`. -/
theorem C15_merge_is_repeated_add (env : Env) (R : State) (ls : List State) (hwf : WF R)
    (hs : StrictlyIncreasing R) (hall : ∀ S ∈ ls, WF S ∧ StrictlyIncreasing S) :
    ∃ ret R', Merge env R (some (ls.map TObject.eventList)) = .ok (ret, R') ∧
      addAll env R ls = .ok R' ∧ StrictlyIncreasing R' ∧
      (∀ x, x ∈ entries R' ↔ x ∈ entries R ∨ ∃ S ∈ ls, x ∈ entries S) := by
  obtain ⟨R', hloop, hadd, _, hs', hm, _⟩ := MergeLoop_spec env ls R 0 hwf hs hall
  exact ⟨_, R', by simp only [Merge]; exact hloop, hadd, hs', hm⟩

/-- C15 at the receiver `[1,3,5,7]` and the collection `[3,4,5]`, `[1,5]`. -/
theorem C15_merge_is_repeated_add_witness :
    WF list1357 ∧ StrictlyIncreasing list1357 ∧
    (∀ S ∈ [list345, list15], WF S ∧ StrictlyIncreasing S) ∧
    ∃ ret R', Merge sampleEnv list1357 (some ([list345, list15].map TObject.eventList))
        = .ok (ret, R') ∧
      addAll sampleEnv list1357 [list345, list15] = .ok R' ∧ StrictlyIncreasing R' ∧
      (∀ x, x ∈ entries R' ↔
        x ∈ entries list1357 ∨ ∃ S ∈ [list345, list15], x ∈ entries S) :=
  ⟨by decide, by decide, by decide,
    C15_merge_is_repeated_add sampleEnv list1357 [list345, list15] (by decide) (by decide)
      (by decide)⟩

/-! ## What the set operations do to capacity, increment and title -/

theorem Add_frame (env : Env) (A B A' : State) (h : Add env A (some B) = .ok A') :
    A'.fDelta = A.fDelta ∧
    ((B.fN = 0 ∧ A' = A) ∨
     (B.fN ≠ 0 ∧ A.fList = none ∧ A'.fSize = B.fN ∧ A'.fN = B.fN ∧
        A'.fTitle = A.fTitle) ∨
     (B.fN ≠ 0 ∧ A.fList ≠ none ∧ A'.fSize = A.fN + B.fN ∧
        A'.fTitle = env.cutOr A.fTitle B.fTitle)) := by
  unfold Add at h
  simp only at h
  by_cases han : B.fN = 0
  · rw [if_pos han] at h
    have := ok_inj h
    subst this
    exact ⟨rfl, Or.inl ⟨han, rfl⟩⟩
  · rw [if_neg han] at h
    cases hfl : A.fList with
    | none =>
      rw [hfl] at h
      simp only at h
      obtain ⟨d, _, h2⟩ := bind_eq_ok h
      obtain ⟨r, _, h3⟩ := bind_eq_ok h2
      have := ok_inj h3
      subst this
      exact ⟨rfl, Or.inr (Or.inl ⟨han, rfl, rfl, rfl, rfl⟩)⟩
    | some fl =>
      rw [hfl] at h
      simp only at h
      obtain ⟨d, _, h2⟩ := bind_eq_ok h
      obtain ⟨⟨nl, np, j⟩, _, h3⟩ := bind_eq_ok h2
      simp only at h3
      obtain ⟨⟨nl2, np2⟩, _, h4⟩ := bind_eq_ok h3
      simp only at h4
      have := ok_inj h4
      subst this
      exact ⟨rfl, Or.inr (Or.inr ⟨han, by simp, rfl, rfl⟩)⟩

theorem Subtract_frame (env : Env) (A B A' : State) (h : Subtract env A (some B) = .ok A') :
    (A.fList = none ∧ A' = A) ∨
    (A.fList ≠ none ∧ A'.fSize = A.fSize ∧ A'.fDelta = A.fDelta ∧
      A'.fTitle = env.cutAnd A.fTitle (env.cutNot B.fTitle)) := by
  unfold Subtract at h
  simp only at h
  cases hfl : A.fList with
  | none =>
    rw [hfl] at h
    exact Or.inl ⟨rfl, (ok_inj h).symm⟩
  | some fl =>
    rw [hfl] at h
    simp only at h
    obtain ⟨d, _, h2⟩ := bind_eq_ok h
    obtain ⟨⟨nl, np⟩, _, h3⟩ := bind_eq_ok h2
    simp only at h3
    have := ok_inj h3
    subst this
    exact Or.inr ⟨by simp, rfl, rfl, rfl⟩

theorem Intersect_frame (env : Env) (A B A' : State)
    (h : Intersect env A (some B) = .ok A') :
    (A.fList = none ∧ A' = A) ∨
    (A.fList ≠ none ∧ A'.fSize = A.fSize ∧ A'.fDelta = A.fDelta ∧
      A'.fTitle = env.cutAnd A.fTitle B.fTitle) := by
  unfold Intersect at h
  simp only at h
  cases hfl : A.fList with
  | none =>
    rw [hfl] at h
    exact Or.inl ⟨rfl, (ok_inj h).symm⟩
  | some fl =>
    rw [hfl] at h
    simp only at h
    obtain ⟨d, _, h2⟩ := bind_eq_ok h
    obtain ⟨⟨nl, np⟩, _, h3⟩ := bind_eq_ok h2
    simp only at h3
    have := ok_inj h3
    subst this
    exact Or.inr ⟨by simp, rfl, rfl, rfl⟩

/-- C16 as stated fails.  With the selections written out by `sampleEnv`: adding the
empty list titled `y>0` to the list `[1,3,5,7]` titled `x<0` leaves the receiver's title
`x<0`, not the OR `(x<0)||(y>0)`; and `Subtract` and `Intersect` on a receiver whose buffer
is not allocated leave its title as it is, not the AND-NOT or the AND. -/
theorem C16_label_not_combined_on_guarded_calls :
    (∃ A', Add sampleEnv selA (some selEmpty) = .ok A' ∧ A'.fTitle = "x<0" ∧
      A'.fTitle ≠ sampleEnv.cutOr selA.fTitle selEmpty.fTitle) ∧
    (∃ A', Subtract sampleEnv selEmpty (some selA) = .ok A' ∧ A'.fTitle = "y>0" ∧
      A'.fTitle ≠ sampleEnv.cutAnd selEmpty.fTitle (sampleEnv.cutNot selA.fTitle)) ∧
    (∃ A', Intersect sampleEnv selEmpty (some selA) = .ok A' ∧ A'.fTitle = "y>0" ∧
      A'.fTitle ≠ sampleEnv.cutAnd selEmpty.fTitle selA.fTitle) :=
  ⟨⟨_, rfl, rfl, by decide⟩, ⟨_, rfl, rfl, by decide⟩, ⟨_, rfl, rfl, by decide⟩⟩

/-- C16, amended.  For every combination of the title operators, every consistent
receiver `A` and every consistent, strictly increasing argument `B`:
`Add` (on a strictly increasing `A`) succeeds, leaves the receiver as it is when `B` is
empty, and sets the title to the OR of the two titles when `B` is not empty and the
receiver's buffer is allocated; `Subtract` and `Intersect` succeed, leave the receiver as it
is when its buffer is not allocated, and otherwise set the title to the AND-NOT,
respectively the AND, of the two titles. -/
theorem C16_label_combination (env : Env) (A B : State) (hA : WF A) (hB : WF B)
    (hsB : StrictlyIncreasing B) :
    (StrictlyIncreasing A → ∃ A', Add env A (some B) = .ok A' ∧
      (B.fN = 0 → A' = A) ∧
      (B.fN ≠ 0 → A.fList ≠ none → A'.fTitle = env.cutOr A.fTitle B.fTitle)) ∧
    (∃ A', Subtract env A (some B) = .ok A' ∧
      (A.fList = none → A' = A) ∧
      (A.fList ≠ none → A'.fTitle = env.cutAnd A.fTitle (env.cutNot B.fTitle))) ∧
    (∃ A', Intersect env A (some B) = .ok A' ∧
      (A.fList = none → A' = A) ∧
      (A.fList ≠ none → A'.fTitle = env.cutAnd A.fTitle B.fTitle)) := by
  refine ⟨?_, ?_, ?_⟩
  · intro hsA
    obtain ⟨A', hr, _⟩ := Add_spec env A B hA hB hsA hsB
    obtain ⟨_, hcase⟩ := Add_frame env A B A' hr
    refine ⟨A', hr, ?_, ?_⟩
    · intro h0
      rcases hcase with ⟨_, h⟩ | ⟨h, _⟩ | ⟨h, _⟩
      · exact h
      · exact absurd h0 h
      · exact absurd h0 h
    · intro h0 hfl
      rcases hcase with ⟨h, _⟩ | ⟨_, h, _⟩ | ⟨_, _, _, h⟩
      · exact absurd h h0
      · exact absurd h hfl
      · exact h
  · obtain ⟨A', hr, _⟩ := Subtract_spec env A B hA hB hsB
    refine ⟨A', hr, ?_, ?_⟩
    · intro hfl
      rcases Subtract_frame env A B A' hr with ⟨_, h⟩ | ⟨h, _⟩
      · exact h
      · exact absurd hfl h
    · intro hfl
      rcases Subtract_frame env A B A' hr with ⟨h, _⟩ | ⟨_, _, _, h⟩
      · exact absurd h hfl
      · exact h
  · obtain ⟨A', hr, _⟩ := Intersect_spec env A B hA hB hsB
    refine ⟨A', hr, ?_, ?_⟩
    · intro hfl
      rcases Intersect_frame env A B A' hr with ⟨_, h⟩ | ⟨h, _⟩
      · exact h
      · exact absurd hfl h
    · intro hfl
      rcases Intersect_frame env A B A' hr with ⟨h, _⟩ | ⟨_, _, _, h⟩
      · exact absurd h hfl
      · exact h

/-- C16 (amended) at the list `[1,3,5,7]` titled `x<0` and the list `[3,4,5]` titled
`y>0`. -/
theorem C16_label_combination_witness :
    WF selA ∧ WF selB ∧ StrictlyIncreasing selB ∧
    (StrictlyIncreasing selA → ∃ A', Add sampleEnv selA (some selB) = .ok A' ∧
      (selB.fN = 0 → A' = selA) ∧
      (selB.fN ≠ 0 → selA.fList ≠ none →
        A'.fTitle = sampleEnv.cutOr selA.fTitle selB.fTitle)) ∧
    (∃ A', Subtract sampleEnv selA (some selB) = .ok A' ∧
      (selA.fList = none → A' = selA) ∧
      (selA.fList ≠ none →
        A'.fTitle = sampleEnv.cutAnd selA.fTitle (sampleEnv.cutNot selB.fTitle))) ∧
    (∃ A', Intersect sampleEnv selA (some selB) = .ok A' ∧
      (selA.fList = none → A' = selA) ∧
      (selA.fList ≠ none → A'.fTitle = sampleEnv.cutAnd selA.fTitle selB.fTitle)) :=
  ⟨by decide, by decide, by decide,
    C16_label_combination sampleEnv selA selB (by decide) (by decide) (by decide)⟩

/-! ## The states a list can reach -/

theorem error_ne_ok {α β : Type} {e : Fault} {f : α → Exec β} {b : β}
    (h : ((Except.error e : Exec α) >>= f) = .ok b) : False := by
  cases h

theorem store_inv {l l' : List Int} {i : Nat} {v : Int}
    (h : store l (i : Int) v = .ok l') : i < l.length ∧ l' = l.set i v := by
  unfold store at h
  by_cases hc : 0 ≤ (i : Int) ∧ (i : Int).toNat < l.length
  · rw [if_pos hc] at h
    exact ⟨by simpa using hc.2, by simpa using (ok_inj h).symm⟩
  · rw [if_neg hc] at h
    cases h

/-- Whatever the second list is, the filtering loop keeps a subsequence of the entries it
walks over. -/
theorem FilterFor_sublist (keep : Int → Bool) (fl : List Int) (al : State) :
    ∀ (k i : Nat) (nl : List Int) (np : Nat) (nl' : List Int) (r : Int),
      i + k ≤ fl.length → np ≤ nl.length →
      FilterFor keep (some fl) al k (i : Int) nl (np : Int) = .ok (nl', r) →
      ∃ (np' : Nat) (sub : List Int), r = (np' : Int) ∧ np' ≤ nl'.length ∧ np' ≤ np + k ∧
        sub.Sublist ((fl.drop i).take k) ∧ nl'.take np' = nl.take np ++ sub := by
  intro k
  induction k with
  | zero =>
    intro i nl np nl' r _ hnp h
    simp only [FilterFor] at h
    have h2 := ok_inj h
    simp only [Prod.mk.injEq] at h2
    obtain ⟨h3, h4⟩ := h2
    subst h3
    exact ⟨np, [], h4.symm, hnp, le_refl _, by simp, by simp⟩
  | succ k ih =>
    intro i nl np nl' r hi hnp h
    obtain ⟨x, hx⟩ : ∃ x, fl[i]? = some x :=
      ⟨_, List.getElem?_eq_getElem (show i < fl.length by omega)⟩
    have hsplit : (fl.drop i).take (k + 1) = x :: (fl.drop (i + 1)).take k := by
      rw [drop_eq_cons_of_getElem? hx, List.take_succ_cons]
    have hc1 : ((np : Int) + 1) = ((np + 1 : Nat) : Int) := by omega
    have hc3 : ((i : Int) + 1) = ((i + 1 : Nat) : Int) := by omega
    unfold FilterFor at h
    rw [load_ok hx, ok_bind] at h
    obtain ⟨idx, _, h2⟩ := bind_eq_ok h
    by_cases hk : keep idx = true
    · simp only [hk, if_true] at h2
      obtain ⟨nl1, hst, h3⟩ := bind_eq_ok h2
      obtain ⟨hlt, hset⟩ := store_inv hst
      rw [hc1, hc3] at h3
      obtain ⟨np', sub, hr, hle, hle2, hsub, htake⟩ := ih (i + 1) nl1 (np + 1) nl' r
        (by omega) (by rw [hset, List.length_set]; omega) h3
      refine ⟨np', x :: sub, hr, hle, by omega, ?_, ?_⟩
      · rw [hsplit]; exact hsub.cons₂ x
      · rw [htake, hset, take_set_succ nl np x hlt]
        simp
    · simp only [hk] at h2
      rw [hc3] at h2
      obtain ⟨np', sub, hr, hle, hle2, hsub, htake⟩ := ih (i + 1) nl np nl' r
        (by omega) hnp h2
      refine ⟨np', sub, hr, hle, by omega, ?_, htake⟩
      rw [hsplit]; exact hsub.cons x

/-- A successful filtering into a fresh array of `fN` slots, as `Subtract` and `Intersect`
do it, leaves a consistent list whose entries are a subsequence of the previous ones. -/
theorem filter_run_sublist (env : Env) (keep : Int → Bool) (A al : State)
    (fl nl : List Int) (r : Int) (title : String) (hA : WF A) (hfl : A.fList = some fl)
    (h : (newArray env A.fN >>= fun d =>
        FilterFor keep (some fl) al A.fN.toNat 0 d 0) = .ok (nl, r)) :
    WF { A with fN := r, fList := some nl, fTitle := title } ∧
    (entries { A with fN := r, fList := some nl, fTitle := title }).Sublist (entries A) ∧
    r ≤ A.fN := by
  obtain ⟨n, hn⟩ : ∃ n : Nat, A.fN = (n : Int) := ⟨A.fN.toNat, by have := hA.1; omega⟩
  have hnl : n ≤ fl.length := by
    have := hA.2
    rw [hfl] at this
    simp only at this
    omega
  obtain ⟨d, _, h2⟩ := bind_eq_ok h
  rw [hn, Int.toNat_ofNat] at h2
  obtain ⟨np', sub, hr, hle, hle2, hsub, htake⟩ :=
    FilterFor_sublist keep fl al n 0 d 0 nl r (by omega) (by omega) (by simpa using h2)
  subst hr
  have he : entries { A with fN := (np' : Int), fList := some nl, fTitle := title }
      = nl.take np' := by simp [entries]
  refine ⟨wf_of_some (l := nl) rfl (by simp) (by simp only; omega), ?_, by omega⟩
  rw [he, htake, entries_some hfl, hn, Int.toNat_ofNat]
  simpa using hsub

theorem store_full_error (l : List Int) (x : Int) :
    store l (l.length : Int) x = .error Fault.outOfBounds := by
  simp [store]

theorem memmove_full_error (l : List Int) (p : Int) :
    memmove l (p + 1) p ((l.length : Int) - p) = .error Fault.outOfBounds := by
  unfold memmove
  rw [if_neg (by omega)]

/-- With no free slot behind the entries, the second half of `Enter` either finds the
entry and changes nothing, or leaves the allocated array. -/
theorem EnterPlace_noroom (s s' : State) (l : List Int) (x : Int)
    (hl : s.fList = some l) (hn : s.fN = (l.length : Int))
    (h : EnterPlace s x = .ok s') : s' = s := by
  unfold EnterPlace at h
  simp only [hl] at h
  have hplace : ∀ found : Int,
      (if BinarySearch s.fN l x ≥ 0 ∧ x = found then (Except.ok s : Exec State)
       else
        memmove l (BinarySearch s.fN l x + 1 + 1) (BinarySearch s.fN l x + 1)
            (s.fN - (BinarySearch s.fN l x + 1)) >>= fun l1 =>
          store l1 (BinarySearch s.fN l x + 1) x >>= fun l2 =>
            (Except.ok { s with fList := some l2, fN := s.fN + 1 } : Exec State))
        = .ok s' → s' = s := by
    intro found h3
    by_cases hf : BinarySearch s.fN l x ≥ 0 ∧ x = found
    · rw [if_pos hf] at h3
      exact (ok_inj h3).symm
    · rw [if_neg hf, hn, memmove_full_error] at h3
      exact (error_ne_ok h3).elim
  have hsearch : (if BinarySearch s.fN l x ≥ 0 then
        (load (some l) (BinarySearch s.fN l x) >>= fun found =>
          if BinarySearch s.fN l x ≥ 0 ∧ x = found then (Except.ok s : Exec State)
          else
            memmove l (BinarySearch s.fN l x + 1 + 1) (BinarySearch s.fN l x + 1)
                (s.fN - (BinarySearch s.fN l x + 1)) >>= fun l1 =>
              store l1 (BinarySearch s.fN l x + 1) x >>= fun l2 =>
                (Except.ok { s with fList := some l2, fN := s.fN + 1 } : Exec State))
      else
        ((Except.ok 0 : Exec Int) >>= fun found =>
          if BinarySearch s.fN l x ≥ 0 ∧ x = found then (Except.ok s : Exec State)
          else
            memmove l (BinarySearch s.fN l x + 1 + 1) (BinarySearch s.fN l x + 1)
                (s.fN - (BinarySearch s.fN l x + 1)) >>= fun l1 =>
              store l1 (BinarySearch s.fN l x + 1) x >>= fun l2 =>
                (Except.ok { s with fList := some l2, fN := s.fN + 1 } : Exec State)))
        = .ok s' → s' = s := by
    intro h3
    by_cases hp : BinarySearch s.fN l x ≥ 0
    · rw [if_pos hp] at h3
      obtain ⟨found, _, h4⟩ := bind_eq_ok h3
      exact hplace found h4
    · rw [if_neg hp, ok_bind] at h3
      exact hplace 0 h3
  by_cases h0 : s.fN = 0
  · rw [if_pos h0, ok_bind, if_pos (Or.inl h0), hn, store_full_error] at h
    exact (error_ne_ok h).elim
  · rw [if_neg h0] at h
    obtain ⟨last, _, h2⟩ := bind_eq_ok h
    by_cases hgt : x > last
    · rw [if_pos (Or.inr hgt), hn, store_full_error] at h2
      exact (error_ne_ok h2).elim
    · rw [if_neg (by intro hc; rcases hc with hc | hc; exact h0 hc; exact hgt hc)] at h2
      exact hsearch h2

theorem reachInv_of_valid {s : State} (hv : Valid s) (hs : StrictlyIncreasing s)
    (hd : 0 < s.fDelta) : ReachInv s :=
  ⟨hv.wf, hs, hv.2.1, hv.2.2.1, hd⟩

/-- The second half of `Enter`, when it succeeds on a consistent sorted list with
`count < capacity`, keeps the invariant. -/
theorem EnterPlace_inv (s s' : State) (l : List Int) (x : Int) (hl : s.fList = some l)
    (hwf : WF s) (hs : StrictlyIncreasing s) (hlt : s.fN < s.fSize) (hd : 0 < s.fDelta)
    (h : EnterPlace s x = .ok s') : ReachInv s' := by
  obtain ⟨n, hn⟩ : ∃ n : Nat, s.fN = (n : Int) := ⟨s.fN.toNat, by have := hwf.1; omega⟩
  have hnl : n ≤ l.length := by
    have := hwf.2
    rw [hl] at this
    simp only at this
    omega
  have he : entries s = l.take n := by rw [entries_some hl, hn]; simp
  rcases Nat.lt_or_ge n l.length with hroom | hfull
  · have hs0 : (l.take n).Pairwise (fun a b => a < b) := by rw [← he]; exact hs
    obtain ⟨s2, hr, hsz, hde, _, ⟨l', hl', hlen'⟩, hcase⟩ :=
      EnterPlace_spec s l n x hl hn hroom hs0
    rw [hr] at h
    have := ok_inj h
    subst this
    rcases hcase with ⟨_, hsame⟩ | ⟨_, hfn, k, _, hent, hlo, hhi⟩
    · rw [hsame]
      exact ⟨hwf, hs, by omega, by omega, hd⟩
    · refine ⟨wf_of_some hl' (by omega) (by omega), ?_, by omega, by omega, by omega⟩
      unfold StrictlyIncreasing
      rw [hent]
      exact pairwise_insert hs0 k x hlo hhi
  · have hn2 : s.fN = (l.length : Int) := by omega
    rw [EnterPlace_noroom s s' l x hl hn2 h]
    exact ⟨hwf, hs, by omega, by omega, hd⟩

/-- On an allocated list `Enter` either returns at once or runs the optional growth
followed by the placement. -/
theorem Enter_eq_cases (env : Env) (s : State) (l0 : List Int) (x : Int)
    (hl : s.fList = some l0) :
    Enter env s x = .ok s ∨
    Enter env s x = ((if s.fN ≥ s.fSize then
        Resize env s (max (2 * s.fSize) (s.fN + s.fDelta) - s.fSize)
      else (Except.ok s : Exec State)) >>= fun s1 => EnterPlace s1 x) ∨
    ∃ e, Enter env s x = .error e := by
  have hdist : (if s.fN ≥ s.fSize then
        (Resize env s (max (2 * s.fSize) (s.fN + s.fDelta) - s.fSize) >>= fun s1 =>
          EnterPlace s1 x)
      else ((Except.ok s : Exec State) >>= fun s1 => EnterPlace s1 x)) =
      ((if s.fN ≥ s.fSize then
        Resize env s (max (2 * s.fSize) (s.fN + s.fDelta) - s.fSize)
      else (Except.ok s : Exec State)) >>= fun s1 => EnterPlace s1 x) := by
    split <;> rfl
  rw [← hdist]
  unfold Enter
  simp only [hl]
  by_cases hpos : s.fN > 0
  · rw [if_pos hpos]
    cases hload : load (some l0) (s.fN - 1) with
    | error e => exact Or.inr (Or.inr ⟨e, rfl⟩)
    | ok v =>
      rw [ok_bind]
      by_cases hxv : x = v
      · rw [if_pos ⟨hpos, hxv⟩]
        exact Or.inl rfl
      · rw [if_neg (by intro h; exact hxv h.2)]
        exact Or.inr (Or.inl rfl)
  · rw [if_neg hpos, ok_bind, if_neg (by intro h; exact hpos h.1)]
    exact Or.inr (Or.inl rfl)

/-- A successful `Enter` keeps the invariant, also when the recorded capacity exceeds the
allocated slots. -/
theorem Enter_inv (env : Env) (s s' : State) (x : Int) (hinv : ReachInv s)
    (h : Enter env s x = .ok s') : ReachInv s' := by
  obtain ⟨hwf, hs, hcap, hsz, hd⟩ := hinv
  cases hl : s.fList with
  | none =>
    have hv : Valid s := by
      refine ⟨hwf.1, hcap, hsz, ?_⟩
      rw [hl]
      have := hwf.2
      rw [hl] at this
      exact this
    obtain ⟨s2, hr, hv2, hs2, _, _, hde, _⟩ := Enter_spec env s x hv hs
    rw [hr] at h
    rw [← ok_inj h]
    exact reachInv_of_valid hv2 hs2 (by omega)
  | some l0 =>
    rcases Enter_eq_cases env s l0 x hl with h1 | h1 | ⟨e, h1⟩
    · rw [h1] at h
      rw [← ok_inj h]
      exact ⟨hwf, hs, hcap, hsz, hd⟩
    · rw [h1] at h
      obtain ⟨s1, hg, h2⟩ := bind_eq_ok h
      by_cases hfull : s.fN ≥ s.fSize
      · rw [if_pos hfull] at hg
        have hne : ¬ (max (2 * s.fSize) (s.fN + s.fDelta) - s.fSize = 0) := by
          have := le_max_left (2 * s.fSize) (s.fN + s.fDelta)
          omega
        have hsz2 : s.fN ≤ s.fSize + (if max (2 * s.fSize) (s.fN + s.fDelta) - s.fSize = 0
            then s.fDelta else max (2 * s.fSize) (s.fN + s.fDelta) - s.fSize) := by
          have := le_max_left (2 * s.fSize) (s.fN + s.fDelta)
          rw [if_neg hne]; omega
        obtain ⟨l1, hres, hlen, htake⟩ := Resize_spec env s _ hwf hsz2
        rw [if_neg hne] at hres hlen
        rw [hres] at hg
        have := ok_inj hg
        subst this
        have hmax := le_max_left (2 * s.fSize) (s.fN + s.fDelta)
        have hwf1 : WF { s with
            fSize := s.fSize + (max (2 * s.fSize) (s.fN + s.fDelta) - s.fSize),
            fList := some l1 } :=
          wf_of_some (l := l1) rfl hwf.1 (by simp only; omega)
        have hs1 : StrictlyIncreasing { s with
            fSize := s.fSize + (max (2 * s.fSize) (s.fN + s.fDelta) - s.fSize),
            fList := some l1 } := by
          unfold StrictlyIncreasing
          have : entries { s with
              fSize := s.fSize + (max (2 * s.fSize) (s.fN + s.fDelta) - s.fSize),
              fList := some l1 } = entries s := htake
          rw [this]; exact hs
        exact EnterPlace_inv _ s' l1 x rfl hwf1 hs1 (by simp only; omega) hd h2
      · rw [if_neg hfull] at hg
        have := ok_inj hg
        subst this
        exact EnterPlace_inv s s' l0 x hl hwf hs (by omega) hd h2
    · rw [h1] at h
      cases h

theorem Subtract_inv (env : Env) (A A' : State) (alist : Option State) (hinv : ReachInv A)
    (h : Subtract env A alist = .ok A') : ReachInv A' := by
  obtain ⟨hwf, hs, hcap, hsz, hd⟩ := hinv
  unfold Subtract at h
  cases alist with
  | none =>
    simp only at h
    rw [← ok_inj h]
    exact ⟨hwf, hs, hcap, hsz, hd⟩
  | some al =>
    simp only at h
    cases hfl : A.fList with
    | none =>
      rw [hfl] at h
      simp only at h
      rw [← ok_inj h]
      exact ⟨hwf, hs, hcap, hsz, hd⟩
    | some fl =>
      rw [hfl] at h
      simp only at h
      obtain ⟨d, hd1, h2⟩ := bind_eq_ok h
      obtain ⟨⟨nl, r⟩, hf, h3⟩ := bind_eq_ok h2
      simp only at h3
      obtain ⟨hw', hsub, hle⟩ := filter_run_sublist env (fun idx => decide (idx < 0)) A al
        fl nl r (env.cutAnd A.fTitle (env.cutNot al.fTitle)) hwf hfl
        (by rw [hd1, ok_bind]; exact hf)
      rw [← ok_inj h3]
      exact ⟨hw', hs.sublist hsub, by simp only; omega, hsz, hd⟩

theorem Intersect_inv (env : Env) (A A' : State) (alist : Option State)
    (hinv : ReachInv A) (h : Intersect env A alist = .ok A') : ReachInv A' := by
  obtain ⟨hwf, hs, hcap, hsz, hd⟩ := hinv
  unfold Intersect at h
  cases alist with
  | none =>
    simp only at h
    rw [← ok_inj h]
    exact ⟨hwf, hs, hcap, hsz, hd⟩
  | some al =>
    simp only at h
    cases hfl : A.fList with
    | none =>
      rw [hfl] at h
      simp only at h
      rw [← ok_inj h]
      exact ⟨hwf, hs, hcap, hsz, hd⟩
    | some fl =>
      rw [hfl] at h
      simp only at h
      obtain ⟨d, hd1, h2⟩ := bind_eq_ok h
      obtain ⟨⟨nl, r⟩, hf, h3⟩ := bind_eq_ok h2
      simp only at h3
      obtain ⟨hw', hsub, hle⟩ := filter_run_sublist env (fun idx => decide (idx ≥ 0)) A al
        fl nl r (env.cutAnd A.fTitle al.fTitle) hwf hfl
        (by rw [hd1, ok_bind]; exact hf)
      rw [← ok_inj h3]
      exact ⟨hw', hs.sublist hsub, by simp only; omega, hsz, hd⟩

theorem Add_inv (env : Env) (A B A' : State) (hinv : ReachInv A) (hB : WF B)
    (hsB : StrictlyIncreasing B) (h : Add env A (some B) = .ok A') : ReachInv A' := by
  obtain ⟨hwf, hs, hcap, hsz, hd⟩ := hinv
  obtain ⟨A2, hr, hwf2, hs2, _, hle, _⟩ := Add_spec env A B hwf hB hs hsB
  rw [hr] at h
  have := ok_inj h
  subst this
  obtain ⟨hde, hcase⟩ := Add_frame env A B A2 hr
  have hB0 := hB.1
  have hA0 := hwf.1
  rcases hcase with ⟨_, hsame⟩ | ⟨hne, _, hsize, hfn, _⟩ | ⟨hne, _, hsize, _⟩
  · rw [hsame]
    exact ⟨hwf, hs, hcap, hsz, hd⟩
  · exact ⟨hwf2, hs2, by omega, by omega, by omega⟩
  · exact ⟨hwf2, hs2, by omega, by omega, by omega⟩

theorem Resize_inv (env : Env) (s s' : State) (delta : Int) (hinv : ReachInv s)
    (hdelta : 0 ≤ delta) (h : Resize env s delta = .ok s') : ReachInv s' := by
  obtain ⟨hwf, hs, hcap, hsz, hd⟩ := hinv
  have hsz2 : s.fN ≤ s.fSize + (if delta = 0 then s.fDelta else delta) := by
    split <;> omega
  obtain ⟨l, hr, hlen, htake⟩ := Resize_spec env s delta hwf hsz2
  rw [hr] at h
  rw [← ok_inj h]
  refine ⟨wf_of_some (l := l) rfl hwf.1 (by simp only; omega), ?_, ?_, ?_, hd⟩
  · unfold StrictlyIncreasing
    have : entries { s with
        fSize := s.fSize + (if delta = 0 then s.fDelta else delta), fList := some l }
        = entries s := htake
    rw [this]; exact hs
  · simp only
    split <;> omega
  · simp only
    split <;> omega

theorem Reset_inv (s : State) (hinv : ReachInv s) : ReachInv (Reset s) := by
  obtain ⟨hwf, hs, hcap, hsz, hd⟩ := hinv
  obtain ⟨hw, hsr, _⟩ := Reset_wf s
  exact ⟨hw, hsr, by simp only [Reset]; omega, hsz, hd⟩

theorem ctor_inv (title : String) (initsize delta : Int) :
    ReachInv (ctor title initsize delta) := by
  obtain ⟨hv, hs, _⟩ := ctor_valid title initsize delta
  refine reachInv_of_valid hv hs ?_
  simp only [ctor]
  split <;> omega

theorem Reachable.inv {env : Env} {s : State} (h : Reachable env s) : ReachInv s := by
  induction h with
  | new title initsize delta => exact ctor_inv title initsize delta
  | step s s' _ hstep ih =>
    cases hstep with
    | enter _ x hx => exact Enter_inv env s s' x ih hx
    | add _ B hB hsB hadd => exact Add_inv env s B s' ih hB hsB hadd
    | subtract _ alist hsub => exact Subtract_inv env s s' alist ih hsub
    | intersect _ alist hint => exact Intersect_inv env s s' alist ih hint
    | reset => exact Reset_inv s ih
    | resize _ delta hd hres => exact Resize_inv env s s' delta ih hd hres

/-- C17. The sort invariant holds for a newly constructed list and in every state reached
from it by successful calls of `Enter` (any entry), `Add` (any consistent, strictly
increasing argument), `Subtract` and `Intersect` (any argument), `Reset`, and `Resize`
(any `delta ≥ 0`): each of these calls preserves it. -/
theorem C17_sortedness_invariant (env : Env) (s : State) (h : Reachable env s) :
    StrictlyIncreasing s :=
  h.inv.2.1

/-- C17 along the run: construct, `Add([3,4,5])`, `Subtract([1,5])`. -/
theorem C17_sortedness_invariant_witness :
    ∃ s, Subtract sampleEnv list345 (some list15) = .ok s ∧ entries s = [3, 4] ∧
      Reachable sampleEnv s ∧ StrictlyIncreasing s :=
  have hreach : Reachable sampleEnv _ :=
    Reachable.step _ _
      (Reachable.step _ list345 (Reachable.new "" 0 0)
        (Step.add _ _ list345 (by decide) (by decide) rfl))
      (Step.subtract _ _ (some list15) rfl)
  ⟨_, rfl, rfl, hreach, C17_sortedness_invariant sampleEnv _ hreach⟩

/-- C18 on the code: construct, `Enter(1)`, `Subtract([3,4,5])`.  `Subtract` replaces the
buffer by a new one of `fN = 1` slot and leaves `fSize` at 100, so the recorded capacity
exceeds the allocated slots; the following `Enter(2)` sees `fN < fSize`, does not grow, and
stores at `fList[1]`, outside the array. -/
theorem C18_capacity_stale_after_subtract :
    ∃ s1 s2, Enter sampleEnv ctorDefault 1 = .ok s1 ∧
      Subtract sampleEnv s1 (some list345) = .ok s2 ∧
      s2.fN = 1 ∧ s2.fSize = 100 ∧ s2.fList = some [1] ∧ ¬ Valid s2 ∧
      Reachable sampleEnv s2 ∧
      Enter sampleEnv s2 2 = .error Fault.outOfBounds :=
  ⟨_, _, rfl, rfl, rfl, rfl, rfl, by decide,
    Reachable.step _ _
      (Reachable.step _ _ (Reachable.new "" 0 0) (Step.enter _ _ 1 rfl))
      (Step.subtract _ _ (some list345) rfl),
    rfl⟩

/-- C21. On a consistent list with `count ≤ capacity`, `Sort()` succeeds; afterwards the
first `fN` entries are in ascending (non-decreasing) order and are a rearrangement of the
previous ones with the same multiset of values, `fN` and `fSize` are unchanged, the new
array has `fSize` slots, and every position from `fN` to `fSize - 1` holds 0. -/
theorem C21_sort_result (env : Env) (s : State) (hwf : WF s) (hcap : s.fN ≤ s.fSize) :
    ∃ s' l', SortEntries env s = .ok s' ∧ s'.fList = some l' ∧
      (entries s').Pairwise (fun a b => a ≤ b) ∧ (entries s').Perm (entries s) ∧
      (Multiset.ofList (entries s') = Multiset.ofList (entries s)) ∧
      s'.fN = s.fN ∧ s'.fSize = s.fSize ∧ (l'.length : Int) = s.fSize ∧
      (∀ j : Nat, s.fN ≤ j → (j : Int) < s.fSize → l'[j]? = some 0) := by
  obtain ⟨l', hr, hlen, hperm, hsorted, hpad⟩ := SortEntries_spec env s hwf hcap
  have he : entries { s with fList := some l' } = l'.take s.fN.toNat := rfl
  refine ⟨_, l', hr, rfl, by rw [he]; exact hsorted, by rw [he]; exact hperm, ?_, rfl, rfl,
    hlen, hpad⟩
  rw [he]
  exact Multiset.coe_eq_coe.mpr hperm

/-- C21 at the unsorted buffer `5, 1, 4` with five slots: the result is
`1, 4, 5, 0, 0`. -/
theorem C21_sort_result_witness :
    WF list514 ∧ list514.fN ≤ list514.fSize ∧
    ∃ s' l', SortEntries sampleEnv list514 = .ok s' ∧ s'.fList = some l' ∧
      (entries s').Pairwise (fun a b => a ≤ b) ∧ (entries s').Perm (entries list514) ∧
      (Multiset.ofList (entries s') = Multiset.ofList (entries list514)) ∧
      s'.fN = list514.fN ∧ s'.fSize = list514.fSize ∧
      (l'.length : Int) = list514.fSize ∧
      (∀ j : Nat, list514.fN ≤ j → (j : Int) < list514.fSize → l'[j]? = some 0) :=
  ⟨by decide, by decide, C21_sort_result sampleEnv list514 (by decide) (by decide)⟩

/-- The run of `Sort` on the buffer `5, 1, 4` with five slots, on the code. -/
theorem scenario_sort :
    (SortEntries sampleEnv list514).map (fun s => (s.fList, s.fN, s.fSize))
      = .ok (some [1, 4, 5, 0, 0], 3, 5) := by
  rfl

/-! ## ContainsRange below the first entry -/

/-- When every entry is above `entrymax`, the binary search answers `-1` and
`ContainsRange` reads `fList[-1]`. -/
theorem ContainsRange_below_first (s : State) (l : List Int) (entrymin entrymax : Int)
    (hl : s.fList = some l) (hall : ∀ e ∈ entries s, entrymax < e) :
    BinarySearch s.fN (s.fList.getD []) entrymax = -1 ∧
    ContainsRange s entrymin entrymax = .error Fault.outOfBounds := by
  have he : entries s = l.take s.fN.toNat := entries_some hl
  have hfilter : (l.take s.fN.toNat).filter (fun e => decide (e ≤ entrymax)) = [] := by
    rw [List.filter_eq_nil_iff]
    intro e hmem
    have := hall e (by rw [he]; exact hmem)
    simp only [decide_eq_true_eq]
    omega
  have hb : BinarySearch s.fN (s.fList.getD []) entrymax = -1 := by
    unfold BinarySearch
    rw [hl, Option.getD_some, hfilter]
    rfl
  refine ⟨hb, ?_⟩
  unfold ContainsRange
  rw [hb, hl]
  rfl

/-- C22 on the code: the list `[1,3,5,7]` is strictly increasing with `fN = 4 > 0`, yet for
`high = 0`, below the first entry, the binary search returns `-1`, which is not in
`[0, fN)`, and `ContainsRange(0, 0)` reads `fList[-1]`, outside the array. -/
theorem C22_ContainsRange_reads_before_first_entry :
    WF list1357 ∧ StrictlyIncreasing list1357 ∧ 0 < list1357.fN ∧
    BinarySearch list1357.fN (list1357.fList.getD []) 0 = -1 ∧
    ¬ ((0 : Int) ≤ BinarySearch list1357.fN (list1357.fList.getD []) 0 ∧
        BinarySearch list1357.fN (list1357.fList.getD []) 0 < list1357.fN) ∧
    ContainsRange list1357 0 0 = .error Fault.outOfBounds :=
  ⟨by decide, by decide, by decide, by decide, by decide, rfl⟩

/-! ## The loop of GetIndex on arbitrary buffer contents -/

theorem GetIndexLoop_total (l : List Int) (n : Nat) (hn : n ≤ l.length) (x : Int) :
    ∀ (fuel hi lo : Nat), lo < hi → hi ≤ n + 1 → hi - lo - 1 ≤ fuel →
      ∃ r : Int, GetIndexLoop (some l) x fuel (hi : Int) (lo : Int) = .ok r ∧
        (r = -1 ∨ ∃ i : Nat, i < n ∧ r = (i : Int) ∧ l[i]? = some x) := by
  intro fuel
  induction fuel with
  | zero =>
    intro hi lo hlo hhi hfuel
    refine ⟨-1, ?_, Or.inl rfl⟩
    unfold GetIndexLoop
    have : ¬ ((hi : Int) - (lo : Int) > 1) := by omega
    simp [this]
  | succ k ih =>
    intro hi lo hlo hhi hfuel
    by_cases hgap : (hi : Int) - (lo : Int) > 1
    · unfold GetIndexLoop
      simp only [hgap, if_true]
      have hmid : ((hi : Int) + (lo : Int)).tdiv 2 = (((hi + lo) / 2 : Nat) : Int) := by
        rw [Int.tdiv_eq_ediv (by omega) (by decide)]
        omega
      obtain ⟨m, hm⟩ : ∃ m : Nat, m = (hi + lo) / 2 := ⟨_, rfl⟩
      rw [hmid, ← hm]
      have hm1 : lo < m := by omega
      have hm2 : m < hi := by omega
      have hcast : ((m : Int) - 1) = ((m - 1 : Nat) : Int) := by omega
      obtain ⟨v, hv⟩ : ∃ v, l[m - 1]? = some v :=
        ⟨_, List.getElem?_eq_getElem (show m - 1 < l.length by omega)⟩
      simp only [hcast, load_ok hv, ok_bind]
      by_cases hxv : x = v
      · refine ⟨((m - 1 : Nat) : Int), by simp [hxv], Or.inr ⟨m - 1, by omega, rfl, ?_⟩⟩
        rw [hxv]; exact hv
      · by_cases hlt : x < v
        · simp only [hxv, if_false, hlt, if_true]
          exact ih m lo hm1 (by omega) (by omega)
        · simp only [hxv, if_false, hlt]
          exact ih hi m hm2 hhi (by omega)
    · refine ⟨-1, ?_, Or.inl rfl⟩
      unfold GetIndexLoop
      simp [hgap]

/-- The loop reads nothing beyond the first `n` slots: it runs the same way on the array
cut down to those slots, where any other read would be a fault. -/
theorem GetIndexLoop_take (l : List Int) (n : Nat) (x : Int) :
    ∀ (fuel hi lo : Nat), hi ≤ n + 1 →
      GetIndexLoop (some (l.take n)) x fuel (hi : Int) (lo : Int)
        = GetIndexLoop (some l) x fuel (hi : Int) (lo : Int) := by
  intro fuel
  induction fuel with
  | zero =>
    intro hi lo _
    unfold GetIndexLoop
    rfl
  | succ k ih =>
    intro hi lo hhi
    by_cases hgap : (hi : Int) - (lo : Int) > 1
    · have hmid : ((hi : Int) + (lo : Int)).tdiv 2 = (((hi + lo) / 2 : Nat) : Int) := by
        rw [Int.tdiv_eq_ediv (by omega) (by decide)]
        omega
      obtain ⟨m, hm⟩ : ∃ m : Nat, m = (hi + lo) / 2 := ⟨_, rfl⟩
      have hm2 : m < hi := by omega
      have hm1 : 0 < m := by omega
      have hcast : ((m : Int) - 1) = ((m - 1 : Nat) : Int) := by omega
      have hload : load (some (l.take n)) ((m - 1 : Nat) : Int)
          = load (some l) ((m - 1 : Nat) : Int) := by
        simp only [load, Int.toNat_ofNat, List.getElem?_take]
        rw [if_pos (show m - 1 < n by omega)]
      unfold GetIndexLoop
      simp only [hgap, if_true]
      rw [hmid, ← hm, hcast, hload]
      cases load (some l) ((m - 1 : Nat) : Int) with
      | error e => rfl
      | ok v =>
        simp only [ok_bind]
        rw [← hcast, ih m lo (by omega), ih hi m hhi]
    · unfold GetIndexLoop
      simp [hgap]

/-- Once the bound on the iterations covers the gap, a larger bound changes nothing. -/
theorem GetIndexLoop_fuel (p : Option (List Int)) (x : Int) :
    ∀ (fuel fuel2 hi lo : Nat), hi - lo - 1 ≤ fuel → hi - lo - 1 ≤ fuel2 →
      GetIndexLoop p x fuel (hi : Int) (lo : Int)
        = GetIndexLoop p x fuel2 (hi : Int) (lo : Int) := by
  intro fuel
  induction fuel with
  | zero =>
    intro fuel2 hi lo h1 _
    have hgap : ¬ ((hi : Int) - (lo : Int) > 1) := by omega
    unfold GetIndexLoop
    simp [hgap]
  | succ k ih =>
    intro fuel2 hi lo h1 h2
    by_cases hgap : (hi : Int) - (lo : Int) > 1
    · cases fuel2 with
      | zero => omega
      | succ k2 =>
        have hmid : ((hi : Int) + (lo : Int)).tdiv 2 = (((hi + lo) / 2 : Nat) : Int) := by
          rw [Int.tdiv_eq_ediv (by omega) (by decide)]
          omega
        obtain ⟨m, hm⟩ : ∃ m : Nat, m = (hi + lo) / 2 := ⟨_, rfl⟩
        have hm1 : lo < m := by omega
        have hm2 : m < hi := by omega
        unfold GetIndexLoop
        simp only [hgap, if_true]
        rw [hmid, ← hm]
        cases load p ((m : Int) - 1) with
        | error e => rfl
        | ok v =>
          simp only [ok_bind]
          rw [ih k2 m lo (by omega) (by omega), ih k2 hi m (by omega) (by omega)]
    · unfold GetIndexLoop
      simp [hgap]

/-- C23. On a consistent list (`0 ≤ fN`, the first `fN` slots exist) with arbitrary buffer
contents, sorted or not:
the loop of `GetIndex` returns within `fN` iterations, with `-1` or a position in
`[0, fN)`, and a larger iteration bound gives the same result;
it reads only positions in `[0, fN)`: the run is the same on the array cut down to its
first `fN` slots, where a read anywhere else is a fault;
with `fN = 0` it returns `-1` without a read, also behind a null pointer;
and each iteration with `nabove - nbelow > 1` puts `middle` strictly between `nbelow` and
`nabove`, so the gap strictly decreases and `0 ≤ middle - 1 < fN` while
`0 ≤ nbelow` and `nabove ≤ fN + 1`. -/
theorem C23_GetIndex_loop_terminates_in_range (s : State) (x : Int) (hwf : WF s) :
    (∃ r, GetIndex s x = .ok r ∧ (r = -1 ∨ (0 ≤ r ∧ r < s.fN)) ∧
      ∀ fuel, s.fN.toNat ≤ fuel → GetIndexLoop s.fList x fuel (s.fN + 1) 0 = .ok r) ∧
    (GetIndex { s with fList := s.fList.map (fun l => l.take s.fN.toNat) } x
      = GetIndex s x) ∧
    (s.fN = 0 → GetIndex s x = .ok (-1) ∧ GetIndex { s with fList := none } x = .ok (-1)) ∧
    (∀ nabove nbelow : Int, 0 ≤ nbelow → nabove ≤ s.fN + 1 → nabove - nbelow > 1 →
      nbelow < (nabove + nbelow).tdiv 2 ∧ (nabove + nbelow).tdiv 2 < nabove ∧
      0 ≤ (nabove + nbelow).tdiv 2 - 1 ∧ (nabove + nbelow).tdiv 2 - 1 < s.fN) := by
  have h0 := hwf.1
  obtain ⟨n, hn⟩ : ∃ n : Nat, s.fN = (n : Int) := ⟨s.fN.toNat, by omega⟩
  have hzero : s.fN = 0 → ∀ p : Option (List Int), ∀ fuel : Nat,
      GetIndexLoop p x fuel (s.fN + 1) 0 = .ok (-1) := by
    intro hz p fuel
    unfold GetIndexLoop
    simp [hz]
  refine ⟨?_, ?_, ?_, ?_⟩
  · cases hl : s.fList with
    | none =>
      have hz : s.fN = 0 := by
        have := hwf.2
        rw [hl] at this
        exact this
      refine ⟨-1, ?_, Or.inl rfl, fun fuel _ => hzero hz _ fuel⟩
      unfold GetIndex
      exact hzero hz _ _
    | some l =>
      have hnl : n ≤ l.length := by
        have := hwf.2
        rw [hl] at this
        simp only at this
        omega
      obtain ⟨r, hr, hcase⟩ := GetIndexLoop_total l n hnl x n (n + 1) 0 (by omega)
        (by omega) (by omega)
      have hr2 : GetIndexLoop (some l) x n ((n : Int) + 1) 0 = .ok r := by
        simpa using hr
      refine ⟨r, ?_, ?_, ?_⟩
      · unfold GetIndex
        rw [hl, hn, Int.toNat_ofNat]
        exact hr2
      · rcases hcase with h | ⟨i, hi, hri, _⟩
        · exact Or.inl h
        · exact Or.inr (by omega)
      · intro fuel hfuel
        rw [hn, Int.toNat_ofNat] at hfuel
        have := GetIndexLoop_fuel (some l) x fuel n (n + 1) 0 (by omega) (by omega)
        rw [hn]
        simpa [hr2] using this
  · cases hl : s.fList with
    | none =>
      unfold GetIndex
      simp only [Option.map_none', hl]
    | some l =>
      unfold GetIndex
      simp only [Option.map_some', hn, Int.toNat_ofNat, hl]
      have := GetIndexLoop_take l n x n (n + 1) 0 (le_refl _)
      simpa using this
  · intro hz
    unfold GetIndex
    exact ⟨hzero hz _ _, hzero hz _ _⟩
  · intro nabove nbelow hb ha hgap
    rw [Int.tdiv_eq_ediv (by omega) (by decide)]
    omega

/-- C23 at the unsorted buffer `5, 1, 4`. -/
theorem C23_GetIndex_loop_terminates_in_range_witness :
    WF list514 ∧
    (∃ r, GetIndex list514 4 = .ok r ∧ (r = -1 ∨ (0 ≤ r ∧ r < list514.fN)) ∧
      ∀ fuel, list514.fN.toNat ≤ fuel →
        GetIndexLoop list514.fList 4 fuel (list514.fN + 1) 0 = .ok r) ∧
    (GetIndex { list514 with
        fList := list514.fList.map (fun l => l.take list514.fN.toNat) } 4
      = GetIndex list514 4) ∧
    (list514.fN = 0 → GetIndex list514 4 = .ok (-1) ∧
      GetIndex { list514 with fList := none } 4 = .ok (-1)) ∧
    (∀ nabove nbelow : Int, 0 ≤ nbelow → nabove ≤ list514.fN + 1 → nabove - nbelow > 1 →
      nbelow < (nabove + nbelow).tdiv 2 ∧ (nabove + nbelow).tdiv 2 < nabove ∧
      0 ≤ (nabove + nbelow).tdiv 2 - 1 ∧ (nabove + nbelow).tdiv 2 - 1 < list514.fN) :=
  ⟨by decide, C23_GetIndex_loop_terminates_in_range list514 4 (by decide)⟩

/-! ## Assignment -/

/-- Copying the first `n` slots into an existing array of at least `n` slots; the source
may be a null pointer when `n = 0`. -/
theorem copy_into (src : Option (List Int)) (n : Nat) (d : List Int) (hd : n ≤ d.length)
    (hsrc : n ≤ (src.getD []).length) :
    ∃ r, copyLoop src n 0 d = .ok r ∧ r.length = d.length ∧
      r.take n = (src.getD []).take n := by
  cases src with
  | none =>
    simp only [Option.getD_none, List.length_nil, Nat.le_zero] at hsrc
    subst hsrc
    exact ⟨d, copyLoop_zero _ _ _, rfl, by simp⟩
  | some l =>
    simp only [Option.getD_some] at hsrc ⊢
    obtain ⟨r, hr, hlen, hget⟩ := copyLoop_spec l n 0 d (by omega) (by omega)
    refine ⟨r, by simpa using hr, hlen, ?_⟩
    apply List.ext_getElem?
    intro j
    rw [List.getElem?_take, List.getElem?_take, hget j]
    by_cases hj : j < n
    · simp [hj]
    · simp [hj]

/-- Where assignment works: the receiver gets a new array because the source's capacity
is larger, or it already has an array with room for the source's entries, or the source is
empty.  The receiver then holds the source's count and entries. -/
theorem operatorAssign_spec (env : Env) (s list : State) (hwf : WF list)
    (hok : (s.fSize < list.fSize ∧ list.fN ≤ list.fSize) ∨
      (¬ s.fSize < list.fSize ∧ ∃ l, s.fList = some l ∧ list.fN ≤ (l.length : Int)) ∨
      (¬ s.fSize < list.fSize ∧ list.fN = 0)) :
    ∃ s', operatorAssign env s list = .ok s' ∧ s'.fN = list.fN ∧
      entries s' = entries list ∧ s'.fSize = list.fSize ∧ s'.fDelta = list.fDelta ∧
      s'.fTitle = list.fTitle := by
  have h0 := hwf.1
  have h1 := hwf.le_getD
  obtain ⟨n, hn⟩ : ∃ n : Nat, list.fN = (n : Int) := ⟨list.fN.toNat, by omega⟩
  -- the target array after the optional allocation, and the copy into it
  have hcopy : ∃ fl, ((if s.fSize < list.fSize then
        (newArray env list.fSize >>= fun l => (Except.ok (some l) : Exec (Option (List Int))))
      else .ok s.fList) >>= fun p => AssignFor list.fList n p) = .ok fl ∧
      (fl.getD []).take n = (list.fList.getD []).take n := by
    rcases hok with ⟨hlt, hcap⟩ | ⟨hge, l, hl, hroom⟩ | ⟨hge, hz⟩
    · obtain ⟨m, hm⟩ : ∃ m : Nat, list.fSize = (m : Int) := ⟨list.fSize.toNat, by omega⟩
      obtain ⟨d, hd, hdl⟩ := newArray_ok env m
      obtain ⟨r, hr, _, htake⟩ := copy_into list.fList n d (by omega) (by omega)
      refine ⟨some r, ?_, by simpa using htake⟩
      rw [if_pos hlt, hm, hd]
      simp only [ok_bind, AssignFor]
      rw [hr, ok_bind]
    · obtain ⟨r, hr, _, htake⟩ := copy_into list.fList n l (by omega) (by omega)
      refine ⟨some r, ?_, by simpa using htake⟩
      rw [if_neg hge, ok_bind, hl]
      simp only [AssignFor]
      rw [hr, ok_bind]
    · have hn0 : n = 0 := by omega
      subst hn0
      rw [if_neg hge, ok_bind]
      cases hl : s.fList with
      | none => exact ⟨none, rfl, by simp⟩
      | some l => exact ⟨some l, by simp [AssignFor, copyLoop_zero], by simp⟩
  obtain ⟨fl, hrun, htake⟩ := hcopy
  refine ⟨⟨list.fN, list.fSize, list.fDelta, fl, list.fTitle⟩, ?_, rfl, ?_, rfl, rfl, rfl⟩
  · unfold operatorAssign
    rw [hn, Int.toNat_ofNat]
    by_cases hlt : s.fSize < list.fSize
    · rw [if_pos hlt] at hrun
      obtain ⟨p, hp, hass⟩ := bind_eq_ok hrun
      obtain ⟨d, hd, hsome⟩ := bind_eq_ok hp
      simp only [hlt, if_true, hd, ok_bind]
      rw [← ok_inj hsome] at hass
      rw [hass, ok_bind]
    · rw [if_neg hlt, ok_bind] at hrun
      simp only [hlt, if_false, ok_bind, hrun]
  · rw [entries_eq_getD, entries_eq_getD list]
    simp only [hn, Int.toNat_ofNat]
    exact htake

/-- C24 on the code: `b` is a default-constructed list after `Enter(3)` (capacity 100), `a`
is default-constructed (capacity 100, no buffer).  In `a = b` the test
`fSize < list.fSize` is false, nothing is allocated, and the copy loop writes `fList[0]`
through the null pointer. -/
theorem C24_assign_to_unallocated_receiver_faults :
    ∃ b, Enter sampleEnv ctorDefault 3 = .ok b ∧ entries b = [3] ∧ b.fN = 1 ∧
      ctorDefault.fList = none ∧ ¬ (ctorDefault.fSize < b.fSize) ∧
      operatorAssign sampleEnv ctorDefault b = .error Fault.nullDeref :=
  ⟨_, rfl, rfl, rfl, rfl, by decide, rfl⟩

end TEventList
